import Mathlib

/-!
Verification of the bulk Excel-to-star-schema ETL loader
(`app/utils/data_loader.py`, class `dbDataLoader`).

The loader is embedded shallowly:

* spreadsheet cell values are an inductive `Value` (missing/NaN, string,
  number, boolean, date, datetime, time); numbers and monetary amounts are
  modelled as rationals;
* a pandas dataframe is a `List (Nat × Row)` of (index label, row) pairs —
  `pd.read_excel` yields labels 0,1,2,…, and filtering preserves labels;
* the relational store is a `Store` of six lists of rows plus per-table
  surrogate-id counters; `bulk_insert_mappings` appends rows with
  sequentially assigned ids, queries are list scans in table order;
* Python dicts keyed by strings are association lists with append-on-assign
  and last-write-wins lookup (`dget`), which matches dict-assignment
  semantics exactly;
* exceptions are `Except`: resolvers and the batch writer return
  `Except Store α`, the error carrying the rolled-back (committed-so-far)
  store, and the top-level `load_excel_data` catch-all maps an error to
  `LoadResult.error` (the fatal "Critical error" event);
* library functions used by the source are modelled where the claims need
  them: `pd.to_datetime` is modelled as the strict `YYYY-MM-DD` parse (the
  explicit `strptime` fallback formats of the source are modelled in full),
  and `str()` of non-string values is modelled per constructor.
-/

namespace ChartedLoader

/-! ## Character-level helpers for the date cleaner -/

/-- ASCII digit test, as the regex `\d` (ASCII model). -/
def isDigitC (c : Char) : Bool := 48 ≤ c.toNat && c.toNat ≤ 57

/-- Numeric value of an ASCII digit character. -/
def digVal (c : Char) : Nat := c.toNat - 48

/-- The digit character for `k % 10`-style values below 10. -/
def digChar (k : Nat) : Char :=
  match k with
  | 0 => '0'
  | 1 => '1'
  | 2 => '2'
  | 3 => '3'
  | 4 => '4'
  | 5 => '5'
  | 6 => '6'
  | 7 => '7'
  | 8 => '8'
  | _ => '9'

/-- Two-digit zero-padded rendering of `n < 100` (Python `f"{n:02d}"`). -/
def pad1c (n : Nat) : List Char := [digChar (n / 10 % 10), digChar (n % 10)]

/-- Four-digit zero-padded rendering of `n ≤ 9999` (Python `%Y` formatting;
the model zero-pads years below 1000). -/
def pad4c (n : Nat) : List Char :=
  [digChar (n / 1000 % 10), digChar (n / 100 % 10), digChar (n / 10 % 10), digChar (n % 10)]

/-- Whitespace as recognised by Python `str.strip` / `str.split` (common chars). -/
def isWS (c : Char) : Bool := c = ' ' || c = '\t' || c = '\n' || c = '\r'

/-- Python `str.strip()`. -/
def trimC (cs : List Char) : List Char :=
  ((cs.dropWhile isWS).reverse.dropWhile isWS).reverse

/-- Python `str.split(sep)` on a single separator character. -/
def splitChar (sep : Char) : List Char → List (List Char)
  | [] => [[]]
  | c :: cs =>
    if c = sep then [] :: splitChar sep cs
    else
      match splitChar sep cs with
      | [] => [[c]]
      | p :: ps => (c :: p) :: ps

/-- Parse one or two digit characters (the `strptime` `%m` / `%d` field). -/
def parse2c : List Char → Option Nat
  | [a] => if isDigitC a then some (digVal a) else none
  | [a, b] => if isDigitC a && isDigitC b then some (10 * digVal a + digVal b) else none
  | _ => none

/-- Parse exactly four digit characters (the `strptime` `%Y` field). -/
def parse4c : List Char → Option Nat
  | [a, b, c, d] =>
    if isDigitC a && isDigitC b && isDigitC c && isDigitC d then
      some (1000 * digVal a + 100 * digVal b + 10 * digVal c + digVal d)
    else none
  | _ => none

/-- Gregorian leap year. -/
def isLeap (y : Nat) : Bool := (y % 4 = 0 && y % 100 ≠ 0) || y % 400 = 0

/-- Days in a month (the calendar validation `datetime` performs). -/
def daysInMonth (y m : Nat) : Nat :=
  if m = 2 then (if isLeap y then 29 else 28)
  else if m = 4 ∨ m = 6 ∨ m = 9 ∨ m = 11 then 30
  else 31

/-- A (year, month, day) triple `datetime.datetime` accepts, with the
four-digit year bound of the `%Y` field. -/
def validYMD (y m d : Nat) : Bool :=
  1 ≤ y && y ≤ 9999 && 1 ≤ m && m ≤ 12 && 1 ≤ d && d ≤ daysInMonth y m

/-- Field order of a date format string. -/
inductive Ord3 where
  | ymd
  | dmy
  | mdy
deriving DecidableEq

/-- Assign the three separated components to year/month/day per the format. -/
def mkYMD (o : Ord3) (a b c : List Char) : Option (Nat × Nat × Nat) :=
  match o with
  | .ymd => do
    let y ← parse4c a
    let m ← parse2c b
    let d ← parse2c c
    pure (y, m, d)
  | .dmy => do
    let d ← parse2c a
    let m ← parse2c b
    let y ← parse4c c
    pure (y, m, d)
  | .mdy => do
    let m ← parse2c a
    let d ← parse2c b
    let y ← parse4c c
    pure (y, m, d)

/-- Read the three fields of a format and validate the calendar date. -/
def tryParts (o : Ord3) (a b c : List Char) : Option (Nat × Nat × Nat) :=
  match mkYMD o a b c with
  | some (y, m, d) => if validYMD y m d then some (y, m, d) else none
  | none => none

/-- One `datetime.strptime(date_str, fmt)` attempt: split on the format's
separator, read the fields, and validate the calendar date. -/
def tryFmt (sep : Char) (o : Ord3) (cs : List Char) : Option (Nat × Nat × Nat) :=
  match splitChar sep cs with
  | [a, b, c] => tryParts o a b c
  | _ => none

/-- The parse cascade of `_clean_date_with_id`: `pd.to_datetime` (modelled as
the strict ISO `YYYY-MM-DD` parse) followed by the source's `strptime`
fallback formats `%Y-%m-%d`, `%d/%m/%Y`, `%m/%d/%Y`, `%Y.%m.%d`, `%d-%m-%Y`,
`%m-%d-%Y` in order. -/
def tryFormats (cs : List Char) : Option (Nat × Nat × Nat) :=
  match tryFmt '-' .ymd cs with
  | some r => some r
  | none =>
  match tryFmt '/' .dmy cs with
  | some r => some r
  | none =>
  match tryFmt '/' .mdy cs with
  | some r => some r
  | none =>
  match tryFmt '.' .ymd cs with
  | some r => some r
  | none =>
  match tryFmt '-' .dmy cs with
  | some r => some r
  | none => tryFmt '-' .mdy cs

/-- Canonical `YYYY-MM-DD` characters (`strftime('%Y-%m-%d')`). -/
def isoChars (y m d : Nat) : List Char :=
  pad4c y ++ ('-' :: (pad1c m ++ ('-' :: pad1c d)))

/-- Canonical `YYYY-MM-DD` string. -/
def isoStr (y m d : Nat) : String := ⟨isoChars y m d⟩

/-- The sentinel returned for unparseable or missing dates. -/
def sentinelDate : String × Nat := ("2000-01-01", 20000101)

/-- The window test of the regex `\d{4}-\d{2}-\d{2}` at one position. -/
def isoWindow (cs : List Char) : Option (List Char) :=
  match cs with
  | a :: b :: c :: d :: '-' :: e :: f :: '-' :: g :: h :: _ =>
    if isDigitC a && isDigitC b && isDigitC c && isDigitC d &&
        isDigitC e && isDigitC f && isDigitC g && isDigitC h then
      some [a, b, c, d, '-', e, f, '-', g, h]
    else none
  | _ => none

/-- `re.search(r'\d{4}-\d{2}-\d{2}', s)`: the leftmost window matching the
pattern. -/
def findISO : List Char → Option (List Char)
  | [] => none
  | c :: rest => (isoWindow (c :: rest)).orElse fun _ => findISO rest

/-- Strip the raw string and drop a trailing whitespace-separated time
component, as `_clean_date_with_id` does before parsing.  (The source's
`replace(' 00:00:00', '')` line is unreachable: it is guarded behind the
whitespace split, after which no space remains.) -/
def goTok (cs : List Char) : List Char :=
  let t := trimC cs
  if t.contains ' ' then t.takeWhile (fun c => !isWS c) else t

/-- The shared tail of `_clean_date_with_id` once a raw string is in hand:
normalise with `goTok`, then run the parse cascade; parse success yields the
formatted date and the derived id `year*10000 + month*100 + day`, failure
yields the sentinel. -/
def goParse (cs : List Char) : String × Nat :=
  match tryFormats (goTok cs) with
  | some (y, m, d) => (isoStr y m d, 10000 * y + 100 * m + d)
  | none => sentinelDate

/-! ## Cell values and the row cleaners -/

/-- A raw spreadsheet cell as pandas hands it to the loader: missing (NaN or
None), a string, a number (modelled as a rational), a boolean, a date, a
datetime, or a time-of-day value. -/
inductive Value where
  | none
  | str (s : String)
  | num (q : ℚ)
  | boolV (b : Bool)
  | dateV (y m d : Nat)
  | datetimeV (y m d hh mm ss : Nat)
  | timeV (hh mm ss : Nat)
deriving DecidableEq

/-- Python `str()` of a year for date rendering: zero-padded to four digits
below 10000 (`%Y`), full digits above. -/
def yearChars (y : Nat) : List Char :=
  if y < 10000 then pad4c y else Nat.toDigits 10 y

/-- `str()` of a date value, `YYYY-MM-DD`. -/
def pyDateChars (y m d : Nat) : List Char :=
  yearChars y ++ '-' :: pad1c m ++ '-' :: pad1c d

/-- `str()` of a time-of-day, `HH:MM:SS`. -/
def pyTimeChars (hh mm ss : Nat) : List Char :=
  pad1c hh ++ ':' :: pad1c mm ++ ':' :: pad1c ss

/-- Python `str(value)` per cell kind.  Numbers are rendered via the `Rat`
string form; the claims never depend on the concrete digits of a stringified
number (such strings fail every date parse either way). -/
def pyStrVal : Value → String
  | .none => "nan"
  | .str s => s
  | .num q => toString q
  | .boolV b => if b then "True" else "False"
  | .dateV y m d => ⟨pyDateChars y m d⟩
  | .datetimeV y m d hh mm ss => ⟨pyDateChars y m d ++ ' ' :: pyTimeChars hh mm ss⟩
  | .timeV hh mm ss => ⟨pyTimeChars hh mm ss⟩

/-- Python `str.lower()` (ASCII model), character by character. -/
def lowerC (cs : List Char) : List Char := cs.map Char.toLower

/-- Python `str.upper()` (ASCII model), character by character. -/
def upperC (cs : List Char) : List Char := cs.map Char.toUpper

/-- `_clean_string`: missing values become the default; otherwise the
stringified value is stripped, and an empty or literal "nan" result falls
back to the default. -/
def cleanString (v : Value) (dflt : String) : String :=
  match v with
  | .none => dflt
  | _ =>
    let cleaned : String := ⟨trimC (pyStrVal v).toList⟩
    if cleaned ≠ "" ∧ lowerC cleaned.toList ≠ "nan".toList then cleaned else dflt

/-- Python `float()` on the non-fractional digits, for `parseFloatC`. -/
def natOfDigits (cs : List Char) : Nat := cs.foldl (fun a c => 10 * a + digVal c) 0

/-- Digit-run test. -/
def allDigits (cs : List Char) : Bool := cs.all isDigitC

/-- Unsigned decimal literal: `123`, `12.5`, `.5`, `5.`. -/
def parseUFloat (cs : List Char) : Option ℚ :=
  match splitChar '.' cs with
  | [a] => if !a.isEmpty && allDigits a then some (natOfDigits a) else none
  | [a, b] =>
    if (!a.isEmpty || !b.isEmpty) && allDigits a && allDigits b then
      some ((natOfDigits a : ℚ) + (natOfDigits b : ℚ) / ((10 : ℚ) ^ b.length))
    else none
  | _ => none

/-- Python `float(s)` on a string: optional sign around an unsigned decimal
literal, surrounding whitespace tolerated.  (Exponent and infinity forms are
not modelled; no claim depends on them.) -/
def parseFloatC (cs0 : List Char) : Option ℚ :=
  match trimC cs0 with
  | '-' :: rest => (parseUFloat rest).map (fun q => -q)
  | '+' :: rest => parseUFloat rest
  | cs => parseUFloat cs

/-- Python `str.zfill(2)`: left-pad with zeros to width two, keeping a sign
character in front. -/
def zfill2 : List Char → List Char
  | [] => ['0', '0']
  | [c] => if c = '-' ∨ c = '+' then [c, '0'] else ['0', c]
  | l => l

/-- The string arm of `_clean_time`: strip and lowercase; empty/"nan" default;
a colon-bearing string is normalised by zero-padding its parts with no range
validation; otherwise a parseable number in `[0, 24)` is whole hours; anything
else defaults to `"00:00:00"`. -/
def cleanTimeStr (s : String) : String :=
  let v := lowerC (trimC s.toList)
  if v = [] ∨ v = ['n', 'a', 'n'] then "00:00:00"
  else if v.contains ':' then
    match splitChar ':' v with
    | a :: b :: rest =>
      ⟨zfill2 a ++ ':' :: zfill2 b ++ ':' ::
        (match rest with
         | r :: _ => zfill2 r
         | [] => ['0', '0'])⟩
    | _ => "00:00:00"
  else
    match parseFloatC v with
    | some q => if 0 ≤ q ∧ q < 24 then ⟨pad1c q.floor.toNat ++ [':', '0', '0', ':', '0', '0']⟩ else "00:00:00"
    | none => "00:00:00"

/-- `_clean_time`: values with `strftime` are formatted directly (a bare date
prints as midnight); strings go through `cleanTimeStr`; a raw number in
`[0, 24)` is truncated to whole hours (Python `int()`); everything else is the
silent default `"00:00:00"`. -/
def cleanTime (v : Value) : String :=
  match v with
  | .none => "00:00:00"
  | .timeV hh mm ss => ⟨pyTimeChars hh mm ss⟩
  | .datetimeV _ _ _ hh mm ss => ⟨pyTimeChars hh mm ss⟩
  | .dateV _ _ _ => "00:00:00"
  | .str s => cleanTimeStr s
  | .num q => if 0 ≤ q ∧ q < 24 then ⟨pad1c q.floor.toNat ++ [':', '0', '0', ':', '0', '0']⟩ else "00:00:00"
  | .boolV _ => "00:00:00"

/-- `_safe_float`: missing and unparseable values become `0.0`. -/
def safeFloat (v : Value) : ℚ :=
  match v with
  | .none => 0
  | .num q => q
  | .boolV b => if b then 1 else 0
  | .str s => (parseFloatC s.toList).getD 0
  | _ => 0

/-- `_safe_bool`: booleans pass through, numbers by non-zero test, strings by
the truthy-token list, anything else is `false`. -/
def safeBool (v : Value) : Bool :=
  match v with
  | .none => false
  | .boolV b => b
  | .num q => decide (q ≠ 0)
  | .str s => ["true".toList, "yes".toList, "1".toList, "y".toList].contains (lowerC s.toList)
  | _ => false

/-- `_clean_date_with_id`: missing values give the sentinel; a string starting
with `=` (a spreadsheet formula) is searched for an embedded `YYYY-MM-DD`
pattern; other values are stringified; the result runs through `goParse`. -/
def cleanDateWithId (v : Value) : String × Nat :=
  match v with
  | .none => sentinelDate
  | .str s =>
    let cs := s.toList
    if cs.head? = some '=' then
      match findISO cs with
      | some w => goParse w
      | none => sentinelDate
    else goParse cs
  | _ => goParse (pyStrVal v).toList

/-! ## Date cleaner invariants -/

/-- A digit character is none of the separator/marker characters the date
cleaner dispatches on. -/
abbrev plainDigit (c : Char) : Prop :=
  isDigitC c = true ∧ isWS c = false ∧ c ≠ '-' ∧ c ≠ '/' ∧ c ≠ '.' ∧ c ≠ ' ' ∧ c ≠ '='

theorem digChar_plain : ∀ k, k < 10 → plainDigit (digChar k) := by
  intro k hk
  interval_cases k <;> decide

theorem digVal_digChar : ∀ k, k < 10 → digVal (digChar k) = k := by
  intro k hk
  interval_cases k <;> decide

theorem pad1c_plain (n : Nat) : ∀ c ∈ pad1c n, plainDigit c := by
  intro c hc
  simp only [pad1c, List.mem_cons, List.mem_singleton, List.not_mem_nil, or_false] at hc
  rcases hc with h | h <;> subst h <;> exact digChar_plain _ (Nat.mod_lt _ (by norm_num))

theorem pad4c_plain (n : Nat) : ∀ c ∈ pad4c n, plainDigit c := by
  intro c hc
  simp only [pad4c, List.mem_cons, List.not_mem_nil, or_false] at hc
  rcases hc with h | h | h | h <;> subst h <;> exact digChar_plain _ (Nat.mod_lt _ (by norm_num))

theorem parse2c_pad1c {n : Nat} (h : n ≤ 99) : parse2c (pad1c n) = some n := by
  have h1 := digChar_plain (n / 10 % 10) (Nat.mod_lt _ (by norm_num))
  have h2 := digChar_plain (n % 10) (Nat.mod_lt _ (by norm_num))
  have v1 := digVal_digChar (n / 10 % 10) (Nat.mod_lt _ (by norm_num))
  have v2 := digVal_digChar (n % 10) (Nat.mod_lt _ (by norm_num))
  simp only [pad1c, parse2c, h1.1, h2.1, Bool.and_self, if_true, v1, v2]
  congr 1
  omega

theorem parse4c_pad4c {n : Nat} (h : n ≤ 9999) : parse4c (pad4c n) = some n := by
  have h1 := digChar_plain (n / 1000 % 10) (Nat.mod_lt _ (by norm_num))
  have h2 := digChar_plain (n / 100 % 10) (Nat.mod_lt _ (by norm_num))
  have h3 := digChar_plain (n / 10 % 10) (Nat.mod_lt _ (by norm_num))
  have h4 := digChar_plain (n % 10) (Nat.mod_lt _ (by norm_num))
  have v1 := digVal_digChar (n / 1000 % 10) (Nat.mod_lt _ (by norm_num))
  have v2 := digVal_digChar (n / 100 % 10) (Nat.mod_lt _ (by norm_num))
  have v3 := digVal_digChar (n / 10 % 10) (Nat.mod_lt _ (by norm_num))
  have v4 := digVal_digChar (n % 10) (Nat.mod_lt _ (by norm_num))
  simp only [pad4c, parse4c, h1.1, h2.1, h3.1, h4.1, Bool.and_self, if_true, v1, v2, v3, v4]
  congr 1
  omega

theorem splitChar_sepFree {sep : Char} {cs : List Char} (h : sep ∉ cs) :
    splitChar sep cs = [cs] := by
  induction cs with
  | nil => rfl
  | cons c rest ih =>
    have hc : ¬c = sep := fun hh => h (hh ▸ List.mem_cons_self c rest)
    have hr : sep ∉ rest := fun hh => h (List.mem_cons_of_mem c hh)
    simp only [splitChar, if_neg hc, ih hr]

theorem splitChar_append {sep : Char} {xs ys : List Char} (h : sep ∉ xs) :
    splitChar sep (xs ++ sep :: ys) = xs :: splitChar sep ys := by
  induction xs with
  | nil => simp [splitChar]
  | cons x xs ih =>
    have hx : ¬x = sep := fun hh => h (hh ▸ List.mem_cons_self x xs)
    have hr : sep ∉ xs := fun hh => h (List.mem_cons_of_mem x hh)
    have hih : splitChar sep (xs ++ sep :: ys) = xs :: splitChar sep ys := ih hr
    simp only [List.cons_append, splitChar, if_neg hx, List.append_eq, hih]

theorem dropWhile_allFalse {p : Char → Bool} {cs : List Char}
    (h : ∀ c ∈ cs, p c = false) : cs.dropWhile p = cs := by
  cases cs with
  | nil => rfl
  | cons c rest => simp [List.dropWhile_cons, h c (List.mem_cons_self c rest)]

theorem trimC_allFalse {cs : List Char} (h : ∀ c ∈ cs, isWS c = false) :
    trimC cs = cs := by
  unfold trimC
  rw [dropWhile_allFalse h, dropWhile_allFalse, List.reverse_reverse]
  intro c hc
  exact h c (List.mem_reverse.mp hc)

theorem contains_eq_false {cs : List Char} {c : Char} (h : c ∉ cs) :
    cs.contains c = false := by
  simpa using h


/-- Every character of the canonical ISO rendering is a digit or a dash. -/
theorem isoChars_mem {y m d : Nat} {c : Char} (hc : c ∈ isoChars y m d) :
    plainDigit c ∨ c = '-' := by
  simp only [isoChars, List.mem_append, List.mem_cons] at hc
  rcases hc with h | h | h | h | h
  · exact Or.inl (pad4c_plain y c h)
  · exact Or.inr h
  · exact Or.inl (pad1c_plain m c h)
  · exact Or.inr h
  · exact Or.inl (pad1c_plain d c h)

theorem isoChars_noWS {y m d : Nat} : ∀ c ∈ isoChars y m d, isWS c = false := by
  intro c hc
  rcases isoChars_mem hc with h | h
  · exact h.2.1
  · subst h; rfl

theorem isoChars_noSpace {y m d : Nat} : ' ' ∉ isoChars y m d := by
  intro hc
  rcases isoChars_mem hc with h | h
  · exact absurd h.1 (by decide)
  · exact absurd h (by decide)

theorem validYMD_bounds {y m d : Nat} (h : validYMD y m d = true) :
    1 ≤ y ∧ y ≤ 9999 ∧ 1 ≤ m ∧ m ≤ 12 ∧ 1 ≤ d ∧ d ≤ 31 := by
  simp only [validYMD, Bool.and_eq_true, decide_eq_true_eq] at h
  obtain ⟨⟨⟨⟨⟨h1, h2⟩, h3⟩, h4⟩, h5⟩, h6⟩ := h
  refine ⟨h1, h2, h3, h4, h5, le_trans h6 ?_⟩
  unfold daysInMonth
  split
  · split <;> omega
  · split <;> omega

theorem splitChar_isoChars (y m d : Nat) :
    splitChar '-' (isoChars y m d) = [pad4c y, pad1c m, pad1c d] := by
  have h4 : '-' ∉ pad4c y := fun hc => (pad4c_plain y _ hc).2.2.1 rfl
  have hm : '-' ∉ pad1c m := fun hc => (pad1c_plain m _ hc).2.2.1 rfl
  have hd : '-' ∉ pad1c d := fun hc => (pad1c_plain d _ hc).2.2.1 rfl
  unfold isoChars
  rw [splitChar_append h4, splitChar_append hm, splitChar_sepFree hd]

theorem mkYMD_iso {y m d : Nat} (hy : y ≤ 9999) (hm : m ≤ 99) (hd : d ≤ 99) :
    mkYMD .ymd (pad4c y) (pad1c m) (pad1c d) = some (y, m, d) := by
  simp [mkYMD, parse4c_pad4c hy, parse2c_pad1c hm, parse2c_pad1c hd]

theorem tryParts_iso {y m d : Nat} (h : validYMD y m d = true) :
    tryParts .ymd (pad4c y) (pad1c m) (pad1c d) = some (y, m, d) := by
  obtain ⟨_, hy, _, hm, _, hd⟩ := validYMD_bounds h
  unfold tryParts
  rw [mkYMD_iso hy (le_trans hm (by norm_num)) (le_trans hd (by norm_num))]
  simp [h]

theorem tryFmt_iso {y m d : Nat} (h : validYMD y m d = true) :
    tryFmt '-' .ymd (isoChars y m d) = some (y, m, d) := by
  unfold tryFmt
  rw [splitChar_isoChars]
  exact tryParts_iso h

theorem tryFormats_iso {y m d : Nat} (h : validYMD y m d = true) :
    tryFormats (isoChars y m d) = some (y, m, d) := by
  unfold tryFormats
  rw [tryFmt_iso h]

theorem tryParts_valid {o : Ord3} {a b c : List Char} {y m d : Nat}
    (h : tryParts o a b c = some (y, m, d)) : validYMD y m d = true := by
  unfold tryParts at h
  split at h
  · split at h
    · rename_i hv
      injection h with h'
      rw [Prod.mk.injEq, Prod.mk.injEq] at h'
      obtain ⟨h1, h2, h3⟩ := h'
      subst h1; subst h2; subst h3
      exact hv
    · exact absurd h (by simp)
  · exact absurd h (by simp)

theorem tryFmt_valid {sep : Char} {o : Ord3} {cs : List Char} {y m d : Nat}
    (h : tryFmt sep o cs = some (y, m, d)) : validYMD y m d = true := by
  unfold tryFmt at h
  split at h
  · exact tryParts_valid h
  · exact absurd h (by simp)

theorem tryFormats_valid {cs : List Char} {y m d : Nat}
    (h : tryFormats cs = some (y, m, d)) : validYMD y m d = true := by
  unfold tryFormats at h
  split at h
  · rename_i r heq
    rw [h] at heq
    exact tryFmt_valid heq
  · split at h
    · rename_i r heq
      rw [h] at heq
      exact tryFmt_valid heq
    · split at h
      · rename_i r heq
        rw [h] at heq
        exact tryFmt_valid heq
      · split at h
        · rename_i r heq
          rw [h] at heq
          exact tryFmt_valid heq
        · split at h
          · rename_i r heq
            rw [h] at heq
            exact tryFmt_valid heq
          · exact tryFmt_valid h

theorem sentinel_iso : sentinelDate = (isoStr 2000 1 1, 10000 * 2000 + 100 * 1 + 1) := by
  decide

/-- Every `goParse` result is a canonical valid date with the derived id. -/
theorem goParse_spec (cs : List Char) :
    ∃ y m d, validYMD y m d = true ∧
      goParse cs = (isoStr y m d, 10000 * y + 100 * m + d) := by
  unfold goParse
  rcases h : tryFormats (goTok cs) with _ | ⟨y, m, d⟩
  · exact ⟨2000, 1, 1, by decide, sentinel_iso⟩
  · exact ⟨y, m, d, tryFormats_valid h, rfl⟩

theorem goTok_iso {y m d : Nat} : goTok (isoChars y m d) = isoChars y m d := by
  simp only [goTok, trimC_allFalse isoChars_noWS, contains_eq_false isoChars_noSpace,
    Bool.false_eq_true, if_false]

/-- Parsing the canonical rendering of a valid date recovers the date. -/
theorem goParse_iso {y m d : Nat} (h : validYMD y m d = true) :
    goParse (isoChars y m d) = (isoStr y m d, 10000 * y + 100 * m + d) := by
  unfold goParse
  rw [goTok_iso, tryFormats_iso h]

theorem isoChars_head {y m d : Nat} :
    (isoChars y m d).head? = some (digChar (y / 1000 % 10)) := rfl

/-- Cleaning a canonical date string is the identity on it. -/
theorem clean_iso {y m d : Nat} (h : validYMD y m d = true) :
    cleanDateWithId (.str (isoStr y m d)) = (isoStr y m d, 10000 * y + 100 * m + d) := by
  have hhead : ¬(isoStr y m d).toList.head? = some '=' := by
    show ¬(isoChars y m d).head? = some '='
    rw [isoChars_head]
    intro hc
    injection hc with hc
    exact (digChar_plain _ (Nat.mod_lt _ (by norm_num))).2.2.2.2.2.2 hc
  show (if (isoStr y m d).toList.head? = some '=' then _ else goParse (isoStr y m d).toList) = _
  rw [if_neg hhead]
  exact goParse_iso h

/-- Every cleaned date is a canonical valid date with the derived id. -/
theorem clean_spec (v : Value) :
    ∃ y m d, validYMD y m d = true ∧
      cleanDateWithId v = (isoStr y m d, 10000 * y + 100 * m + d) := by
  cases v with
  | none => exact ⟨2000, 1, 1, by decide, sentinel_iso⟩
  | str s =>
    show ∃ y m d, _ ∧ (if s.toList.head? = some '=' then _ else goParse s.toList) = _
    split
    · rcases hf : findISO s.toList with _ | w
      · exact ⟨2000, 1, 1, by decide, sentinel_iso⟩
      · exact goParse_spec w
    · exact goParse_spec s.toList
  | num q => exact goParse_spec _
  | boolV b => exact goParse_spec _
  | dateV y' m' d' => exact goParse_spec _
  | datetimeV y' m' d' hh mm ss => exact goParse_spec _
  | timeV hh mm ss => exact goParse_spec _

/-- Date cleaning is stable: re-cleaning the produced string reproduces the
same string and id. -/
theorem clean_idem (v : Value) :
    cleanDateWithId (.str (cleanDateWithId v).1) = cleanDateWithId v := by
  obtain ⟨y, m, d, hv, he⟩ := clean_spec v
  rw [he]
  exact clean_iso hv

/-! ## Python dicts as association lists

A Python dict built by repeated assignment is modelled as an association
list where assignment appends and lookup takes the last binding. -/

/-- Association-list model of a Python dict keyed by strings. -/
abbrev Dict (α : Type) := List (String × α)

/-- `d.get(k)`: the most recent binding of `k`, if any. -/
def dget {α : Type} (d : Dict α) (k : String) : Option α :=
  (d.reverse.find? (fun p => p.1 == k)).map (fun p => p.2)

/-- `d[k] = v`. -/
def dset {α : Type} (d : Dict α) (k : String) (v : α) : Dict α := d ++ [(k, v)]

/-- `k in d`. -/
def dmem {α : Type} (d : Dict α) (k : String) : Bool := d.any (fun p => p.1 == k)

/-! ## The star schema store -/

/-- A `dim_employees` row. -/
structure EmployeeRow where
  employee_id : Nat
  full_name : String
  role : String
deriving DecidableEq

/-- A `dim_clients` row. -/
structure ClientRow where
  client_id : Nat
  client_name : String
deriving DecidableEq

/-- A `dim_jobs` row. -/
structure JobRow where
  job_id : Nat
  job_name : String
  location : String
  site : String
deriving DecidableEq

/-- A `dim_shifts` row. -/
structure ShiftRow where
  shift_id : Nat
  shift_name : String
  shift_start : String
  shift_end : String
deriving DecidableEq

/-- A `dim_dates` row (the surrogate id is supplied by the loader). -/
structure DateRow where
  date_id : Nat
  date : String
  day : String
  month : String
  year : Nat
deriving DecidableEq

/-- A `fact_shifts` row.  Client and job ids are nullable: the fact builder
tolerates their absence. -/
structure FactRow where
  employee_id : Nat
  client_id : Option Nat
  job_id : Option Nat
  shift_id : Nat
  date_id : Nat
  duration : ℚ
  paid_hours : ℚ
  hour_rate : ℚ
  deductions : ℚ
  additions : ℚ
  total_pay : ℚ
  client_hourly_rate : ℚ
  client_net : ℚ
  self_employed : Bool
  dns : Bool
  job_status : String
deriving DecidableEq

/-- The relational store: the five dimension tables, the fact table, and the
per-table id sequences Postgres maintains. -/
@[ext]
structure Store where
  employees : List EmployeeRow
  clients : List ClientRow
  jobs : List JobRow
  shifts : List ShiftRow
  dates : List DateRow
  facts : List FactRow
  nextEmployeeId : Nat
  nextClientId : Nat
  nextJobId : Nat
  nextShiftId : Nat
deriving DecidableEq

/-- An input spreadsheet row with the fixed required column set. -/
structure Row where
  job_name : Value
  shift_name : Value
  full_name : Value
  location : Value
  site : Value
  role : Value
  month : Value
  date : Value
  day : Value
  shift_start : Value
  shift_end : Value
  duration : Value
  paid_hours : Value
  hour_rate : Value
  deductions : Value
  additions : Value
  total_pay : Value
  client_hourly_rate : Value
  client_net : Value
  self_employed : Value
  dns : Value
  client : Value
  job_status : Value
deriving DecidableEq

/-- Loader configuration: the exclusion lists passed to `__init__`. -/
structure Config where
  excludedLocations : List String
  excludedClients : List String
deriving DecidableEq

/-- Per-stage insert outcomes, for modelling storage-layer failures: each
dimension's bulk insert and each fact batch (by index) either succeeds or
raises. -/
structure Flags where
  empOk : Bool
  clientOk : Bool
  jobOk : Bool
  shiftOk : Bool
  dateOk : Bool
  factOk : Nat → Bool

/-- The failure-free storage layer. -/
def allOk : Flags := ⟨true, true, true, true, true, fun _ => true⟩

/-- `pandas.drop_duplicates` / `Series.unique`: first occurrences, in order. -/
def dedupFirstAux {α : Type} [DecidableEq α] (seen : List α) : List α → List α
  | [] => []
  | x :: xs =>
    if x ∈ seen then dedupFirstAux seen xs else x :: dedupFirstAux (x :: seen) xs

/-- Deduplicate keeping first occurrences. -/
def dedupFirst {α : Type} [DecidableEq α] (l : List α) : List α := dedupFirstAux [] l

/-! ## Dimension resolvers -/

/-- Snapshot dict of the employee table: name → id, built by scanning. -/
def empDict (l : List EmployeeRow) : Dict Nat :=
  l.map (fun e => (e.full_name, e.employee_id))

/-- Snapshot dict of the client table. -/
def clientDict (l : List ClientRow) : Dict Nat :=
  l.map (fun c => (c.client_name, c.client_id))

/-- Snapshot dict of the job table, keyed by name alone. -/
def jobDict (l : List JobRow) : Dict Nat :=
  l.map (fun j => (j.job_name, j.job_id))

/-- The delimited composite key `f"{name}|{start}|{end}"`. -/
def shiftKey (name a b : String) : String := name ++ "|" ++ a ++ "|" ++ b

/-- Snapshot dict of the shift table, keyed by the composite key. -/
def shiftDict (l : List ShiftRow) : Dict Nat :=
  l.map (fun s => (shiftKey s.shift_name s.shift_start s.shift_end, s.shift_id))

/-- Snapshot dict of the date table, keyed by the date string. -/
def dateDict (l : List DateRow) : Dict Nat :=
  l.map (fun d => (d.date, d.date_id))

/-- The staging loop of `_bulk_create_employees`: one pass over the distinct
(full_name, role) pairs, skipping names already mapped, reusing existing ids,
and staging unseen names with a temporary `None`. -/
def stageEmployees (ex : Dict Nat) :
    List (Value × Value) → Dict (Option Nat) → List (String × String) →
    Dict (Option Nat) × List (String × String)
  | [], m, news => (m, news)
  | (vn, vr) :: rest, m, news =>
    let name := cleanString vn "Unknown Employee"
    let role := cleanString vr ""
    if dmem m name then stageEmployees ex rest m news
    else
      match dget ex name with
      | some i => stageEmployees ex rest (dset m name (some i)) news
      | none => stageEmployees ex rest (dset m name none) (news ++ [(name, role)])

/-- `bulk_insert_mappings(DimEmployee, …)`: sequential id assignment. -/
def newEmployeeRows (start : Nat) : List (String × String) → List EmployeeRow
  | [] => []
  | (n, r) :: rest => ⟨start, n, r⟩ :: newEmployeeRows (start + 1) rest

/-- `_bulk_create_employees`.  An insert failure propagates (there is no
try/except in the source), aborting with the pre-insert store. -/
def bulkCreateEmployees (ok : Bool) (s : Store) (pairs : List (Value × Value)) :
    Except Store (Dict (Option Nat) × Store) :=
  let st := stageEmployees (empDict s.employees) pairs [] []
  if st.2.isEmpty then .ok (st.1, s)
  else if ok then
    let s' := { s with
      employees := s.employees ++ newEmployeeRows s.nextEmployeeId st.2
      nextEmployeeId := s.nextEmployeeId + st.2.length }
    .ok (st.1 ++ (s'.employees.filter (fun e => (st.2.map (fun p => p.1)).contains e.full_name)).map
          (fun e => (e.full_name, some e.employee_id)), s')
  else .error s

/-- The staging loop of `_bulk_create_clients`: the map entry is written
unconditionally; a row is staged whenever the cleaned name is not in the
store snapshot (there is no staged-dedup guard in the source). -/
def stageClients (ex : Dict Nat) :
    List Value → Dict (Option Nat) → List String → Dict (Option Nat) × List String
  | [], m, news => (m, news)
  | v :: rest, m, news =>
    let name := cleanString v "Unknown Client"
    let news' := if dmem ex name then news else news ++ [name]
    stageClients ex rest (dset m name (dget ex name)) news'

/-- `bulk_insert_mappings(DimClient, …)`. -/
def newClientRows (start : Nat) : List String → List ClientRow
  | [] => []
  | n :: rest => ⟨start, n⟩ :: newClientRows (start + 1) rest

/-- `_bulk_create_clients`; no insert-failure handling in the source. -/
def bulkCreateClients (ok : Bool) (s : Store) (vals : List Value) :
    Except Store (Dict (Option Nat) × Store) :=
  let st := stageClients (clientDict s.clients) vals [] []
  if st.2.isEmpty then .ok (st.1, s)
  else if ok then
    let s' := { s with
      clients := s.clients ++ newClientRows s.nextClientId st.2
      nextClientId := s.nextClientId + st.2.length }
    .ok (st.1 ++ (s'.clients.filter (fun c => st.2.contains c.client_name)).map
          (fun c => (c.client_name, some c.client_id)), s')
  else .error s

/-- A staged new job row. -/
structure JobStage where
  job_name : String
  location : String
  site : String
deriving DecidableEq

/-- The delimited job key `f"{job_name}|{location}|{site}"`. -/
def jobKey (name loc site : String) : String := name ++ "|" ++ loc ++ "|" ++ site

/-- The staging loop of `_bulk_create_jobs`: de-duplicated per composite
(name, location, site) key, but staged against the store by name alone. -/
def stageJobs (ex : Dict Nat) :
    List (Value × Value × Value) → Dict (Option Nat) → List JobStage →
    Dict (Option Nat) × List JobStage
  | [], m, news => (m, news)
  | (vn, vl, vs) :: rest, m, news =>
    let name := cleanString vn "Unknown Job"
    let loc := cleanString vl ""
    let site := cleanString vs ""
    let key := jobKey name loc site
    if dmem m key then stageJobs ex rest m news
    else
      let news' := if dmem ex name then news else news ++ [⟨name, loc, site⟩]
      stageJobs ex rest (dset m key (dget ex name)) news'

/-- `bulk_insert_mappings(DimJob, …)`. -/
def newJobRows (start : Nat) : List JobStage → List JobRow
  | [] => []
  | j :: rest => ⟨start, j.job_name, j.location, j.site⟩ :: newJobRows (start + 1) rest

/-- The post-insert pass of `_bulk_create_jobs`: every map key starting with
`job_name + "|"` is repointed at the fetched id for that name. -/
def overrideJobKeys (m : Dict (Option Nat)) (name : String) (jid : Nat) : Dict (Option Nat) :=
  m.map (fun p => if (name ++ "|").toList.isPrefixOf p.1.toList then (p.1, some jid) else p)

/-- Iterate the override pass over the staged rows. -/
def applyJobOverrides (fetched : Dict Nat) : List JobStage → Dict (Option Nat) → Dict (Option Nat)
  | [], m => m
  | j :: rest, m =>
    match dget fetched j.job_name with
    | some jid => applyJobOverrides fetched rest (overrideJobKeys m j.job_name jid)
    | none => applyJobOverrides fetched rest m

/-- `_bulk_create_jobs`; no insert-failure handling in the source. -/
def bulkCreateJobs (ok : Bool) (s : Store) (triples : List (Value × Value × Value)) :
    Except Store (Dict (Option Nat) × Store) :=
  let st := stageJobs (jobDict s.jobs) triples [] []
  if st.2.isEmpty then .ok (st.1, s)
  else if ok then
    let s' := { s with
      jobs := s.jobs ++ newJobRows s.nextJobId st.2
      nextJobId := s.nextJobId + st.2.length }
    let fetched : Dict Nat :=
      (s'.jobs.filter (fun j => (st.2.map (fun p => p.job_name)).contains j.job_name)).map
        (fun j => (j.job_name, j.job_id))
    .ok (applyJobOverrides fetched st.2 st.1, s')
  else .error s

/-- A staged new shift row. -/
structure ShiftStage where
  shift_name : String
  shift_start : String
  shift_end : String
deriving DecidableEq

/-- The staging loop of `_bulk_create_shifts`: keyed by the cleaned composite
(name, start, end) key. -/
def stageShifts (ex : Dict Nat) :
    List (Value × Value × Value) → Dict (Option Nat) → List ShiftStage →
    Dict (Option Nat) × List ShiftStage
  | [], m, news => (m, news)
  | (vn, vs, ve) :: rest, m, news =>
    let name := cleanString vn "Unknown Shift"
    let a := cleanTime vs
    let b := cleanTime ve
    let key := shiftKey name a b
    if dmem m key then stageShifts ex rest m news
    else
      match dget ex key with
      | some i => stageShifts ex rest (dset m key (some i)) news
      | none => stageShifts ex rest (dset m key none) (news ++ [⟨name, a, b⟩])

/-- `bulk_insert_mappings(DimShift, …)`. -/
def newShiftRows (start : Nat) : List ShiftStage → List ShiftRow
  | [] => []
  | st :: rest => ⟨start, st.shift_name, st.shift_start, st.shift_end⟩ :: newShiftRows (start + 1) rest

/-- The post-insert pass of `_bulk_create_shifts`: for each staged row,
`DimShift.query.filter_by(...).first()` and point the map at its id. -/
def requeryShifts (s : Store) : List ShiftStage → Dict (Option Nat) → Dict (Option Nat)
  | [], m => m
  | st :: rest, m =>
    match s.shifts.find? (fun r =>
        r.shift_name == st.shift_name && r.shift_start == st.shift_start &&
        r.shift_end == st.shift_end) with
    | some r =>
      requeryShifts s rest (dset m (shiftKey st.shift_name st.shift_start st.shift_end) (some r.shift_id))
    | none => requeryShifts s rest m

/-- `_bulk_create_shifts`; no insert-failure handling in the source. -/
def bulkCreateShifts (ok : Bool) (s : Store) (triples : List (Value × Value × Value)) :
    Except Store (Dict (Option Nat) × Store) :=
  let st := stageShifts (shiftDict s.shifts) triples [] []
  if st.2.isEmpty then .ok (st.1, s)
  else if ok then
    let s' := { s with
      shifts := s.shifts ++ newShiftRows s.nextShiftId st.2
      nextShiftId := s.nextShiftId + st.2.length }
    .ok (requeryShifts s' st.2 st.1, s')
  else .error s

/-- The staging loop of `_bulk_create_dates`: keyed by the cleaned date
string, with the surrogate id computed by the cleaner. -/
def stageDates (ex : Dict Nat) :
    List (Value × Value × Value) → Dict Nat → List DateRow → Dict Nat × List DateRow
  | [], m, news => (m, news)
  | (vd, vm, vday) :: rest, m, news =>
    let mon := cleanString vm ""
    let dayName := cleanString vday ""
    let sd := cleanDateWithId vd
    if dmem m sd.1 then stageDates ex rest m news
    else
      match dget ex sd.1 with
      | some i => stageDates ex rest (dset m sd.1 i) news
      | none => stageDates ex rest (dset m sd.1 sd.2) (news ++ [⟨sd.2, sd.1, dayName, mon, sd.2 / 10000⟩])

/-- The per-row re-query of `_bulk_create_dates` (run both after a successful
insert and in the except-fallback): `DimDate.query.filter_by(date=…).first()`. -/
def requeryDates (s : Store) : List DateRow → Dict Nat → Dict Nat
  | [], m => m
  | dr :: rest, m =>
    match s.dates.find? (fun r => r.date == dr.date) with
    | some r => requeryDates s rest (dset m dr.date r.date_id)
    | none => requeryDates s rest m

/-- `_bulk_create_dates`.  Unlike the other four resolvers the insert is
wrapped in try/except: on failure the session is rolled back and the ids are
recovered by re-querying per natural key, so the resolver always returns. -/
def bulkCreateDates (ok : Bool) (s : Store) (triples : List (Value × Value × Value)) :
    Except Store (Dict Nat × Store) :=
  let st := stageDates (dateDict s.dates) triples [] []
  if st.2.isEmpty then .ok (st.1, s)
  else if ok then
    let s' := { s with dates := s.dates ++ st.2 }
    .ok (requeryDates s' st.2 st.1, s')
  else
    .ok (requeryDates s st.2 st.1, s)

/-! ## Row filtering -/

/-- `fillna('').str.upper()` on a cell: missing becomes `""`, strings are
uppercased, non-string cells surface as NaN (never matching `isin`). -/
def upperCell (v : Value) : Option String :=
  match v with
  | .none => some ""
  | .str s => some ⟨upperC s.toList⟩
  | _ => Option.none

/-- Membership of the row's location in the uppercased exclusion list. -/
def locExcludedRow (cfg : Config) (r : Row) : Bool :=
  match upperCell r.location with
  | some u => (cfg.excludedLocations.map (fun e => (⟨upperC e.toList⟩ : String))).contains u
  | Option.none => false

/-- Membership of the row's client in the uppercased exclusion list. -/
def clientExcludedRow (cfg : Config) (r : Row) : Bool :=
  match upperCell r.client with
  | some u => (cfg.excludedClients.map (fun e => (⟨upperC e.toList⟩ : String))).contains u
  | Option.none => false

/-- `_filter_unwanted_data`: drop excluded locations, then excluded clients,
each filter skipped when its exclusion list is empty; returns the surviving
rows (labels preserved) and the removed-row count. -/
def filterUnwantedData (cfg : Config) (df : List (Nat × Row)) : List (Nat × Row) × Nat :=
  let df1 := if cfg.excludedLocations.isEmpty then df
             else df.filter (fun p => !locExcludedRow cfg p.2)
  let df2 := if cfg.excludedClients.isEmpty then df1
             else df1.filter (fun p => !clientExcludedRow cfg p.2)
  (df2, df.length - df2.length)

/-! ## Fact builder -/

/-- The cleaned employee name of a row. -/
def empName (r : Row) : String := cleanString r.full_name "Unknown Employee"

/-- The cleaned client name of a row. -/
def clientName (r : Row) : String := cleanString r.client "Unknown Client"

/-- The cleaned shift name of a row. -/
def shiftNameOf (r : Row) : String := cleanString r.shift_name "Unknown Shift"

/-- The composite job lookup key of a row. -/
def rowJobKey (r : Row) : String :=
  jobKey (cleanString r.job_name "Unknown Job") (cleanString r.location "") (cleanString r.site "")

/-- The composite shift lookup key of a row. -/
def rowShiftKey (r : Row) : String :=
  shiftKey (shiftNameOf r) (cleanTime r.shift_start) (cleanTime r.shift_end)

/-- The cleaned date string of a row. -/
def rowDateStr (r : Row) : String := (cleanDateWithId r.date).1

/-- A structured skip record `{row, reason, details, duplicate_type}`. -/
structure SkipRecord where
  row : Nat
  reason : String
  details : String
  duplicate_type : Option String
deriving DecidableEq

/-- `map.get(k)` where the stored values are themselves optional. -/
def mget (m : Dict (Option Nat)) (k : String) : Option Nat := (dget m k).bind id

/-- Python truthiness of an optional id (`not employee_id`). -/
def optFalsy (o : Option Nat) : Bool :=
  match o with
  | Option.none => true
  | some i => i == 0

/-- `", ".join(...)`. -/
def joinComma : List String → String
  | [] => ""
  | [x] => x
  | x :: rest => x ++ ", " ++ joinComma rest

/-- The (employee_id, date_id, shift_id) dedup key. -/
abbrev Key := Nat × Nat × Nat

/-- Build one fact record from a row and its resolved ids, including the
formula fallback for `client_net` and the 50-character status truncation. -/
def mkFactRecord (r : Row) (eid : Nat) (cid jid : Option Nat) (sid did : Nat) : FactRow :=
  let cn : ℚ :=
    match r.client_net with
    | .str s =>
      if s.toList.head? = some '=' then safeFloat r.client_hourly_rate * safeFloat r.paid_hours
      else safeFloat (Value.str s)
    | v => safeFloat v
  { employee_id := eid
    client_id := cid
    job_id := jid
    shift_id := sid
    date_id := did
    duration := safeFloat r.duration
    paid_hours := safeFloat r.paid_hours
    hour_rate := safeFloat r.hour_rate
    deductions := safeFloat r.deductions
    additions := safeFloat r.additions
    total_pay := safeFloat r.total_pay
    client_hourly_rate := safeFloat r.client_hourly_rate
    client_net := cn
    self_employed := safeBool r.self_employed
    dns := safeBool r.dns
    job_status := ⟨(cleanString r.job_status "").toList.take 50⟩ }

/-- The per-row loop of `_bulk_create_facts`: resolve ids, skip on missing
employee/date/shift, then check the dedup key against the database snapshot
(first) and the in-file seen set (second); an emitted fact's key is added to
both sets. -/
def processRows (em cm jm sm : Dict (Option Nat)) (dm : Dict Nat) :
    List (Nat × Row) → List Key → List (Key × Nat) → List FactRow → List SkipRecord →
    List FactRow × List SkipRecord
  | [], _, _, facts, skips => (facts, skips)
  | (idx, r) :: rest, ex, seen, facts, skips =>
    let name := empName r
    let dstr := rowDateStr r
    let eid := mget em name
    let cid := mget cm (clientName r)
    let jid := mget jm (rowJobKey r)
    let sid := mget sm (rowShiftKey r)
    let did := dget dm dstr
    match eid, did, sid with
    | some e, some d, some sh =>
      let key : Key := (e, d, sh)
      if ex.contains key then
        let sk : SkipRecord :=
          ⟨idx + 2, "Duplicate", name ++ " on " ++ dstr ++ " (Shift: " ++ shiftNameOf r ++ ")",
            some "pre_existing"⟩
        processRows em cm jm sm dm rest ex seen facts (skips ++ [sk])
      else
        match seen.find? (fun p => p.1 == key) with
        | some p =>
          let sk : SkipRecord :=
            ⟨idx + 2, "Duplicate",
              name ++ " on " ++ dstr ++ " (Shift: " ++ shiftNameOf r ++ ") - Duplicate of row " ++
                toString p.2,
              some "intra_file"⟩
          processRows em cm jm sm dm rest ex seen facts (skips ++ [sk])
        | Option.none =>
          processRows em cm jm sm dm rest (ex ++ [key]) (seen ++ [(key, idx + 2)])
            (facts ++ [mkFactRecord r e cid jid sh d]) skips
    | _, _, _ =>
      let missing :=
        (if optFalsy eid then ["Employee: " ++ name] else []) ++
        (if optFalsy did then ["Date: " ++ dstr] else []) ++
        (if optFalsy sid then ["Shift: " ++ rowShiftKey r] else [])
      let sk : SkipRecord := ⟨idx + 2, "Missing Keys", joinComma missing, Option.none⟩
      processRows em cm jm sm dm rest ex seen facts (skips ++ [sk])

/-- The distinct cleaned date ids of the file (`df['date'].unique()`). -/
def fileDateIds (df : List (Nat × Row)) : List Nat :=
  (dedupFirst (df.map (fun p => p.2.date))).map (fun v => (cleanDateWithId v).2)

/-- Python `min` over a nonempty list (0 on empty, unused). -/
def minList : List Nat → Nat
  | [] => 0
  | x :: xs => xs.foldl Nat.min x

/-- Python `max` over a nonempty list (0 on empty, unused). -/
def maxList : List Nat → Nat
  | [] => 0
  | x :: xs => xs.foldl Nat.max x

/-- The pre-load snapshot of existing fact keys, scoped to the file's
min–max date-id range; empty when the file has no rows. -/
def existingFactKeys (s : Store) (df : List (Nat × Row)) : List Key :=
  let ids := fileDateIds df
  if ids.isEmpty then []
  else
    (s.facts.filter (fun f => minList ids ≤ f.date_id && f.date_id ≤ maxList ids)).map
      (fun f => (f.employee_id, f.date_id, f.shift_id))

/-- The loop body of the batched bulk insert, structurally recursive on a
fuel bound (every step consumes a nonempty 1000-record prefix, so any fuel of
at least the record count makes the zero-fuel arm unreachable). -/
def writeBatchesAux (factOk : Nat → Bool) :
    Nat → Nat → Store → Nat → List FactRow → Except Store (Store × Nat)
  | _, _, s, count, [] => .ok (s, count)
  | 0, _, s, count, _ :: _ => .ok (s, count)
  | fuel + 1, bi, s, count, r :: rest =>
    let batch := (r :: rest).take 1000
    if factOk bi then
      writeBatchesAux factOk fuel (bi + 1) { s with facts := s.facts ++ batch }
        (count + batch.length) ((r :: rest).drop 1000)
    else .error s

/-- The batched bulk insert at the end of `_bulk_create_facts`: fixed batches
of 1000, one commit per batch; a failing batch raises, leaving the previously
committed batches in the store (the error carries the committed state). -/
def writeBatches (factOk : Nat → Bool) (bi : Nat) (s : Store) (count : Nat)
    (l : List FactRow) : Except Store (Store × Nat) :=
  writeBatchesAux factOk l.length bi s count l

/-- `_bulk_create_facts`: snapshot, per-row processing, then the batched
write; returns the inserted count and the skip records. -/
def bulkCreateFacts (factOk : Nat → Bool) (s : Store) (df : List (Nat × Row))
    (em cm jm sm : Dict (Option Nat)) (dm : Dict Nat) :
    Except Store (Nat × List SkipRecord × Store) :=
  let pr := processRows em cm jm sm dm df (existingFactKeys s df) [] [] []
  match writeBatches factOk 0 s 0 pr.1 with
  | .ok (s', n) => .ok (n, pr.2, s')
  | .error s' => .error s'

/-! ## Reconciler -/

/-- The verification payload `{excel_revenue, db_revenue, match}`; `verr` is
the error field of the no-dates fallback dictionary. -/
structure Verification where
  excel_revenue : ℚ
  db_revenue : ℚ
  vmatch : Bool
  verr : Bool
deriving DecidableEq

/-- A skip the reconciler subtracts: `Missing Keys`, or an intra-file
duplicate — pre-existing duplicates are excluded. -/
def qualSkip (sk : SkipRecord) : Bool :=
  sk.reason == "Missing Keys" ||
    (sk.reason == "Duplicate" && sk.duplicate_type == some "intra_file")

/-- `df.iloc[row - 2]['client_net']` with the bounds guard, on the
numericised column. -/
def skipLookup (df : List (Nat × Row)) (rowNum : Nat) : ℚ :=
  if 2 ≤ rowNum then
    match df[rowNum - 2]? with
    | some p => safeFloat p.2.client_net
    | Option.none => 0
  else 0

/-- The raw source total: `pd.to_numeric(df['client_net'], ...).sum()`. -/
def rawRevenue (df : List (Nat × Row)) : ℚ :=
  (df.map (fun p => safeFloat p.2.client_net)).sum

/-- The persisted total over the date-id range. -/
def rangeRevenue (s : Store) (mn mx : Nat) : ℚ :=
  ((s.facts.filter (fun f => mn ≤ f.date_id && f.date_id ≤ mx)).map (fun f => f.client_net)).sum

/-- `_verify_totals`: raw total, skipped total (Missing Keys and intra-file
duplicates only), adjusted total, range-scoped persisted total, and the
`< 1.0` tolerance match; a file with no dates yields the error dictionary. -/
def verifyTotals (s : Store) (df : List (Nat × Row)) (skips : List SkipRecord) : Verification :=
  let raw := rawRevenue df
  let skipped := skips.foldl (fun acc sk => if qualSkip sk then acc + skipLookup df sk.row else acc) 0
  let adjusted := raw - skipped
  let ids := fileDateIds df
  if ids.isEmpty then ⟨0, 0, false, true⟩
  else
    let dbrev := rangeRevenue s (minList ids) (maxList ids)
    ⟨adjusted, dbrev, decide (|dbrev - adjusted| < 1), false⟩

/-! ## The load pipeline -/

/-- The completion payload of a successful load. -/
structure LoadOutput where
  inserted : Nat
  skipped : List SkipRecord
  verification : Verification
  store : Store
deriving DecidableEq

/-- The outcome of `load_excel_data`: the completion event, or the fatal
error event after the catch-all rollback. -/
inductive LoadResult where
  | complete (out : LoadOutput)
  | error (store : Store)
deriving DecidableEq

/-- `df[['full_name','role']].drop_duplicates()`. -/
def uniqueEmployeePairs (df : List (Nat × Row)) : List (Value × Value) :=
  dedupFirst (df.map (fun p => (p.2.full_name, p.2.role)))

/-- `df[['client']].drop_duplicates()`. -/
def uniqueClientVals (df : List (Nat × Row)) : List Value :=
  dedupFirst (df.map (fun p => p.2.client))

/-- `df[['job_name','location','site']].drop_duplicates()`. -/
def uniqueJobTriples (df : List (Nat × Row)) : List (Value × Value × Value) :=
  dedupFirst (df.map (fun p => (p.2.job_name, p.2.location, p.2.site)))

/-- `df[['shift_name','shift_start','shift_end']].drop_duplicates()`. -/
def uniqueShiftTriples (df : List (Nat × Row)) : List (Value × Value × Value) :=
  dedupFirst (df.map (fun p => (p.2.shift_name, p.2.shift_start, p.2.shift_end)))

/-- `df[['date','month','day']].drop_duplicates()`. -/
def uniqueDateTriples (df : List (Nat × Row)) : List (Value × Value × Value) :=
  dedupFirst (df.map (fun p => (p.2.date, p.2.month, p.2.day)))

/-- `load_excel_data`: filter, resolve the five dimensions, build and write
facts, verify.  Any raised storage failure propagates to the catch-all and
surfaces as the error event. -/
def loadExcelData (fl : Flags) (cfg : Config) (s : Store) (rows : List Row) : LoadResult :=
  let df := (filterUnwantedData cfg rows.enum).1
  match bulkCreateEmployees fl.empOk s (uniqueEmployeePairs df) with
  | .error s1 => .error s1
  | .ok (em, s1) =>
    match bulkCreateClients fl.clientOk s1 (uniqueClientVals df) with
    | .error s2 => .error s2
    | .ok (cm, s2) =>
      match bulkCreateJobs fl.jobOk s2 (uniqueJobTriples df) with
      | .error s3 => .error s3
      | .ok (jm, s3) =>
        match bulkCreateShifts fl.shiftOk s3 (uniqueShiftTriples df) with
        | .error s4 => .error s4
        | .ok (sm, s4) =>
          match bulkCreateDates fl.dateOk s4 (uniqueDateTriples df) with
          | .error s5 => .error s5
          | .ok (dm, s5) =>
            match bulkCreateFacts fl.factOk s5 df em cm jm sm dm with
            | .error s6 => .error s6
            | .ok (n, skips, s6) => .complete ⟨n, skips, verifyTotals s6 df skips, s6⟩

/-! ## Dict lemmas -/

theorem dget_nil {α : Type} (k : String) : dget ([] : Dict α) k = Option.none := rfl

theorem dget_append {α : Type} (a b : Dict α) (k : String) :
    dget (a ++ b) k =
      match dget b k with
      | some v => some v
      | Option.none => dget a k := by
  unfold dget
  rw [List.reverse_append, List.find?_append]
  rcases h : b.reverse.find? (fun p => p.1 == k) with _ | p <;> simp [h]

theorem dget_append_some {α : Type} {a b : Dict α} {k : String} {v : α}
    (h : dget b k = some v) : dget (a ++ b) k = some v := by
  rw [dget_append, h]

theorem dget_append_none {α : Type} {a b : Dict α} {k : String}
    (h : dget b k = Option.none) : dget (a ++ b) k = dget a k := by
  rw [dget_append, h]

theorem dget_dset_self {α : Type} (d : Dict α) (k : String) (v : α) :
    dget (dset d k v) k = some v := by
  unfold dset
  exact dget_append_some (by simp [dget, List.find?])

theorem dget_dset_ne {α : Type} (d : Dict α) {k k' : String} (v : α) (h : k' ≠ k) :
    dget (dset d k v) k' = dget d k' := by
  unfold dset
  refine dget_append_none ?_
  have hb : (k == k') = false := beq_eq_false_iff_ne.mpr (fun hh => h hh.symm)
  simp [dget, List.find?, hb]

theorem dmem_iff_dget {α : Type} (d : Dict α) (k : String) :
    dmem d k = true ↔ (dget d k).isSome := by
  unfold dmem dget
  rw [List.any_eq_true]
  cases hf : d.reverse.find? (fun p => p.1 == k) with
  | none =>
    rw [List.find?_eq_none] at hf
    simp only [Option.map_none', Option.isSome_none]
    constructor
    · rintro ⟨p, hp, hk⟩
      exact absurd hk (by simpa using hf p (List.mem_reverse.mpr hp))
    · intro hh
      cases hh
  | some p =>
    have hmem := List.mem_of_find?_eq_some hf
    have hpred := List.find?_some hf
    simp only [Option.map_some', Option.isSome_some]
    exact ⟨fun _ => trivial, fun _ => ⟨p, List.mem_reverse.mp hmem, hpred⟩⟩

theorem dget_of_dmem_false {α : Type} {d : Dict α} {k : String}
    (h : dmem d k = false) : dget d k = Option.none := by
  rcases hg : dget d k with _ | v
  · rfl
  · have : dmem d k = true := (dmem_iff_dget d k).mpr (by rw [hg]; rfl)
    rw [this] at h
    cases h

theorem dmem_of_dget_some {α : Type} {d : Dict α} {k : String} {v : α}
    (h : dget d k = some v) : dmem d k = true :=
  (dmem_iff_dget d k).mpr (by rw [h]; rfl)

/-- A successful lookup in a table dict comes from a table row. -/
theorem dget_table {α β : Type} {l : List α} {f : α → String × β} {k : String} {v : β}
    (h : dget (l.map f) k = some v) : ∃ x ∈ l, f x = (k, v) := by
  unfold dget at h
  rcases hf : (l.map f).reverse.find? (fun p => p.1 == k) with _ | p
  · rw [hf] at h; cases h
  · rw [hf] at h
    injection h with h
    have hmem := List.mem_of_find?_eq_some hf
    have hpred := List.find?_some hf
    rw [List.mem_reverse, List.mem_map] at hmem
    obtain ⟨x, hx, hfx⟩ := hmem
    refine ⟨x, hx, ?_⟩
    have hk : p.1 = k := by simpa using hpred
    rw [hfx]
    cases p
    simp only at hk h
    rw [hk, h]

/-- Membership in a table dict. -/
theorem dmem_table_iff {α β : Type} (l : List α) (f : α → String × β) (k : String) :
    dmem (l.map f) k = true ↔ ∃ x ∈ l, (f x).1 = k := by
  unfold dmem
  rw [List.any_eq_true]
  constructor
  · rintro ⟨p, hp, hk⟩
    rw [List.mem_map] at hp
    obtain ⟨x, hx, rfl⟩ := hp
    exact ⟨x, hx, by simpa using hk⟩
  · rintro ⟨x, hx, hk⟩
    exact ⟨f x, List.mem_map_of_mem f hx, by simpa using hk⟩

theorem find?_eq_of_unique {α : Type} {l : List α} {p : α → Bool} {x : α}
    (hx : x ∈ l) (hp : p x = true) (hu : ∀ y ∈ l, p y = true → y = x) :
    l.find? p = some x := by
  induction l with
  | nil => cases hx
  | cons a rest ih =>
    cases hpa : p a
    · have hax : ¬a = x := fun hh => by rw [hh, hp] at hpa; cases hpa
      have hx' : x ∈ rest := by
        rcases List.mem_cons.mp hx with rfl | hx'
        · exact absurd rfl hax
        · exact hx'
      rw [List.find?_cons, hpa]
      exact ih hx' (fun y hy hpy => hu y (List.mem_cons_of_mem a hy) hpy)
    · have : a = x := hu a (List.mem_cons_self a rest) hpa
      rw [List.find?_cons, hpa, this]

/-- In a table with no duplicate keys, the dict resolves a row's key to that
row's value. -/
theorem dget_table_of_nodup {α β : Type} {l : List α} (f : α → String × β) {x : α}
    (hnd : (l.map (fun a => (f a).1)).Nodup) (hx : x ∈ l) :
    dget (l.map f) (f x).1 = some (f x).2 := by
  unfold dget
  have hinj : ∀ a ∈ l, ∀ b ∈ l, (f a).1 = (f b).1 → a = b := by
    intro a ha b hb hab
    exact List.inj_on_of_nodup_map hnd ha hb hab
  have hfind : (l.map f).reverse.find? (fun p => p.1 == (f x).1) = some (f x) := by
    apply find?_eq_of_unique
    · exact List.mem_reverse.mpr (List.mem_map_of_mem f hx)
    · simp
    · intro y hy hpy
      rw [List.mem_reverse, List.mem_map] at hy
      obtain ⟨z, hz, rfl⟩ := hy
      have : (f z).1 = (f x).1 := by simpa using hpy
      rw [hinj z hz x hx this]
  rw [hfind]
  rfl

/-! ## Claim C6: date cleaning -/

/-- C6: for every input value, date cleaning never raises (it is a total
function in the model) and returns a canonical valid calendar date string
whose derived surrogate id equals `year*10000 + month*100 + day` — the
sentinel `("2000-01-01", 20000101)` for missing or unparseable input is
itself such a pair — and cleaning is stable: cleaning the returned string
reproduces the same string and id.  Missing input yields the sentinel. -/
theorem claim_C6_date_cleaning (v : Value) :
    (∃ y m d, validYMD y m d = true ∧
      cleanDateWithId v = (isoStr y m d, 10000 * y + 100 * m + d)) ∧
    cleanDateWithId (.str (cleanDateWithId v).1) = cleanDateWithId v ∧
    cleanDateWithId Value.none = ("2000-01-01", 20000101) :=
  ⟨clean_spec v, clean_idem v, rfl⟩

/-! ## Claim C7: time cleaning -/

/-- C7 counterexample: the claim says the malformed time string "25:99" maps
to "00:00:00", but the colon branch of `_clean_time` normalises without any
range validation and returns "25:99:00". -/
theorem claim_C7_counterexample :
    cleanTime (.str "25:99") = "25:99:00" ∧ ("25:99:00" : String) ≠ "00:00:00" := by
  constructor
  · decide
  · decide

/-- C7 (amended): time cleaning never raises (total in the model); missing
input and colon-free strings that do not parse as a number in `[0, 24)` —
including "abc" and the empty string — map to "00:00:00"; a bare number `q`
with `0 ≤ q < 24` is truncated to whole hours; a string containing a colon is
zero-pad normalised with no range validation, so "25:99" maps to "25:99:00",
not "00:00:00". -/
theorem claim_C7_amended :
    cleanTime Value.none = "00:00:00" ∧
    cleanTime (.str "abc") = "00:00:00" ∧
    cleanTime (.str "") = "00:00:00" ∧
    cleanTime (.str "25:99") = "25:99:00" ∧
    (∀ q : ℚ, 0 ≤ q → q < 24 →
      cleanTime (.num q) = ⟨pad1c q.floor.toNat ++ [':', '0', '0', ':', '0', '0']⟩) ∧
    (∀ q : ℚ, ¬(0 ≤ q ∧ q < 24) → cleanTime (.num q) = "00:00:00") := by
  refine ⟨rfl, by decide, by decide, by decide, ?_, ?_⟩
  · intro q h1 h2
    show (if 0 ≤ q ∧ q < 24 then _ else _) = _
    rw [if_pos ⟨h1, h2⟩]
  · intro q h
    show (if 0 ≤ q ∧ q < 24 then _ else _) = _
    rw [if_neg h]

/-- C7 witness: the amended bare-number clauses at the concrete inputs 7 and
25. -/
theorem claim_C7_witness :
    ((0 : ℚ) ≤ 7 ∧ (7 : ℚ) < 24 ∧ cleanTime (.num 7) = "07:00:00") ∧
    (¬((0 : ℚ) ≤ 25 ∧ (25 : ℚ) < 24) ∧ cleanTime (.num 25) = "00:00:00") := by
  have h5 := claim_C7_amended.2.2.2.2.1 7 (by norm_num) (by norm_num)
  have h6 := claim_C7_amended.2.2.2.2.2 25 (by norm_num)
  refine ⟨⟨by norm_num, by norm_num, ?_⟩, ⟨by norm_num, h6⟩⟩
  rw [h5]
  decide

/-! ## Claim C1: resolver staging dedup -/

theorem dmem_dset_of {α : Type} {m : Dict α} {k : String} (k' : String) (v : α)
    (h : dmem m k = true) : dmem (dset m k' v) k = true := by
  unfold dmem dset at *
  rw [List.any_append, h]
  rfl

theorem dmem_dset_self' {α : Type} (m : Dict α) (k : String) (v : α) :
    dmem (dset m k v) k = true := by
  unfold dmem dset
  rw [List.any_append]
  simp [List.any]

theorem stageEmployees_nodup (ex : Dict Nat) (pairs : List (Value × Value))
    (m : Dict (Option Nat)) (news : List (String × String))
    (hnd : (news.map (fun p => p.1)).Nodup)
    (hmem : ∀ x ∈ news, dmem m x.1 = true) :
    ((stageEmployees ex pairs m news).2.map (fun p => p.1)).Nodup := by
  induction pairs generalizing m news with
  | nil => exact hnd
  | cons pr rest ih =>
    obtain ⟨vn, vr⟩ := pr
    simp only [stageEmployees]
    cases hm : dmem m (cleanString vn "Unknown Employee") with
    | true =>
      simp only [if_pos rfl]
      exact ih m news hnd hmem
    | false =>
      simp only [Bool.false_eq_true, if_false]
      cases hg : dget ex (cleanString vn "Unknown Employee") with
      | some i =>
        exact ih _ news hnd (fun x hx => dmem_dset_of _ _ (hmem x hx))
      | none =>
        have hnot : cleanString vn "Unknown Employee" ∉ news.map (fun p => p.1) := by
          intro hcon
          rw [List.mem_map] at hcon
          obtain ⟨x, hx, heq⟩ := hcon
          have := hmem x hx
          rw [heq, hm] at this
          cases this
        refine ih _ _ ?_ ?_
        · rw [List.map_append]
          refine List.Nodup.append hnd (List.nodup_singleton _) ?_
          intro a ha hb
          simp only [List.map_cons, List.map_nil, List.mem_singleton] at hb
          rw [hb] at ha
          exact hnot ha
        · intro x hx
          rcases List.mem_append.mp hx with hx' | hx'
          · exact dmem_dset_of _ _ (hmem x hx')
          · rw [List.mem_singleton] at hx'
            rw [hx']
            exact dmem_dset_self' m _ none

theorem stageShifts_nodup (ex : Dict Nat) (triples : List (Value × Value × Value))
    (m : Dict (Option Nat)) (news : List ShiftStage)
    (hnd : (news.map (fun st => shiftKey st.shift_name st.shift_start st.shift_end)).Nodup)
    (hmem : ∀ x ∈ news, dmem m (shiftKey x.shift_name x.shift_start x.shift_end) = true) :
    ((stageShifts ex triples m news).2.map
      (fun st => shiftKey st.shift_name st.shift_start st.shift_end)).Nodup := by
  induction triples generalizing m news with
  | nil => exact hnd
  | cons tr rest ih =>
    obtain ⟨vn, vs, ve⟩ := tr
    simp only [stageShifts]
    cases hm : dmem m (shiftKey (cleanString vn "Unknown Shift") (cleanTime vs) (cleanTime ve)) with
    | true =>
      simp only [if_pos rfl]
      exact ih m news hnd hmem
    | false =>
      simp only [Bool.false_eq_true, if_false]
      cases hg : dget ex (shiftKey (cleanString vn "Unknown Shift") (cleanTime vs) (cleanTime ve)) with
      | some i =>
        exact ih _ news hnd (fun x hx => dmem_dset_of _ _ (hmem x hx))
      | none =>
        have hnot : shiftKey (cleanString vn "Unknown Shift") (cleanTime vs) (cleanTime ve) ∉
            news.map (fun st => shiftKey st.shift_name st.shift_start st.shift_end) := by
          intro hcon
          rw [List.mem_map] at hcon
          obtain ⟨x, hx, heq⟩ := hcon
          have := hmem x hx
          rw [heq, hm] at this
          cases this
        refine ih _ _ ?_ ?_
        · rw [List.map_append]
          refine List.Nodup.append hnd (List.nodup_singleton _) ?_
          intro a ha hb
          simp only [List.map_cons, List.map_nil, List.mem_singleton] at hb
          rw [hb] at ha
          exact hnot ha
        · intro x hx
          rcases List.mem_append.mp hx with hx' | hx'
          · exact dmem_dset_of _ _ (hmem x hx')
          · rw [List.mem_singleton] at hx'
            rw [hx']
            exact dmem_dset_self' m _ none

theorem stageDates_nodup (ex : Dict Nat) (triples : List (Value × Value × Value))
    (m : Dict Nat) (news : List DateRow)
    (hnd : (news.map (fun dr => dr.date)).Nodup)
    (hmem : ∀ x ∈ news, dmem m x.date = true) :
    ((stageDates ex triples m news).2.map (fun dr => dr.date)).Nodup := by
  induction triples generalizing m news with
  | nil => exact hnd
  | cons tr rest ih =>
    obtain ⟨vd, vm, vday⟩ := tr
    simp only [stageDates]
    cases hm : dmem m (cleanDateWithId vd).1 with
    | true =>
      simp only [if_pos rfl]
      exact ih m news hnd hmem
    | false =>
      simp only [Bool.false_eq_true, if_false]
      cases hg : dget ex (cleanDateWithId vd).1 with
      | some i =>
        exact ih _ news hnd (fun x hx => dmem_dset_of _ _ (hmem x hx))
      | none =>
        have hnot : (cleanDateWithId vd).1 ∉ news.map (fun dr => dr.date) := by
          intro hcon
          rw [List.mem_map] at hcon
          obtain ⟨x, hx, heq⟩ := hcon
          have := hmem x hx
          rw [heq, hm] at this
          cases this
        refine ih _ _ ?_ ?_
        · rw [List.map_append]
          refine List.Nodup.append hnd (List.nodup_singleton _) ?_
          intro a ha hb
          simp only [List.map_cons, List.map_nil, List.mem_singleton] at hb
          rw [hb] at ha
          exact hnot ha
        · intro x hx
          rcases List.mem_append.mp hx with hx' | hx'
          · exact dmem_dset_of _ _ (hmem x hx')
          · rw [List.mem_singleton] at hx'
            rw [hx']
            exact dmem_dset_self' m _ _

theorem stageJobs_nodup (ex : Dict Nat) (triples : List (Value × Value × Value))
    (m : Dict (Option Nat)) (news : List JobStage)
    (hnd : (news.map (fun j => jobKey j.job_name j.location j.site)).Nodup)
    (hmem : ∀ x ∈ news, dmem m (jobKey x.job_name x.location x.site) = true) :
    ((stageJobs ex triples m news).2.map (fun j => jobKey j.job_name j.location j.site)).Nodup := by
  induction triples generalizing m news with
  | nil => exact hnd
  | cons tr rest ih =>
    obtain ⟨vn, vl, vs⟩ := tr
    simp only [stageJobs]
    cases hm : dmem m (jobKey (cleanString vn "Unknown Job") (cleanString vl "") (cleanString vs "")) with
    | true =>
      simp only [if_pos rfl]
      exact ih m news hnd hmem
    | false =>
      simp only [Bool.false_eq_true, if_false]
      cases hex : dmem ex (cleanString vn "Unknown Job") with
      | true =>
        simp only [if_pos rfl]
        exact ih _ news hnd (fun x hx => dmem_dset_of _ _ (hmem x hx))
      | false =>
        simp only [Bool.false_eq_true, if_false]
        have hnot : jobKey (cleanString vn "Unknown Job") (cleanString vl "") (cleanString vs "") ∉
            news.map (fun j => jobKey j.job_name j.location j.site) := by
          intro hcon
          rw [List.mem_map] at hcon
          obtain ⟨x, hx, heq⟩ := hcon
          have := hmem x hx
          rw [heq, hm] at this
          cases this
        refine ih _ _ ?_ ?_
        · rw [List.map_append]
          refine List.Nodup.append hnd (List.nodup_singleton _) ?_
          intro a ha hb
          simp only [List.map_cons, List.map_nil, List.mem_singleton] at hb
          rw [hb] at ha
          exact hnot ha
        · intro x hx
          rcases List.mem_append.mp hx with hx' | hx'
          · exact dmem_dset_of _ _ (hmem x hx')
          · rw [List.mem_singleton] at hx'
            rw [hx']
            exact dmem_dset_self' m _ _

/-- The staged client rows are exactly the cleaned names not in the store
snapshot, one per incoming value — with no staged-dedup guard. -/
theorem stageClients_eq (ex : Dict Nat) (vals : List Value) (m : Dict (Option Nat))
    (news : List String) :
    (stageClients ex vals m news).2 =
      news ++ (vals.map (fun v => cleanString v "Unknown Client")).filter
        (fun n => !dmem ex n) := by
  induction vals generalizing m news with
  | nil => simp [stageClients]
  | cons v rest ih =>
    simp only [stageClients, List.map_cons, List.filter_cons]
    cases h : dmem ex (cleanString v "Unknown Client") with
    | true =>
      simp only [if_pos rfl, h, Bool.not_true, Bool.false_eq_true, if_false]
      exact ih _ _
    | false =>
      simp only [Bool.false_eq_true, if_false, Bool.not_false, if_pos rfl]
      rw [ih]
      simp

/-- The empty store, with all id sequences at 1. -/
def emptyStore : Store := ⟨[], [], [], [], [], [], 1, 1, 1, 1⟩

/-- C1 counterexample: a file whose distinct job triples are
`("JobA","L1","S1")` and `("JobA","L2","S2")`, loaded against an empty store,
stages two new Job rows for the single job name "JobA", and the bulk insert
creates two `dim_jobs` rows with that name — refuting "at most one new Job
row is staged and inserted per distinct job name". -/
theorem claim_C1_counterexample :
    ((stageJobs (jobDict emptyStore.jobs)
        [(.str "JobA", .str "L1", .str "S1"), (.str "JobA", .str "L2", .str "S2")] [] []).2.map
      (fun j => j.job_name)) = ["JobA", "JobA"] ∧
    (match bulkCreateJobs true emptyStore
        [(.str "JobA", .str "L1", .str "S1"), (.str "JobA", .str "L2", .str "S2")] with
     | .ok (_, s') => s'.jobs.map (fun j => j.job_name)
     | .error _ => []) = ["JobA", "JobA"] := by
  constructor
  · decide
  · decide

/-- C1 (amended): each resolver stages at most one new row per distinct
staging key, but the Job staging key is the delimited composite
(name, location, site) — not the job name: the Employee resolver stages at
most one row per cleaned full name, the Shift resolver at most one per
composite shift key, the Date resolver at most one per cleaned date string,
and the Job resolver at most one per composite job key, so one job name
appearing with two different locations/sites (and absent from the store) is
staged and inserted twice.  The Client resolver stages exactly one row per
incoming distinct raw value whose cleaned name is not in the store. -/
theorem claim_C1_amended :
    (∀ ex pairs, ((stageEmployees ex pairs [] []).2.map (fun p => p.1)).Nodup) ∧
    (∀ ex triples, ((stageShifts ex triples [] []).2.map
      (fun st => shiftKey st.shift_name st.shift_start st.shift_end)).Nodup) ∧
    (∀ ex triples, ((stageDates ex triples [] []).2.map (fun dr => dr.date)).Nodup) ∧
    (∀ ex triples, ((stageJobs ex triples [] []).2.map
      (fun j => jobKey j.job_name j.location j.site)).Nodup) ∧
    (∀ ex vals, (stageClients ex vals [] []).2 =
      (vals.map (fun v => cleanString v "Unknown Client")).filter (fun n => !dmem ex n)) := by
  refine ⟨?_, ?_, ?_, ?_, ?_⟩
  · intro ex pairs
    exact stageEmployees_nodup ex pairs [] [] List.nodup_nil (by intro x hx; cases hx)
  · intro ex triples
    exact stageShifts_nodup ex triples [] [] List.nodup_nil (by intro x hx; cases hx)
  · intro ex triples
    exact stageDates_nodup ex triples [] [] List.nodup_nil (by intro x hx; cases hx)
  · intro ex triples
    exact stageJobs_nodup ex triples [] [] List.nodup_nil (by intro x hx; cases hx)
  · intro ex vals
    exact stageClients_eq ex vals [] []

/-! ## Claim C10: exclusion filtering -/

/-- A row the filter removes: location or client case-insensitively matches
an exclusion entry (a missing cell matches via `fillna('')`). -/
def excludedRow (cfg : Config) (r : Row) : Bool :=
  locExcludedRow cfg r || clientExcludedRow cfg r

theorem locExcluded_empty {cfg : Config} (h : cfg.excludedLocations = []) (r : Row) :
    locExcludedRow cfg r = false := by
  unfold locExcludedRow
  cases upperCell r.location <;> simp [h]

theorem clientExcluded_empty {cfg : Config} (h : cfg.excludedClients = []) (r : Row) :
    clientExcludedRow cfg r = false := by
  unfold clientExcludedRow
  cases upperCell r.client <;> simp [h]

theorem length_sub_filter {α : Type} (l : List α) (p : α → Bool) :
    l.length - (l.filter p).length = (l.filter (fun a => !p a)).length := by
  induction l with
  | nil => rfl
  | cons a rest ih =>
    have hle := List.length_filter_le p rest
    cases h : p a <;>
      simp only [List.filter_cons, h, Bool.not_true, Bool.not_false, if_true, if_false,
        List.length_cons, Bool.false_eq_true, Bool.true_eq_false] <;>
      omega

theorem filterUnwanted_fst (cfg : Config) (df : List (Nat × Row)) :
    (filterUnwantedData cfg df).1 = df.filter (fun p => !excludedRow cfg p.2) := by
  by_cases hL : cfg.excludedLocations = []
  · by_cases hC : cfg.excludedClients = []
    · have hcong : df.filter (fun p => !excludedRow cfg p.2) = df := by
        refine List.filter_eq_self.mpr (fun p _ => ?_)
        unfold excludedRow
        rw [locExcluded_empty hL, clientExcluded_empty hC]
        rfl
      rw [hcong]
      simp [filterUnwantedData, hL, hC]
    · have hC' : cfg.excludedClients.isEmpty = false := by
        rw [List.isEmpty_eq_false]
        exact hC
      have hcong : df.filter (fun p => !excludedRow cfg p.2) =
          df.filter (fun p => !clientExcludedRow cfg p.2) := by
        refine List.filter_congr (fun p _ => ?_)
        unfold excludedRow
        rw [locExcluded_empty hL]
        rfl
      rw [hcong]
      simp [filterUnwantedData, hL, hC']
  · have hL' : cfg.excludedLocations.isEmpty = false := by
      rw [List.isEmpty_eq_false]
      exact hL
    by_cases hC : cfg.excludedClients = []
    · have hcong : df.filter (fun p => !excludedRow cfg p.2) =
          df.filter (fun p => !locExcludedRow cfg p.2) := by
        refine List.filter_congr (fun p _ => ?_)
        unfold excludedRow
        rw [clientExcluded_empty hC]
        simp
      rw [hcong]
      simp [filterUnwantedData, hL', hC]
    · have hC' : cfg.excludedClients.isEmpty = false := by
        rw [List.isEmpty_eq_false]
        exact hC
      have hstep : (filterUnwantedData cfg df).1 =
          (df.filter (fun p => !locExcludedRow cfg p.2)).filter
            (fun p => !clientExcludedRow cfg p.2) := by
        simp [filterUnwantedData, hL', hC']
      rw [hstep, List.filter_filter]
      refine List.filter_congr (fun p _ => ?_)
      unfold excludedRow
      rw [Bool.not_or, Bool.and_comm]

theorem filterUnwanted_snd (cfg : Config) (df : List (Nat × Row)) :
    (filterUnwantedData cfg df).2 = (df.filter (fun p => excludedRow cfg p.2)).length := by
  have h2 : (filterUnwantedData cfg df).2 =
      df.length - ((filterUnwantedData cfg df).1).length := rfl
  rw [h2, filterUnwanted_fst, length_sub_filter]
  congr 1
  refine List.filter_congr (fun p _ => ?_)
  rw [Bool.not_not]

/-- C10: the exclusion filter runs before every later stage and removes
exactly the rows whose location or client case-insensitively matches an
exclusion entry: the surviving dataframe is the single-predicate filter of
the input (labels and order preserved, all other rows untouched), the
reported filtered count is the number of matching rows, no surviving row
matches, every non-matching row survives, and re-filtering the survivors
removes nothing — so the dimension resolvers, the fact builder, and the
reconciler (which all consume only the filtered dataframe) never see an
excluded row. -/
theorem claim_C10_filtering (cfg : Config) (df : List (Nat × Row)) :
    (filterUnwantedData cfg df).1 = df.filter (fun p => !excludedRow cfg p.2) ∧
    (filterUnwantedData cfg df).2 = (df.filter (fun p => excludedRow cfg p.2)).length ∧
    (∀ p ∈ (filterUnwantedData cfg df).1, excludedRow cfg p.2 = false) ∧
    (∀ p ∈ df, excludedRow cfg p.2 = false → p ∈ (filterUnwantedData cfg df).1) ∧
    filterUnwantedData cfg (filterUnwantedData cfg df).1 = ((filterUnwantedData cfg df).1, 0) := by
  refine ⟨filterUnwanted_fst cfg df, filterUnwanted_snd cfg df, ?_, ?_, ?_⟩
  · intro p hp
    rw [filterUnwanted_fst] at hp
    have := (List.mem_filter.mp hp).2
    simpa using this
  · intro p hp hex
    rw [filterUnwanted_fst]
    exact List.mem_filter.mpr ⟨hp, by rw [hex]; rfl⟩
  · have hmem : ∀ p ∈ (filterUnwantedData cfg df).1, excludedRow cfg p.2 = false := by
      intro p hp
      rw [filterUnwanted_fst] at hp
      have := (List.mem_filter.mp hp).2
      simpa using this
    have hfst : (filterUnwantedData cfg (filterUnwantedData cfg df).1).1 =
        (filterUnwantedData cfg df).1 := by
      rw [filterUnwanted_fst]
      refine List.filter_eq_self.mpr (fun p hp => ?_)
      rw [hmem p hp]
      rfl
    have hsnd : (filterUnwantedData cfg (filterUnwantedData cfg df).1).2 = 0 := by
      rw [filterUnwanted_snd]
      have : (filterUnwantedData cfg df).1.filter (fun p => excludedRow cfg p.2) = [] := by
        refine List.filter_eq_nil_iff.mpr (fun p hp => ?_)
        rw [hmem p hp]
        exact Bool.false_ne_true
      rw [this]
      rfl
    exact Prod.ext hfst hsnd

/-- A sample row with a given location, for concrete instantiation. -/
def sampleRow (loc : Value) : Row :=
  ⟨.str "J", .str "Morning", .str "Jane", loc, .str "S", .str "R", .str "March",
    .str "2024-03-01", .str "Fri", .str "08:00", .str "16:00", .num 8, .num 8, .num 10,
    .num 0, .num 0, .num 80, .num 12, .num 96, .boolV false, .boolV false, .str "C",
    .str "ok"⟩

/-- The loader configuration used in the C10 witness. -/
def c10cfg : Config := ⟨["x"], []⟩

/-- C10 witness: with exclusion list `["x"]`, a file of two rows with
locations "X" and "Y" keeps exactly the "Y" row (case-insensitive match
removes the "X" row), and the surviving row is untouched. -/
theorem claim_C10_witness :
    (filterUnwantedData c10cfg [(0, sampleRow (.str "X")), (1, sampleRow (.str "Y"))]).1 =
      [(1, sampleRow (.str "Y"))] ∧
    excludedRow c10cfg (sampleRow (.str "Y")) = false ∧
    (1, sampleRow (.str "Y")) ∈
      (filterUnwantedData c10cfg [(0, sampleRow (.str "X")), (1, sampleRow (.str "Y"))]).1 := by
  have h := claim_C10_filtering c10cfg [(0, sampleRow (.str "X")), (1, sampleRow (.str "Y"))]
  refine ⟨by rw [h.1]; decide, by decide, ?_⟩
  exact h.2.2.2.1 (1, sampleRow (.str "Y")) (by decide) (by decide)

/-! ## Claim C9: the batch writer -/

theorem writeBatchesAux_allOk :
    ∀ (fuel : Nat) (l : List FactRow), l.length ≤ fuel → ∀ (bi : Nat) (s : Store) (count : Nat),
      writeBatchesAux (fun _ => true) fuel bi s count l =
        .ok ({ s with facts := s.facts ++ l }, count + l.length) := by
  intro fuel
  induction fuel with
  | zero =>
    intro l hl bi s count
    have : l = [] := List.eq_nil_of_length_eq_zero (Nat.le_zero.mp hl)
    subst this
    simp [writeBatchesAux]
  | succ n ih =>
    intro l hl bi s count
    match l with
    | [] => simp [writeBatchesAux]
    | r :: rest =>
      have hdrop : ((r :: rest).drop 1000).length ≤ n := by
        rw [List.length_drop]
        simp only [List.length_cons] at hl ⊢
        omega
      have hcnt : count + ((r :: rest).take 1000).length + ((r :: rest).drop 1000).length =
          count + (r :: rest).length := by
        rw [List.length_take, List.length_drop]
        omega
      simp only [writeBatchesAux, if_true]
      rw [ih _ hdrop]
      congr 1
      rw [Prod.mk.injEq]
      refine ⟨?_, hcnt⟩
      ext1 <;> simp [List.take_append_drop]

theorem writeBatches_allOk (l : List FactRow) (bi : Nat) (s : Store) (count : Nat) :
    writeBatches (fun _ => true) bi s count l =
      .ok ({ s with facts := s.facts ++ l }, count + l.length) :=
  writeBatchesAux_allOk l.length l (le_refl _) bi s count

theorem writeBatchesAux_error :
    ∀ (fuel : Nat) (l : List FactRow), l.length ≤ fuel →
    ∀ (factOk : Nat → Bool) (bi : Nat) (s : Store) (count : Nat) (s' : Store),
      writeBatchesAux factOk fuel bi s count l = .error s' →
      ∃ k, factOk (bi + k) = false ∧ (∀ j < k, factOk (bi + j) = true) ∧
        s' = { s with facts := s.facts ++ l.take (1000 * k) } := by
  intro fuel
  induction fuel with
  | zero =>
    intro l hl factOk bi s count s' h
    have : l = [] := List.eq_nil_of_length_eq_zero (Nat.le_zero.mp hl)
    subst this
    simp [writeBatchesAux] at h
  | succ n ih =>
    intro l hl factOk bi s count s' h
    match l with
    | [] => simp [writeBatchesAux] at h
    | r :: rest =>
      have hdrop : ((r :: rest).drop 1000).length ≤ n := by
        rw [List.length_drop]
        simp only [List.length_cons] at hl ⊢
        omega
      simp only [writeBatchesAux] at h
      cases hok : factOk bi with
      | false =>
        rw [hok] at h
        simp only [Bool.false_eq_true, if_false] at h
        injection h with h
        refine ⟨0, by simpa using hok, by omega, ?_⟩
        rw [← h]
        ext1 <;> simp
      | true =>
        rw [hok] at h
        simp only [if_pos rfl] at h
        obtain ⟨k, hk1, hk2, hk3⟩ := ih _ hdrop factOk (bi + 1) _ _ s' h
        refine ⟨k + 1, ?_, ?_, ?_⟩
        · rw [show bi + (k + 1) = bi + 1 + k by omega]
          exact hk1
        · intro j hj
          match j with
          | 0 => simpa using hok
          | j + 1 =>
            rw [show bi + (j + 1) = bi + 1 + j by omega]
            exact hk2 j (by omega)
        · rw [hk3]
          ext1 <;> simp [show 1000 * (k + 1) = 1000 + 1000 * k by ring, List.take_add]

theorem writeBatches_error {factOk : Nat → Bool} {bi : Nat} {s : Store} {count : Nat}
    {l : List FactRow} {s' : Store}
    (h : writeBatches factOk bi s count l = .error s') :
    ∃ k, factOk (bi + k) = false ∧ (∀ j < k, factOk (bi + j) = true) ∧
      s' = { s with facts := s.facts ++ l.take (1000 * k) } :=
  writeBatchesAux_error l.length l (le_refl _) factOk bi s count s' h

/-- Error propagation through `_bulk_create_facts`: a failing batch surfaces
the committed-prefix store unchanged. -/
theorem bulkCreateFacts_error {factOk : Nat → Bool} {s : Store} {df : List (Nat × Row)}
    {em cm jm sm : Dict (Option Nat)} {dm : Dict Nat} {s' : Store}
    (h : bulkCreateFacts factOk s df em cm jm sm dm = .error s') :
    ∃ k, factOk k = false ∧ (∀ j < k, factOk j = true) ∧
      s' = { s with facts := s.facts ++
        (processRows em cm jm sm dm df (existingFactKeys s df) [] [] []).1.take (1000 * k) } := by
  simp only [bulkCreateFacts] at h
  rcases hw : writeBatches factOk 0 s 0
      (processRows em cm jm sm dm df (existingFactKeys s df) [] [] []).1 with s'' | p
  · rw [hw] at h
    injection h with h
    subst h
    obtain ⟨k, h1, h2, h3⟩ := writeBatches_error hw
    exact ⟨k, by simpa using h1, fun j hj => by simpa using h2 j hj, h3⟩
  · rw [hw] at h
    cases h

/-- Whether an `Except` is the success constructor. -/
def isOkE {α β : Type} : Except α β → Bool
  | .ok _ => true
  | .error _ => false

/-- C9 (amended): the bulk writer persists fact records in fixed batches of
1000, committing each independently — when every batch succeeds all records
are appended exactly once and the returned count is the record count; when
batch `k` is the first to fail, exactly the first `1000·k` records (the
previously committed batches) are persisted, neither lost nor duplicated,
later batches are never attempted, and the writer raises instead of
returning a count — the loader reports a fatal error event, not a
partial-success inserted count. -/
theorem claim_C9_amended :
    (∀ (l : List FactRow) (s : Store) (count bi : Nat),
      writeBatches (fun _ => true) bi s count l =
        .ok ({ s with facts := s.facts ++ l }, count + l.length)) ∧
    (∀ (factOk : Nat → Bool) (s : Store) (l : List FactRow) (s' : Store),
      writeBatches factOk 0 s 0 l = .error s' →
      ∃ k, factOk k = false ∧ (∀ j < k, factOk j = true) ∧
        s' = { s with facts := s.facts ++ l.take (1000 * k) }) ∧
    (∀ (factOk : Nat → Bool) (s : Store) (df : List (Nat × Row))
        (em cm jm sm : Dict (Option Nat)) (dm : Dict Nat) (s' : Store),
      bulkCreateFacts factOk s df em cm jm sm dm = .error s' →
      ∃ k, factOk k = false ∧ (∀ j < k, factOk j = true) ∧
        s' = { s with facts := s.facts ++
          (processRows em cm jm sm dm df (existingFactKeys s df) [] [] []).1.take (1000 * k) }) := by
  refine ⟨?_, ?_, ?_⟩
  · intro l s count bi
    exact writeBatches_allOk l bi s count
  · intro factOk s l s' h
    obtain ⟨k, h1, h2, h3⟩ := writeBatches_error h
    exact ⟨k, by simpa using h1, fun j hj => by simpa using h2 j hj, h3⟩
  · intro factOk s df em cm jm sm dm s' h
    exact bulkCreateFacts_error h

/-- A minimal fact record for concrete batch-writer runs. -/
def fact0 : FactRow :=
  ⟨1, Option.none, Option.none, 1, 20240301, 0, 0, 0, 0, 0, 0, 0, 0, false, false, ""⟩

/-- An insert layer whose second and later batches fail. -/
def c9flags : Nat → Bool := fun k => k == 0

/-- The store left behind by the failing concrete batch run. -/
def c9store : Store :=
  match writeBatches c9flags 0 emptyStore 0 (List.replicate 1001 fact0) with
  | .error s => s
  | .ok (s, _) => s

set_option maxRecDepth 40000 in
/-- C9 counterexample: writing 1001 records with the second batch failing
raises (no partial-success count is returned — the result is not the success
constructor), even though the first batch of 1000 records was committed; the
claim says the operation reports the partial count instead. -/
theorem claim_C9_counterexample :
    isOkE (writeBatches c9flags 0 emptyStore 0 (List.replicate 1001 fact0)) = false ∧
    c9store.facts.length = 1000 := by
  constructor
  · rfl
  · rfl

set_option maxRecDepth 40000 in
/-- C9 witness: the amended failure clause at the concrete 1001-record run. -/
theorem claim_C9_witness :
    ∃ k, c9flags k = false ∧ (∀ j < k, c9flags j = true) ∧
      c9store = { emptyStore with
        facts := emptyStore.facts ++ (List.replicate 1001 fact0).take (1000 * k) } :=
  claim_C9_amended.2.1 c9flags emptyStore (List.replicate 1001 fact0) c9store rfl

/-! ## Claim C8: insert-failure handling in the resolvers -/

theorem bulkCreateDates_total (ok : Bool) (s : Store) (triples : List (Value × Value × Value)) :
    isOkE (bulkCreateDates ok s triples) = true := by
  simp only [bulkCreateDates]
  cases (stageDates (dateDict s.dates) triples [] []).2.isEmpty <;> cases ok <;> rfl

theorem bulkCreateEmployees_fail {s : Store} {pairs : List (Value × Value)}
    (h : (stageEmployees (empDict s.employees) pairs [] []).2 ≠ []) :
    bulkCreateEmployees false s pairs = .error s := by
  simp only [bulkCreateEmployees, List.isEmpty_eq_false.mpr h, Bool.false_eq_true, if_false]

theorem bulkCreateClients_fail {s : Store} {vals : List Value}
    (h : (stageClients (clientDict s.clients) vals [] []).2 ≠ []) :
    bulkCreateClients false s vals = .error s := by
  simp only [bulkCreateClients, List.isEmpty_eq_false.mpr h, Bool.false_eq_true, if_false]

theorem bulkCreateJobs_fail {s : Store} {triples : List (Value × Value × Value)}
    (h : (stageJobs (jobDict s.jobs) triples [] []).2 ≠ []) :
    bulkCreateJobs false s triples = .error s := by
  simp only [bulkCreateJobs, List.isEmpty_eq_false.mpr h, Bool.false_eq_true, if_false]

theorem bulkCreateShifts_fail {s : Store} {triples : List (Value × Value × Value)}
    (h : (stageShifts (shiftDict s.shifts) triples [] []).2 ≠ []) :
    bulkCreateShifts false s triples = .error s := by
  simp only [bulkCreateShifts, List.isEmpty_eq_false.mpr h, Bool.false_eq_true, if_false]

theorem loadExcelData_empFail (fl : Flags) (cfg : Config) (s : Store) (rows : List Row)
    (hfl : fl.empOk = false)
    (h : (stageEmployees (empDict s.employees)
      (uniqueEmployeePairs (filterUnwantedData cfg rows.enum).1) [] []).2 ≠ []) :
    loadExcelData fl cfg s rows = .error s := by
  simp only [loadExcelData]
  rw [hfl, bulkCreateEmployees_fail h]

/-- C8 counterexample: the claim says every dimension resolver recovers from
a bulk-insert failure by re-querying and continues, but the Employee resolver
has no try/except — with one genuinely new employee staged and a failing
insert it raises, aborting with the pre-insert store. -/
theorem claim_C8_counterexample :
    bulkCreateEmployees false emptyStore [(.str "Jane Doe", .str "Carer")] = .error emptyStore ∧
    isOkE (bulkCreateDates false emptyStore [(.str "2024-03-01", .str "March", .str "Friday")]) =
      true := by
  constructor
  · rfl
  · rfl

/-- C8 (amended): only the Date resolver guards its bulk insert — it returns
normally for every input even when the insert fails (rolling back and
re-querying by natural key); each of the Employee, Client, Job, and Shift
resolvers, when its staged list is nonempty and its insert fails, raises with
the pre-insert store, and (shown for the Employee resolver, the first to run)
the whole load then reports the fatal error event instead of continuing. -/
theorem claim_C8_amended :
    (∀ (ok : Bool) (s : Store) (l : List (Value × Value × Value)),
      isOkE (bulkCreateDates ok s l) = true) ∧
    (∀ (s : Store) (pairs : List (Value × Value)),
      (stageEmployees (empDict s.employees) pairs [] []).2 ≠ [] →
      bulkCreateEmployees false s pairs = .error s) ∧
    (∀ (s : Store) (vals : List Value),
      (stageClients (clientDict s.clients) vals [] []).2 ≠ [] →
      bulkCreateClients false s vals = .error s) ∧
    (∀ (s : Store) (l : List (Value × Value × Value)),
      (stageJobs (jobDict s.jobs) l [] []).2 ≠ [] →
      bulkCreateJobs false s l = .error s) ∧
    (∀ (s : Store) (l : List (Value × Value × Value)),
      (stageShifts (shiftDict s.shifts) l [] []).2 ≠ [] →
      bulkCreateShifts false s l = .error s) ∧
    (∀ (fl : Flags) (cfg : Config) (s : Store) (rows : List Row),
      fl.empOk = false →
      (stageEmployees (empDict s.employees)
        (uniqueEmployeePairs (filterUnwantedData cfg rows.enum).1) [] []).2 ≠ [] →
      loadExcelData fl cfg s rows = .error s) :=
  ⟨bulkCreateDates_total,
   fun _ _ h => bulkCreateEmployees_fail h,
   fun _ _ h => bulkCreateClients_fail h,
   fun _ _ h => bulkCreateJobs_fail h,
   fun _ _ h => bulkCreateShifts_fail h,
   loadExcelData_empFail⟩

/-- The flag set whose employee insert fails. -/
def empFailFlags : Flags := ⟨false, true, true, true, true, fun _ => true⟩

/-- C8 witness: the amended load-abort clause at a concrete one-row file. -/
theorem claim_C8_witness :
    empFailFlags.empOk = false ∧
    (stageEmployees (empDict emptyStore.employees)
      (uniqueEmployeePairs (filterUnwantedData ⟨[], []⟩ [sampleRow (.str "L")].enum).1) [] []).2 ≠ [] ∧
    loadExcelData empFailFlags ⟨[], []⟩ emptyStore [sampleRow (.str "L")] = .error emptyStore := by
  refine ⟨rfl, by decide, ?_⟩
  exact claim_C8_amended.2.2.2.2.2 empFailFlags ⟨[], []⟩ emptyStore [sampleRow (.str "L")]
    rfl (by decide)

/-! ## Fact-builder lemmas -/

/-- The resolved dedup key of a row, if employee/date/shift all resolve. -/
def rowKeyOf (em sm : Dict (Option Nat)) (dm : Dict Nat) (r : Row) : Option Key :=
  match mget em (empName r), dget dm (rowDateStr r), mget sm (rowShiftKey r) with
  | some e, some d, some sh => some (e, d, sh)
  | _, _, _ => Option.none

theorem contains_key_iff (l : List Key) (k : Key) : l.contains k = true ↔ k ∈ l :=
  List.elem_iff

/-- The pre-existing-duplicate skip record the fact builder emits for a row. -/
def preRecOf (p : Nat × Row) : SkipRecord :=
  ⟨p.1 + 2, "Duplicate",
    empName p.2 ++ " on " ++ rowDateStr p.2 ++ " (Shift: " ++ shiftNameOf p.2 ++ ")",
    some "pre_existing"⟩

/-- No intra-file duplicate label is ever produced: the emitted key is added
to the pre-existing set, which is checked first, so the intra-file branch is
dead whenever every seen key is already in the snapshot set. -/
theorem processRows_noIntra (em cm jm sm : Dict (Option Nat)) (dm : Dict Nat) :
    ∀ (l : List (Nat × Row)) (ex : List Key) (seen : List (Key × Nat))
      (facts : List FactRow) (skips : List SkipRecord),
      (∀ kp ∈ seen, kp.1 ∈ ex) →
      (∀ sk ∈ skips, sk.duplicate_type ≠ some "intra_file") →
      ∀ sk ∈ (processRows em cm jm sm dm l ex seen facts skips).2,
        sk.duplicate_type ≠ some "intra_file" := by
  intro l
  induction l with
  | nil =>
    intro ex seen facts skips hseen hsk sk hmem
    exact hsk sk hmem
  | cons hd rest ih =>
    intro ex seen facts skips hseen hsk sk hmem
    obtain ⟨idx, r⟩ := hd
    have hpush : ∀ (sk' : SkipRecord), sk'.duplicate_type ≠ some "intra_file" →
        ∀ x ∈ skips ++ [sk'], x.duplicate_type ≠ some "intra_file" := by
      intro sk' hsk' x hx
      rcases List.mem_append.mp hx with h' | h'
      · exact hsk x h'
      · rw [List.mem_singleton] at h'
        subst h'
        exact hsk'
    simp only [processRows] at hmem
    split at hmem
    · split at hmem
      · exact ih ex seen facts _ hseen (hpush _ (by simp)) sk hmem
      · rename_i hcon
        split at hmem
        · rename_i p hfind
          exfalso
          have hpmem := List.mem_of_find?_eq_some hfind
          have hpeq := List.find?_some hfind
          simp only [beq_iff_eq] at hpeq
          exact hcon ((contains_key_iff ex _).mpr (hpeq ▸ hseen p hpmem))
        · refine ih _ _ _ _ ?_ hsk sk hmem
          intro kp hkp
          rcases List.mem_append.mp hkp with h' | h'
          · exact List.mem_append.mpr (Or.inl (hseen kp h'))
          · rw [List.mem_singleton] at h'
            subst h'
            exact List.mem_append.mpr (Or.inr (List.mem_singleton.mpr rfl))
    · exact ih ex seen facts _ hseen (hpush _ (by simp)) sk hmem

/-- The dedup key of a persisted fact row. -/
def factKeyOf (f : FactRow) : Key := (f.employee_id, f.date_id, f.shift_id)

theorem rowKeyOf_some {em sm : Dict (Option Nat)} {dm : Dict Nat} {r : Row} {e d sh : Nat}
    (h : rowKeyOf em sm dm r = some (e, d, sh)) :
    mget em (empName r) = some e ∧ dget dm (rowDateStr r) = some d ∧
      mget sm (rowShiftKey r) = some sh := by
  unfold rowKeyOf at h
  rcases h1 : mget em (empName r) with _ | e' <;> rw [h1] at h <;>
    rcases h2 : dget dm (rowDateStr r) with _ | d' <;> rw [h2] at h <;>
      rcases h3 : mget sm (rowShiftKey r) with _ | sh' <;> rw [h3] at h
  all_goals simp_all

theorem processRows_facts_mono (em cm jm sm : Dict (Option Nat)) (dm : Dict Nat) :
    ∀ (l : List (Nat × Row)) (ex : List Key) (seen : List (Key × Nat))
      (facts : List FactRow) (skips : List SkipRecord) (f : FactRow),
      f ∈ facts → f ∈ (processRows em cm jm sm dm l ex seen facts skips).1 := by
  intro l
  induction l with
  | nil =>
    intro ex seen facts skips f hf
    exact hf
  | cons hd rest ih =>
    intro ex seen facts skips f hf
    obtain ⟨idx, r⟩ := hd
    simp only [processRows]
    split
    · split
      · exact ih _ _ _ _ f hf
      · split
        · exact ih _ _ _ _ f hf
        · exact ih _ _ _ _ f (List.mem_append.mpr (Or.inl hf))
    · exact ih _ _ _ _ f hf

theorem processRows_coverage (em cm jm sm : Dict (Option Nat)) (dm : Dict Nat) :
    ∀ (l : List (Nat × Row)) (ex : List Key) (seen : List (Key × Nat))
      (facts : List FactRow) (skips : List SkipRecord),
      (∀ kp ∈ seen, kp.1 ∈ ex) →
      ∀ p ∈ l, ∀ k, rowKeyOf em sm dm p.2 = some k →
        k ∈ ex ∨ k ∈ (processRows em cm jm sm dm l ex seen facts skips).1.map factKeyOf := by
  intro l
  induction l with
  | nil =>
    intro ex seen facts skips hseen p hp
    cases hp
  | cons hd rest ih =>
    intro ex seen facts skips hseen p hp k hk
    obtain ⟨idx, r⟩ := hd
    obtain ⟨e, d, sh⟩ := k
    rcases List.mem_cons.mp hp with rfl | hp'
    · -- the head row itself
      obtain ⟨he, hd', hs⟩ := rowKeyOf_some hk
      simp only [processRows, he, hd', hs]
      by_cases hex : ex.contains ((e, d, sh) : Key) = true
      · exact Or.inl ((contains_key_iff ex _).mp hex)
      · rw [if_neg hex]
        rcases hfind : seen.find? (fun q => q.1 == ((e, d, sh) : Key)) with _ | q <;> rw [hfind]
        · -- emitted
          refine Or.inr ?_
          rw [List.mem_map]
          refine ⟨mkFactRecord r e (mget cm (clientName r)) (mget jm (rowJobKey r)) sh d,
            ?_, rfl⟩
          refine processRows_facts_mono em cm jm sm dm rest _ _ _ _ _ ?_
          exact List.mem_append.mpr (Or.inr (List.mem_singleton.mpr rfl))
        · -- in-file duplicate: its key is in the seen set, hence in ex
          have hqeq := List.find?_some hfind
          simp only [beq_iff_eq] at hqeq
          exact Or.inl (hqeq ▸ hseen q (List.mem_of_find?_eq_some hfind))
    · -- a later row
      simp only [processRows]
      split
      · rename_i e' d' sh' he hd' hs
        by_cases hex : ex.contains ((e', d', sh') : Key) = true
        · rw [if_pos hex]
          exact ih ex seen facts _ hseen p hp' _ hk
        · rw [if_neg hex]
          rcases hfind : seen.find? (fun q => q.1 == ((e', d', sh') : Key)) with _ | q <;> rw [hfind]
          · have hstep := ih (ex ++ [(e', d', sh')]) (seen ++ [((e', d', sh'), idx + 2)])
              (facts ++ [mkFactRecord r e' (mget cm (clientName r)) (mget jm (rowJobKey r)) sh' d'])
              skips ?hinv p hp' _ hk
            case hinv =>
              intro kp hkp
              rcases List.mem_append.mp hkp with h' | h'
              · exact List.mem_append.mpr (Or.inl (hseen kp h'))
              · rw [List.mem_singleton] at h'
                subst h'
                exact List.mem_append.mpr (Or.inr (List.mem_singleton.mpr rfl))
            rcases hstep with hl | hr
            · rcases List.mem_append.mp hl with h' | h'
              · exact Or.inl h'
              · rw [List.mem_singleton, Prod.mk.injEq, Prod.mk.injEq] at h'
                obtain ⟨he1, he2, he3⟩ := h'
                subst he1
                subst he2
                subst he3
                refine Or.inr ?_
                rw [List.mem_map]
                refine ⟨mkFactRecord r e (mget cm (clientName r)) (mget jm (rowJobKey r)) sh d,
                  ?_, rfl⟩
                refine processRows_facts_mono em cm jm sm dm rest _ _ _ _ _ ?_
                exact List.mem_append.mpr (Or.inr (List.mem_singleton.mpr rfl))
            · exact Or.inr hr
          · exact ih ex seen facts _ hseen p hp' _ hk
      · exact ih ex seen facts _ hseen p hp' _ hk

/-- Every emitted fact's date id comes from the date map at the row's cleaned
date string. -/
theorem processRows_dates (em cm jm sm : Dict (Option Nat)) (dm : Dict Nat) (P : Nat → Prop) :
    ∀ (l : List (Nat × Row)) (ex : List Key) (seen : List (Key × Nat))
      (facts : List FactRow) (skips : List SkipRecord),
      (∀ p ∈ l, ∀ d, dget dm (rowDateStr p.2) = some d → P d) →
      (∀ f ∈ facts, P f.date_id) →
      ∀ f ∈ (processRows em cm jm sm dm l ex seen facts skips).1, P f.date_id := by
  intro l
  induction l with
  | nil =>
    intro ex seen facts skips hl hf f hmem
    exact hf f hmem
  | cons hd rest ih =>
    intro ex seen facts skips hl hf f hmem
    obtain ⟨idx, r⟩ := hd
    have hrest : ∀ p ∈ rest, ∀ d, dget dm (rowDateStr p.2) = some d → P d :=
      fun p hp => hl p (List.mem_cons_of_mem _ hp)
    simp only [processRows] at hmem
    split at hmem
    · rename_i e d sh he hd' hs
      split at hmem
      · exact ih _ _ _ _ hrest hf f hmem
      · split at hmem
        · exact ih _ _ _ _ hrest hf f hmem
        · refine ih _ _ _ _ hrest ?_ f hmem
          intro f' hf'
          rcases List.mem_append.mp hf' with h' | h'
          · exact hf f' h'
          · rw [List.mem_singleton] at h'
            subst h'
            exact hl (idx, r) (List.mem_cons_self _ _) d hd'
    · exact ih _ _ _ _ hrest hf f hmem

/-- When every row's key is already in the snapshot set, nothing is emitted
and every row is skipped as a pre-existing duplicate. -/
theorem processRows_allPre (em cm jm sm : Dict (Option Nat)) (dm : Dict Nat) :
    ∀ (l : List (Nat × Row)) (ex : List Key) (seen : List (Key × Nat))
      (facts : List FactRow) (skips : List SkipRecord),
      (∀ p ∈ l, ∃ k, rowKeyOf em sm dm p.2 = some k ∧ k ∈ ex) →
      processRows em cm jm sm dm l ex seen facts skips = (facts, skips ++ l.map preRecOf) := by
  intro l
  induction l with
  | nil =>
    intro ex seen facts skips h
    simp [processRows]
  | cons hd rest ih =>
    intro ex seen facts skips h
    obtain ⟨idx, r⟩ := hd
    obtain ⟨k, hk, hkex⟩ := h (idx, r) (List.mem_cons_self _ _)
    obtain ⟨e, d, sh⟩ := k
    obtain ⟨he, hd', hs⟩ := rowKeyOf_some hk
    simp only [processRows, he, hd', hs]
    rw [if_pos ((contains_key_iff ex _).mpr hkex)]
    rw [ih ex seen facts _ (fun p hp => h p (List.mem_cons_of_mem _ hp))]
    simp [preRecOf]

/-- `_bulk_create_facts` under a failure-free storage layer. -/
theorem bulkCreateFacts_allOk (s : Store) (df : List (Nat × Row))
    (em cm jm sm : Dict (Option Nat)) (dm : Dict Nat) :
    bulkCreateFacts (fun _ => true) s df em cm jm sm dm =
      .ok ((processRows em cm jm sm dm df (existingFactKeys s df) [] [] []).1.length,
        (processRows em cm jm sm dm df (existingFactKeys s df) [] [] []).2,
        { s with facts := s.facts ++
          (processRows em cm jm sm dm df (existingFactKeys s df) [] [] []).1 }) := by
  simp only [bulkCreateFacts]
  rw [writeBatches_allOk]
  simp

/-! ## Claims C4 and C2: duplicate handling on concrete files -/

/-- A scenario row: employee and client vary, everything else fixed, with
date 2024-03-01 and shift "Morning" 08:00–16:00 and client net 96. -/
def c2row (fn cl : Value) : Row :=
  ⟨.str "J", .str "Morning", fn, .str "L", .str "S", .str "R", .str "March",
    .str "2024-03-01", .str "Fri", .str "08:00", .str "16:00", .num 8, .num 8, .num 10,
    .num 0, .num 0, .num 80, .num 12, .num 96, .boolV false, .boolV false, cl,
    .str "ok"⟩

/-- The C4 failing input: two rows with the same (employee, date, shift)
dedup key and different clients. -/
def c4rows : List Row :=
  [c2row (.str "Jane Doe") (.str "C1"), c2row (.str "Jane Doe") (.str "C2")]

/-- The completed output of loading `c4rows` into an empty store. -/
def c4out : LoadOutput :=
  match loadExcelData allOk ⟨[], []⟩ emptyStore c4rows with
  | .complete o => o
  | .error s => ⟨0, [], ⟨0, 0, false, true⟩, s⟩

/-- C4: evaluating the loader at the failing input.  First-row-wins holds
(one fact, the second row skipped), but the skip is labelled
`pre_existing`, not `intra_file` with the first row's number: the emitted
key is added to the pre-existing snapshot set, which is checked before the
in-file seen set, so the intra-file branch of `_bulk_create_facts` is
unreachable in every run (first conjunct), contradicting both the claim and
the reconciler, which subtracts only `intra_file` skips. -/
theorem claim_C4_bug :
    (∀ (em cm jm sm : Dict (Option Nat)) (dm : Dict Nat) (l : List (Nat × Row)) (ex : List Key),
      ((processRows em cm jm sm dm l ex [] [] []).2.all
        (fun sk => !(sk.duplicate_type == some "intra_file"))) = true) ∧
    loadExcelData allOk ⟨[], []⟩ emptyStore c4rows = .complete c4out ∧
    c4out.inserted = 1 ∧
    c4out.skipped.map (fun sk => (sk.row, sk.reason, sk.duplicate_type)) =
      [(3, "Duplicate", some "pre_existing")] := by
  refine ⟨?_, rfl, by decide, by decide⟩
  intro em cm jm sm dm l ex
  rw [List.all_eq_true]
  intro sk hsk
  have h := processRows_noIntra em cm jm sm dm l ex [] [] []
    (by intro kp hkp; cases hkp) (by intro sk' hsk'; cases hsk') sk hsk
  simpa using h

/-- The C2 scenario file: row A (new employee "Jane Doe"), row B with the
same dedup key but a different client, row C with a blank full name. -/
def c2rows : List Row :=
  [c2row (.str "Jane Doe") (.str "C1"), c2row (.str "Jane Doe") (.str "C2"),
    c2row (.str "") (.str "C1")]

/-- The completed output of loading the C2 scenario into an empty store. -/
def c2out : LoadOutput :=
  match loadExcelData allOk ⟨[], []⟩ emptyStore c2rows with
  | .complete o => o
  | .error s => ⟨0, [], ⟨0, 0, false, true⟩, s⟩

/-- C2 counterexample: the scenario claims exactly 1 inserted fact, 2 skips
(an intra-file duplicate and a Missing Keys skip), and 1 new Employee row;
the code inserts 2 facts (row C's blank name becomes the placeholder
employee "Unknown Employee"), produces exactly 1 skip, labelled
`pre_existing` rather than `intra_file`, and creates 2 Employee rows. -/
theorem claim_C2_counterexample :
    loadExcelData allOk ⟨[], []⟩ emptyStore c2rows = .complete c2out ∧
    c2out.inserted = 2 ∧ (2 : Nat) ≠ 1 ∧
    c2out.skipped.length = 1 ∧
    c2out.store.employees.length = 2 ∧
    (c2out.skipped.all (fun sk => !(sk.reason == "Missing Keys"))) = true ∧
    (c2out.skipped.all (fun sk => !(sk.duplicate_type == some "intra_file"))) = true := by
  refine ⟨rfl, by decide, by decide, by decide, by decide, by decide, by decide⟩

/-- C2 (amended): loading the scenario file into an empty store inserts 2
fact rows (rows A and C — the blank name is silently replaced by the
placeholder "Unknown Employee", which is created as a dimension row and
resolves, so no Missing Keys skip occurs), produces exactly one skip record
— row B as a `pre_existing` Duplicate naming row A's key data — and creates
2 new Employee rows, "Jane Doe" and "Unknown Employee". -/
theorem claim_C2_amended :
    loadExcelData allOk ⟨[], []⟩ emptyStore c2rows = .complete c2out ∧
    c2out.inserted = 2 ∧
    c2out.skipped =
      [⟨3, "Duplicate", "Jane Doe on 2024-03-01 (Shift: Morning)", some "pre_existing"⟩] ∧
    c2out.store.employees.map (fun e => e.full_name) = ["Jane Doe", "Unknown Employee"] ∧
    c2out.store.facts.length = 2 := by
  refine ⟨rfl, by decide, by decide, by decide, by decide⟩

/-! ## Claim C5: the reconciler -/

theorem skipFold_eq (df : List (Nat × Row)) :
    ∀ (skips : List SkipRecord) (acc : ℚ),
      skips.foldl (fun acc sk => if qualSkip sk then acc + skipLookup df sk.row else acc) acc =
        acc + ((skips.filter qualSkip).map (fun sk => skipLookup df sk.row)).sum := by
  intro skips
  induction skips with
  | nil =>
    intro acc
    simp
  | cons sk rest ih =>
    intro acc
    cases h : qualSkip sk with
    | false =>
      simp only [List.foldl_cons, List.filter_cons, h, Bool.false_eq_true, if_false]
      exact ih acc
    | true =>
      simp only [List.foldl_cons, List.filter_cons, h, if_true, List.map_cons, List.sum_cons]
      rw [ih (acc + skipLookup df sk.row)]
      ring

theorem fileDateIds_ne_nil {df : List (Nat × Row)} (h : df ≠ []) :
    fileDateIds df ≠ [] := by
  match df with
  | [] => exact absurd rfl h
  | p :: rest =>
    unfold fileDateIds dedupFirst
    simp only [List.map_cons, dedupFirstAux, List.not_mem_nil, if_neg (fun h => h)]
    intro hc
    cases hc

/-- C5: the reconciler computes the skipped total as the client-net sum over
exactly the skip records whose reason is Missing Keys or whose reason is
Duplicate with type intra_file (pre-existing duplicates excluded), reports
`excel_revenue` as the raw source total minus that skipped total, reports
`db_revenue` as the client-net sum of the persisted facts with date id in
the file's min–max date-id range, and reports a match exactly when the two
differ by less than 1.0. -/
theorem claim_C5_reconciler (s : Store) (df : List (Nat × Row)) (skips : List SkipRecord)
    (h : df ≠ []) :
    (verifyTotals s df skips).verr = false ∧
    (verifyTotals s df skips).excel_revenue =
      rawRevenue df - ((skips.filter qualSkip).map (fun sk => skipLookup df sk.row)).sum ∧
    (verifyTotals s df skips).db_revenue =
      rangeRevenue s (minList (fileDateIds df)) (maxList (fileDateIds df)) ∧
    ((verifyTotals s df skips).vmatch = true ↔
      |(verifyTotals s df skips).db_revenue - (verifyTotals s df skips).excel_revenue| < 1) := by
  have hids : (fileDateIds df).isEmpty = false :=
    List.isEmpty_eq_false.mpr (fileDateIds_ne_nil h)
  simp only [verifyTotals, hids, Bool.false_eq_true, if_false]
  refine ⟨by trivial, ?_, by trivial, ?_⟩
  · rw [skipFold_eq df skips 0]
    ring
  · exact decide_eq_true_iff

/-- C5 witness: the reconciler clauses at a concrete one-row file with no
skip records. -/
theorem claim_C5_witness :
    ([(0, c2row (.str "Jane Doe") (.str "C1"))] : List (Nat × Row)) ≠ [] ∧
    (verifyTotals emptyStore [(0, c2row (.str "Jane Doe") (.str "C1"))] []).excel_revenue =
      rawRevenue [(0, c2row (.str "Jane Doe") (.str "C1"))] - 0 ∧
    (verifyTotals emptyStore [(0, c2row (.str "Jane Doe") (.str "C1"))] []).verr = false := by
  have h := claim_C5_reconciler emptyStore [(0, c2row (.str "Jane Doe") (.str "C1"))] []
    (by decide)
  refine ⟨by decide, ?_, h.1⟩
  rw [h.2.1]
  simp

/-! ## Claim C3: auxiliary lemmas -/

theorem dmem_dset {α : Type} (m : Dict α) (a k : String) (v : α) :
    dmem (dset m a v) k = (dmem m k || (a == k)) := by
  unfold dmem dset
  rw [List.any_append]
  simp [List.any]

theorem dmem_append {α : Type} (m m' : Dict α) (k : String) :
    dmem (m ++ m') k = (dmem m k || dmem m' k) := by
  unfold dmem
  exact List.any_append

/-- A key absent from a table dict has no matching row. -/
theorem dget_table_none {α β : Type} {l : List α} {f : α → String × β} {k : String}
    (h : dget (l.map f) k = Option.none) : ∀ x ∈ l, (f x).1 ≠ k := by
  intro x hx hk
  have : dmem (l.map f) k = true := (dmem_table_iff l f k).mpr ⟨x, hx, hk⟩
  rw [dmem_iff_dget] at this
  rw [h] at this
  cases this

theorem dget_keys_none {α : Type} {l : Dict α} {k : String}
    (h : ∀ x ∈ l, x.1 ≠ k) : dget l k = Option.none := by
  rcases hg : dget l k with _ | v
  · rfl
  · unfold dget at hg
    rcases hf : l.reverse.find? (fun p => p.1 == k) with _ | p
    · rw [hf] at hg
      cases hg
    · have hpmem := List.mem_reverse.mp (List.mem_of_find?_eq_some hf)
      have hpeq := List.find?_some hf
      simp only [beq_iff_eq] at hpeq
      exact absurd hpeq (h p hpmem)

theorem minList_le {l : List Nat} {x : Nat} (hx : x ∈ l) : minList l ≤ x := by
  match l with
  | [] => cases hx
  | a :: rest =>
    unfold minList
    have key : ∀ (t : List Nat) (b : Nat), t.foldl Nat.min b ≤ b ∧ ∀ y ∈ t, t.foldl Nat.min b ≤ y := by
      intro t
      induction t with
      | nil => intro b; exact ⟨le_refl b, fun y hy => absurd hy (List.not_mem_nil y)⟩
      | cons c rest ih =>
        intro b
        constructor
        · exact le_trans (ih (Nat.min b c)).1 (Nat.min_le_left b c)
        · intro y hy
          rcases List.mem_cons.mp hy with rfl | hy'
          · exact le_trans (ih (Nat.min b y)).1 (Nat.min_le_right b y)
          · exact (ih (Nat.min b c)).2 y hy'
    rcases List.mem_cons.mp hx with rfl | hx'
    · exact (key rest x).1
    · exact (key rest a).2 x hx'

theorem le_maxList {l : List Nat} {x : Nat} (hx : x ∈ l) : x ≤ maxList l := by
  match l with
  | [] => cases hx
  | a :: rest =>
    unfold maxList
    have key : ∀ (t : List Nat) (b : Nat), b ≤ t.foldl Nat.max b ∧ ∀ y ∈ t, y ≤ t.foldl Nat.max b := by
      intro t
      induction t with
      | nil => intro b; exact ⟨le_refl b, fun y hy => absurd hy (List.not_mem_nil y)⟩
      | cons c rest ih =>
        intro b
        constructor
        · exact le_trans (Nat.le_max_left b c) (ih (Nat.max b c)).1
        · intro y hy
          rcases List.mem_cons.mp hy with rfl | hy'
          · exact le_trans (Nat.le_max_right b y) (ih (Nat.max b y)).1
          · exact (ih (Nat.max b c)).2 y hy'
    rcases List.mem_cons.mp hx with rfl | hx'
    · exact (key rest x).1
    · exact (key rest a).2 x hx'

theorem mem_dedupFirstAux {α : Type} [DecidableEq α] :
    ∀ (l : List α) (seen : List α) (x : α),
      x ∈ dedupFirstAux seen l ↔ x ∈ l ∧ x ∉ seen := by
  intro l
  induction l with
  | nil =>
    intro seen x
    simp [dedupFirstAux]
  | cons a rest ih =>
    intro seen x
    unfold dedupFirstAux
    by_cases ha : a ∈ seen
    · rw [if_pos ha, ih]
      constructor
      · rintro ⟨h1, h2⟩
        exact ⟨List.mem_cons_of_mem a h1, h2⟩
      · rintro ⟨h1, h2⟩
        rcases List.mem_cons.mp h1 with rfl | h1'
        · exact absurd ha h2
        · exact ⟨h1', h2⟩
    · rw [if_neg ha]
      constructor
      · intro hx
        rcases List.mem_cons.mp hx with rfl | hx'
        · exact ⟨List.mem_cons_self x rest, ha⟩
        · obtain ⟨h1, h2⟩ := (ih (a :: seen) x).mp hx'
          refine ⟨List.mem_cons_of_mem a h1, ?_⟩
          intro hc
          exact h2 (List.mem_cons_of_mem a hc)
      · rintro ⟨h1, h2⟩
        rcases List.mem_cons.mp h1 with rfl | h1'
        · exact List.mem_cons_self x _
        · by_cases hxa : x = a
          · subst hxa
            exact List.mem_cons_self x _
          · refine List.mem_cons_of_mem a ((ih (a :: seen) x).mpr ⟨h1', ?_⟩)
            intro hc
            rcases List.mem_cons.mp hc with h' | h'
            · exact hxa h'
            · exact h2 h'

theorem mem_dedupFirst {α : Type} [DecidableEq α] (l : List α) (x : α) :
    x ∈ dedupFirst l ↔ x ∈ l := by
  unfold dedupFirst
  rw [mem_dedupFirstAux]
  simp

/-! ### Employee resolver characterisation -/

theorem stageEmployees_dmem_mono (ex : Dict Nat) :
    ∀ (pairs : List (Value × Value)) (m : Dict (Option Nat)) (news : List (String × String))
      (k : String), dmem m k = true → dmem (stageEmployees ex pairs m news).1 k = true := by
  intro pairs
  induction pairs with
  | nil => intro m news k h; exact h
  | cons pr rest ih =>
    intro m news k h
    obtain ⟨vn, vr⟩ := pr
    simp only [stageEmployees]
    by_cases hm : dmem m (cleanString vn "Unknown Employee") = true
    · rw [if_pos hm]
      exact ih m news k h
    · rw [if_neg hm]
      cases hg : dget ex (cleanString vn "Unknown Employee") with
      | some i => exact ih _ news k (dmem_dset_of _ _ h)
      | none => exact ih _ _ k (dmem_dset_of _ _ h)

/-- The three preserved invariants of the employee staging loop, plus key
coverage: map values are snapshot lookups, every mapped name is either in the
snapshot or staged, staged names are absent from the snapshot, and every
incoming cleaned name ends up in the map. -/
theorem stageEmployees_master (ex : Dict Nat) :
    ∀ (pairs : List (Value × Value)) (m : Dict (Option Nat)) (news : List (String × String)),
      (∀ k v, dget m k = some v → v = dget ex k) →
      (∀ k, dmem m k = true → dmem ex k = true ∨ k ∈ news.map (fun p => p.1)) →
      (∀ x ∈ news, dget ex x.1 = Option.none) →
      (∀ k v, dget (stageEmployees ex pairs m news).1 k = some v → v = dget ex k) ∧
      (∀ k, dmem (stageEmployees ex pairs m news).1 k = true →
        dmem ex k = true ∨ k ∈ (stageEmployees ex pairs m news).2.map (fun p => p.1)) ∧
      (∀ x ∈ (stageEmployees ex pairs m news).2, dget ex x.1 = Option.none) ∧
      (∀ p ∈ pairs, dmem (stageEmployees ex pairs m news).1
          (cleanString p.1 "Unknown Employee") = true) := by
  intro pairs
  induction pairs with
  | nil =>
    intro m news h1 h2 h3
    exact ⟨h1, h2, h3, fun p hp => absurd hp (List.not_mem_nil p)⟩
  | cons pr rest ih =>
    intro m news h1 h2 h3
    obtain ⟨vn, vr⟩ := pr
    simp only [stageEmployees]
    by_cases hm : dmem m (cleanString vn "Unknown Employee") = true
    · rw [if_pos hm]
      obtain ⟨g1, g2, g3, g4⟩ := ih m news h1 h2 h3
      refine ⟨g1, g2, g3, ?_⟩
      intro p hp
      rcases List.mem_cons.mp hp with rfl | hp'
      · exact stageEmployees_dmem_mono ex rest m news _ hm
      · exact g4 p hp'
    · rw [if_neg hm]
      cases hg : dget ex (cleanString vn "Unknown Employee") with
      | some i =>
        have h1' : ∀ k v,
            dget (dset m (cleanString vn "Unknown Employee") (some i)) k = some v →
              v = dget ex k := by
          intro k v hk
          by_cases hkn : k = cleanString vn "Unknown Employee"
          · subst hkn
            rw [dget_dset_self] at hk
            injection hk with hk
            rw [← hk, hg]
          · rw [dget_dset_ne _ _ hkn] at hk
            exact h1 k v hk
        have h2' : ∀ k,
            dmem (dset m (cleanString vn "Unknown Employee") (some i)) k = true →
              dmem ex k = true ∨ k ∈ news.map (fun p => p.1) := by
          intro k hk
          rw [dmem_dset] at hk
          rcases Bool.or_eq_true_iff.mp hk with hk' | hk'
          · exact h2 k hk'
          · have : cleanString vn "Unknown Employee" = k := by simpa using hk'
            subst this
            exact Or.inl (dmem_of_dget_some hg)
        obtain ⟨g1, g2, g3, g4⟩ := ih _ news h1' h2' h3
        refine ⟨g1, g2, g3, ?_⟩
        intro p hp
        rcases List.mem_cons.mp hp with rfl | hp'
        · exact stageEmployees_dmem_mono ex rest _ news _ (dmem_dset_self' m _ _)
        · exact g4 p hp'
      | none =>
        have h1' : ∀ k v,
            dget (dset m (cleanString vn "Unknown Employee") Option.none) k = some v →
              v = dget ex k := by
          intro k v hk
          by_cases hkn : k = cleanString vn "Unknown Employee"
          · subst hkn
            rw [dget_dset_self] at hk
            injection hk with hk
            rw [← hk, hg]
          · rw [dget_dset_ne _ _ hkn] at hk
            exact h1 k v hk
        have h2' : ∀ k,
            dmem (dset m (cleanString vn "Unknown Employee") Option.none) k = true →
              dmem ex k = true ∨
                k ∈ (news ++ [(cleanString vn "Unknown Employee", cleanString vr "")]).map
                  (fun p => p.1) := by
          intro k hk
          rw [dmem_dset] at hk
          rcases Bool.or_eq_true_iff.mp hk with hk' | hk'
          · rcases h2 k hk' with h' | h'
            · exact Or.inl h'
            · refine Or.inr ?_
              rw [List.map_append]
              exact List.mem_append.mpr (Or.inl h')
          · have : cleanString vn "Unknown Employee" = k := by simpa using hk'
            subst this
            refine Or.inr ?_
            rw [List.map_append]
            exact List.mem_append.mpr (Or.inr (by simp))
        have h3' : ∀ x ∈ news ++ [(cleanString vn "Unknown Employee", cleanString vr "")],
            dget ex x.1 = Option.none := by
          intro x hx
          rcases List.mem_append.mp hx with hx' | hx'
          · exact h3 x hx'
          · rw [List.mem_singleton] at hx'
            subst hx'
            exact hg
        obtain ⟨g1, g2, g3, g4⟩ := ih _ _ h1' h2' h3'
        refine ⟨g1, g2, g3, ?_⟩
        intro p hp
        rcases List.mem_cons.mp hp with rfl | hp'
        · exact stageEmployees_dmem_mono ex rest _ _ _ (dmem_dset_self' m _ _)
        · exact g4 p hp'

/-- When every incoming cleaned name is already in the snapshot, nothing is
staged. -/
theorem stageEmployees_noNew (ex : Dict Nat) :
    ∀ (pairs : List (Value × Value)) (m : Dict (Option Nat)) (news : List (String × String)),
      (∀ p ∈ pairs, dmem ex (cleanString p.1 "Unknown Employee") = true) →
      (stageEmployees ex pairs m news).2 = news := by
  intro pairs
  induction pairs with
  | nil => intro m news _; rfl
  | cons pr rest ih =>
    intro m news h
    obtain ⟨vn, vr⟩ := pr
    simp only [stageEmployees]
    by_cases hm : dmem m (cleanString vn "Unknown Employee") = true
    · rw [if_pos hm]
      exact ih m news (fun p hp => h p (List.mem_cons_of_mem _ hp))
    · rw [if_neg hm]
      have hex := h (vn, vr) (List.mem_cons_self _ _)
      rw [dmem_iff_dget] at hex
      cases hg : dget ex (cleanString vn "Unknown Employee") with
      | some i => exact ih _ news (fun p hp => h p (List.mem_cons_of_mem _ hp))
      | none =>
        rw [hg] at hex
        cases hex

/-- The inserted employee rows carry exactly the staged names, in order. -/
theorem newEmployeeRows_names :
    ∀ (news : List (String × String)) (start : Nat),
      (newEmployeeRows start news).map (fun e => e.full_name) = news.map (fun p => p.1) := by
  intro news
  induction news with
  | nil => intro start; rfl
  | cons x rest ih =>
    intro start
    obtain ⟨n, r⟩ := x
    simp only [newEmployeeRows, List.map_cons]
    rw [ih]

/-- Full characterisation of a successful employee resolution: the employee
table only grows, no other table is touched, name uniqueness is preserved,
and every incoming cleaned name resolves through the returned map to the id
of a row of the final table bearing that name. -/
theorem bulkCreateEmployees_spec {s : Store} {pairs : List (Value × Value)}
    {m : Dict (Option Nat)} {s' : Store}
    (hnd : (s.employees.map (fun e => e.full_name)).Nodup)
    (h : bulkCreateEmployees true s pairs = .ok (m, s')) :
    (∃ tail, s'.employees = s.employees ++ tail) ∧
    s'.clients = s.clients ∧ s'.jobs = s.jobs ∧ s'.shifts = s.shifts ∧
    s'.dates = s.dates ∧ s'.facts = s.facts ∧
    (s'.employees.map (fun e => e.full_name)).Nodup ∧
    (∀ p ∈ pairs, ∃ e ∈ s'.employees,
      e.full_name = cleanString p.1 "Unknown Employee" ∧
      mget m (cleanString p.1 "Unknown Employee") = some e.employee_id) := by
  obtain ⟨g1, g2, g3, g4⟩ :=
    stageEmployees_master (empDict s.employees) pairs [] []
      (by intro k v hk; rw [dget_nil] at hk; cases hk)
      (by intro k hk; simp [dmem] at hk)
      (by intro x hx; cases hx)
  have gnodup :=
    stageEmployees_nodup (empDict s.employees) pairs [] [] (by simp)
      (fun x hx => absurd hx (List.not_mem_nil x))
  simp only [bulkCreateEmployees, if_true] at h
  split at h
  · -- nothing staged: the store is returned unchanged
    rename_i hempty
    injection h with h
    rw [Prod.mk.injEq] at h
    obtain ⟨rfl, rfl⟩ := h
    have hst2 : (stageEmployees (empDict s.employees) pairs [] []).2 = [] :=
      List.isEmpty_iff.mp hempty
    refine ⟨⟨[], (List.append_nil _).symm⟩, rfl, rfl, rfl, rfl, rfl, hnd, ?_⟩
    intro p hp
    have hmem := g4 p hp
    rw [dmem_iff_dget] at hmem
    rcases hv : dget (stageEmployees (empDict s.employees) pairs [] []).1
        (cleanString p.1 "Unknown Employee") with _ | v
    · rw [hv] at hmem; cases hmem
    · have hval := g1 _ _ hv
      rcases g2 (cleanString p.1 "Unknown Employee") (g4 p hp) with hex | hnew
      · rw [dmem_iff_dget] at hex
        rcases hg : dget (empDict s.employees) (cleanString p.1 "Unknown Employee") with _ | i
        · rw [hg] at hex; cases hex
        · obtain ⟨e, he, hfe⟩ := dget_table hg
          rw [Prod.mk.injEq] at hfe
          refine ⟨e, he, hfe.1, ?_⟩
          rw [mget, hv, hval, hg, hfe.2]
          rfl
      · rw [hst2] at hnew
        cases hnew
  · -- staged rows inserted and re-queried
    rename_i hempty
    injection h with h
    rw [Prod.mk.injEq] at h
    obtain ⟨rfl, rfl⟩ := h
    have hnames :
        (newEmployeeRows s.nextEmployeeId (stageEmployees (empDict s.employees) pairs [] []).2).map
          (fun e => e.full_name) =
        (stageEmployees (empDict s.employees) pairs [] []).2.map (fun p => p.1) :=
      newEmployeeRows_names _ _
    have hnodup' :
        ((s.employees ++
          newEmployeeRows s.nextEmployeeId
            (stageEmployees (empDict s.employees) pairs [] []).2).map
          (fun e => e.full_name)).Nodup := by
      rw [List.map_append, hnames]
      refine List.Nodup.append hnd gnodup ?_
      intro a ha hb
      rw [List.mem_map] at hb
      obtain ⟨x, hx, hxa⟩ := hb
      have hxnone := g3 x hx
      rw [List.mem_map] at ha
      obtain ⟨e, he, hea⟩ := ha
      have hmem : dmem (empDict s.employees) a = true :=
        (dmem_table_iff s.employees _ a).mpr ⟨e, he, hea⟩
      rw [dmem_iff_dget, ← hxa, hxnone] at hmem
      cases hmem
    refine ⟨⟨_, rfl⟩, rfl, rfl, rfl, rfl, rfl, hnodup', ?_⟩
    intro p hp
    have hmem := g4 p hp
    rw [dmem_iff_dget] at hmem
    rcases hv : dget (stageEmployees (empDict s.employees) pairs [] []).1
        (cleanString p.1 "Unknown Employee") with _ | v
    · rw [hv] at hmem; cases hmem
    · have hval := g1 _ _ hv
      rcases g2 (cleanString p.1 "Unknown Employee") (g4 p hp) with hex | hnew
      · -- the name was already in the snapshot: the base map entry survives
        rw [dmem_iff_dget] at hex
        rcases hg : dget (empDict s.employees) (cleanString p.1 "Unknown Employee") with _ | i
        · rw [hg] at hex; cases hex
        · obtain ⟨e, he, hfe⟩ := dget_table hg
          rw [Prod.mk.injEq] at hfe
          refine ⟨e, List.mem_append.mpr (Or.inl he), hfe.1, ?_⟩
          have hrq : dget
              (((s.employees ++
                newEmployeeRows s.nextEmployeeId
                  (stageEmployees (empDict s.employees) pairs [] []).2).filter
                (fun e => ((stageEmployees (empDict s.employees) pairs [] []).2.map
                  (fun p => p.1)).contains e.full_name)).map
                (fun e => (e.full_name, some e.employee_id)))
              (cleanString p.1 "Unknown Employee") = Option.none := by
            refine dget_keys_none ?_
            intro x hx hxk
            rw [List.mem_map] at hx
            obtain ⟨e', he', rfl⟩ := hx
            rw [List.mem_filter] at he'
            have hin : e'.full_name ∈
                (stageEmployees (empDict s.employees) pairs [] []).2.map (fun p => p.1) := by
              simpa using he'.2
            simp only at hxk
            rw [hxk] at hin
            rw [List.mem_map] at hin
            obtain ⟨x', hx', hx'1⟩ := hin
            have := g3 x' hx'
            rw [hx'1, hg] at this
            cases this
          rw [mget, dget_append, hrq, hv, hval, hg, hfe.2]
          rfl
      · -- the name was staged: the re-query entry wins
        rw [List.mem_map] at hnew
        obtain ⟨x, hx, hx1⟩ := hnew
        have hrowmem : cleanString p.1 "Unknown Employee" ∈
            (newEmployeeRows s.nextEmployeeId
              (stageEmployees (empDict s.employees) pairs [] []).2).map
              (fun e => e.full_name) := by
          rw [hnames, List.mem_map]
          exact ⟨x, hx, hx1⟩
        rw [List.mem_map] at hrowmem
        obtain ⟨e, he, hename⟩ := hrowmem
        have hemem : e ∈ s.employees ++
            newEmployeeRows s.nextEmployeeId
              (stageEmployees (empDict s.employees) pairs [] []).2 :=
          List.mem_append.mpr (Or.inr he)
        refine ⟨e, hemem, hename, ?_⟩
        have hfmem : e ∈ (s.employees ++
            newEmployeeRows s.nextEmployeeId
              (stageEmployees (empDict s.employees) pairs [] []).2).filter
            (fun e => ((stageEmployees (empDict s.employees) pairs [] []).2.map
              (fun p => p.1)).contains e.full_name) := by
          rw [List.mem_filter]
          refine ⟨hemem, ?_⟩
          have : e.full_name ∈
              (stageEmployees (empDict s.employees) pairs [] []).2.map (fun p => p.1) := by
            rw [hename]
            exact List.mem_map.mpr ⟨x, hx, hx1⟩
          simpa using this
        have hfnd : (((s.employees ++
            newEmployeeRows s.nextEmployeeId
              (stageEmployees (empDict s.employees) pairs [] []).2).filter
            (fun e => ((stageEmployees (empDict s.employees) pairs [] []).2.map
              (fun p => p.1)).contains e.full_name)).map
            (fun e => (e.full_name, some e.employee_id))).Nodup →
            True := fun _ => trivial
        have hkeysnd : (((s.employees ++
            newEmployeeRows s.nextEmployeeId
              (stageEmployees (empDict s.employees) pairs [] []).2).filter
            (fun e => ((stageEmployees (empDict s.employees) pairs [] []).2.map
              (fun p => p.1)).contains e.full_name)).map
            (fun e => ((fun e => (e.full_name, some e.employee_id)) e).1)).Nodup := by
          refine List.Nodup.sublist ?_ hnodup'
          exact List.Sublist.map _ (List.filter_sublist _)
        have hget := dget_table_of_nodup (fun e => (e.full_name, some e.employee_id))
          hkeysnd hfmem
        rw [mget, dget_append]
        simp only at hget
        rw [hename] at hget
        rw [hget]
        rfl

/-- When every incoming cleaned name is already present, the employee
resolver returns the store unchanged. -/
theorem bulkCreateEmployees_noNew {s : Store} {pairs : List (Value × Value)}
    (h : ∀ p ∈ pairs, dmem (empDict s.employees) (cleanString p.1 "Unknown Employee") = true) :
    ∃ m, bulkCreateEmployees true s pairs = .ok (m, s) := by
  refine ⟨(stageEmployees (empDict s.employees) pairs [] []).1, ?_⟩
  simp only [bulkCreateEmployees]
  rw [stageEmployees_noNew _ pairs [] [] h]
  rfl

/-! ### Client resolver characterisation -/

theorem newClientRows_names :
    ∀ (news : List String) (start : Nat),
      (newClientRows start news).map (fun c => c.client_name) = news := by
  intro news
  induction news with
  | nil => intro start; rfl
  | cons n rest ih =>
    intro start
    simp only [newClientRows, List.map_cons]
    rw [ih]

/-- Full characterisation of a successful client resolution: the client table
only grows, no other table is touched, and every incoming cleaned name is
present in the final table. -/
theorem bulkCreateClients_spec {s : Store} {vals : List Value}
    {m : Dict (Option Nat)} {s' : Store}
    (h : bulkCreateClients true s vals = .ok (m, s')) :
    (∃ tail, s'.clients = s.clients ++ tail) ∧
    s'.employees = s.employees ∧ s'.jobs = s.jobs ∧ s'.shifts = s.shifts ∧
    s'.dates = s.dates ∧ s'.facts = s.facts ∧
    (∀ v ∈ vals, ∃ c ∈ s'.clients, c.client_name = cleanString v "Unknown Client") := by
  have hstage := stageClients_eq (clientDict s.clients) vals [] []
  rw [List.nil_append] at hstage
  simp only [bulkCreateClients, if_true] at h
  split at h
  · rename_i hempty
    injection h with h
    rw [Prod.mk.injEq] at h
    obtain ⟨rfl, rfl⟩ := h
    have hst2 : (stageClients (clientDict s.clients) vals [] []).2 = [] :=
      List.isEmpty_iff.mp hempty
    rw [hstage] at hst2
    rw [List.filter_eq_nil_iff] at hst2
    refine ⟨⟨[], (List.append_nil _).symm⟩, rfl, rfl, rfl, rfl, rfl, ?_⟩
    intro v hv
    have hmem : dmem (clientDict s.clients) (cleanString v "Unknown Client") = true := by
      have := hst2 (cleanString v "Unknown Client")
        (List.mem_map.mpr ⟨v, hv, rfl⟩)
      simpa using this
    rw [dmem_iff_dget] at hmem
    rcases hg : dget (clientDict s.clients) (cleanString v "Unknown Client") with _ | i
    · rw [hg] at hmem; cases hmem
    · obtain ⟨c, hc, hfc⟩ := dget_table hg
      rw [Prod.mk.injEq] at hfc
      exact ⟨c, hc, hfc.1⟩
  · injection h with h
    rw [Prod.mk.injEq] at h
    obtain ⟨rfl, rfl⟩ := h
    refine ⟨⟨_, rfl⟩, rfl, rfl, rfl, rfl, rfl, ?_⟩
    intro v hv
    by_cases hmem : dmem (clientDict s.clients) (cleanString v "Unknown Client") = true
    · rw [dmem_iff_dget] at hmem
      rcases hg : dget (clientDict s.clients) (cleanString v "Unknown Client") with _ | i
      · rw [hg] at hmem; cases hmem
      · obtain ⟨c, hc, hfc⟩ := dget_table hg
        rw [Prod.mk.injEq] at hfc
        exact ⟨c, List.mem_append.mpr (Or.inl hc), hfc.1⟩
    · have hin : cleanString v "Unknown Client" ∈
          (stageClients (clientDict s.clients) vals [] []).2 := by
        rw [hstage, List.mem_filter]
        refine ⟨List.mem_map.mpr ⟨v, hv, rfl⟩, ?_⟩
        simp only [Bool.not_eq_true'] at hmem ⊢
        simp [hmem]
      have hrow : cleanString v "Unknown Client" ∈
          (newClientRows s.nextClientId (stageClients (clientDict s.clients) vals [] []).2).map
            (fun c => c.client_name) := by
        rw [newClientRows_names]
        exact hin
      rw [List.mem_map] at hrow
      obtain ⟨c, hc, hcn⟩ := hrow
      exact ⟨c, List.mem_append.mpr (Or.inr hc), hcn⟩

/-- When every incoming cleaned name is already present, the client resolver
returns the store unchanged. -/
theorem bulkCreateClients_noNew {s : Store} {vals : List Value}
    (h : ∀ v ∈ vals, dmem (clientDict s.clients) (cleanString v "Unknown Client") = true) :
    ∃ m, bulkCreateClients true s vals = .ok (m, s) := by
  refine ⟨(stageClients (clientDict s.clients) vals [] []).1, ?_⟩
  simp only [bulkCreateClients]
  have hst2 : (stageClients (clientDict s.clients) vals [] []).2 = [] := by
    rw [stageClients_eq, List.nil_append, List.filter_eq_nil_iff]
    intro a ha
    rw [List.mem_map] at ha
    obtain ⟨v, hv, rfl⟩ := ha
    simp [h v hv]
  rw [hst2]
  rfl

/-! ### Job resolver characterisation -/

theorem newJobRows_names :
    ∀ (news : List JobStage) (start : Nat),
      (newJobRows start news).map (fun j => j.job_name) = news.map (fun x => x.job_name) := by
  intro news
  induction news with
  | nil => intro start; rfl
  | cons x rest ih =>
    intro start
    simp only [newJobRows, List.map_cons]
    rw [ih]

/-- The staged accumulator of the job staging loop is append-only. -/
theorem stageJobs_acc (ex : Dict Nat) :
    ∀ (l : List (Value × Value × Value)) (m : Dict (Option Nat)) (news : List JobStage),
      (stageJobs ex l m news).2 = news ++ (stageJobs ex l m []).2 := by
  intro l
  induction l with
  | nil => intro m news; simp [stageJobs]
  | cons tr rest ih =>
    intro m news
    obtain ⟨vn, vl, vs⟩ := tr
    simp only [stageJobs]
    by_cases hm : dmem m
        (jobKey (cleanString vn "Unknown Job") (cleanString vl "") (cleanString vs "")) = true
    · rw [if_pos hm, if_pos hm]
      exact ih m news
    · rw [if_neg hm, if_neg hm]
      by_cases hex : dmem ex (cleanString vn "Unknown Job") = true
      · rw [if_pos hex, if_pos hex]
        exact ih _ news
      · rw [if_neg hex, if_neg hex]
        rw [ih _ (news ++ [_]), ih _ ([] ++ [_])]
        simp

/-- The second-run mirror: if every row staged by a first staging run over
snapshot `ex` has its name present in a larger snapshot `ex'`, then a run
over `ex'` (from a map with the same key set) stages nothing. -/
theorem stageJobs_mirror (ex exb : Dict Nat) :
    ∀ (l : List (Value × Value × Value)) (m mb : Dict (Option Nat)) (news : List JobStage),
      (∀ k, dmem m k = dmem mb k) →
      (∀ x ∈ (stageJobs ex l m []).2, dmem exb x.job_name = true) →
      (∀ n, dmem ex n = true → dmem exb n = true) →
      (stageJobs exb l mb news).2 = news := by
  intro l
  induction l with
  | nil => intro m mb news _ _ _; rfl
  | cons tr rest ih =>
    intro m mb news hkeys hstaged hsub
    obtain ⟨vn, vl, vs⟩ := tr
    simp only [stageJobs] at hstaged ⊢
    by_cases hm : dmem m
        (jobKey (cleanString vn "Unknown Job") (cleanString vl "") (cleanString vs "")) = true
    · rw [← hkeys, if_pos hm]
      rw [if_pos hm] at hstaged
      exact ih m mb news hkeys hstaged hsub
    · rw [← hkeys, if_neg hm]
      rw [if_neg hm] at hstaged
      by_cases hex : dmem ex (cleanString vn "Unknown Job") = true
      · rw [if_pos hex] at hstaged
        rw [if_pos (hsub _ hex)]
        refine ih _ _ news ?_ hstaged hsub
        intro k
        rw [dmem_dset, dmem_dset, hkeys]
      · rw [if_neg hex] at hstaged
        have hx0 : dmem exb (cleanString vn "Unknown Job") = true := by
          refine hstaged ⟨cleanString vn "Unknown Job", cleanString vl "", cleanString vs ""⟩ ?_
          rw [stageJobs_acc]
          exact List.mem_append.mpr (Or.inl (by simp))
        rw [if_pos hx0]
        refine ih
          (dset m (jobKey (cleanString vn "Unknown Job") (cleanString vl "") (cleanString vs ""))
            (dget ex (cleanString vn "Unknown Job")))
          (dset mb (jobKey (cleanString vn "Unknown Job") (cleanString vl "") (cleanString vs ""))
            (dget exb (cleanString vn "Unknown Job")))
          news ?_ ?_ hsub
        · intro k
          rw [dmem_dset, dmem_dset, hkeys]
        · intro x hx
          refine hstaged x ?_
          rw [stageJobs_acc]
          exact List.mem_append.mpr (Or.inr hx)

/-- Characterisation of a successful job resolution: the job table only
grows, no other table is touched, and every staged row's name is present in
the final table. -/
theorem bulkCreateJobs_spec {s : Store} {triples : List (Value × Value × Value)}
    {m : Dict (Option Nat)} {s' : Store}
    (h : bulkCreateJobs true s triples = .ok (m, s')) :
    (∃ tail, s'.jobs = s.jobs ++ tail) ∧
    s'.employees = s.employees ∧ s'.clients = s.clients ∧ s'.shifts = s.shifts ∧
    s'.dates = s.dates ∧ s'.facts = s.facts ∧
    (∀ x ∈ (stageJobs (jobDict s.jobs) triples [] []).2,
      ∃ j ∈ s'.jobs, j.job_name = x.job_name) := by
  simp only [bulkCreateJobs, if_true] at h
  split at h
  · rename_i hempty
    injection h with h
    rw [Prod.mk.injEq] at h
    obtain ⟨rfl, rfl⟩ := h
    have hst2 : (stageJobs (jobDict s.jobs) triples [] []).2 = [] :=
      List.isEmpty_iff.mp hempty
    refine ⟨⟨[], (List.append_nil _).symm⟩, rfl, rfl, rfl, rfl, rfl, ?_⟩
    intro x hx
    rw [hst2] at hx
    cases hx
  · injection h with h
    rw [Prod.mk.injEq] at h
    obtain ⟨rfl, rfl⟩ := h
    refine ⟨⟨_, rfl⟩, rfl, rfl, rfl, rfl, rfl, ?_⟩
    intro x hx
    have hrow : x.job_name ∈
        (newJobRows s.nextJobId (stageJobs (jobDict s.jobs) triples [] []).2).map
          (fun j => j.job_name) := by
      rw [newJobRows_names]
      exact List.mem_map.mpr ⟨x, hx, rfl⟩
    rw [List.mem_map] at hrow
    obtain ⟨j, hj, hjn⟩ := hrow
    exact ⟨j, List.mem_append.mpr (Or.inr hj), hjn⟩

/-- When the staging run is empty, the job resolver returns the store
unchanged. -/
theorem bulkCreateJobs_noNew {s : Store} {triples : List (Value × Value × Value)}
    (h : (stageJobs (jobDict s.jobs) triples [] []).2 = []) :
    ∃ m, bulkCreateJobs true s triples = .ok (m, s) := by
  refine ⟨(stageJobs (jobDict s.jobs) triples [] []).1, ?_⟩
  simp only [bulkCreateJobs]
  rw [h]
  rfl

/-! ### Shift resolver characterisation -/

theorem stageShifts_dmem_mono (ex : Dict Nat) :
    ∀ (triples : List (Value × Value × Value)) (m : Dict (Option Nat)) (news : List ShiftStage)
      (k : String), dmem m k = true → dmem (stageShifts ex triples m news).1 k = true := by
  intro triples
  induction triples with
  | nil => intro m news k h; exact h
  | cons tr rest ih =>
    intro m news k h
    obtain ⟨vn, vs, ve⟩ := tr
    simp only [stageShifts]
    by_cases hm : dmem m
        (shiftKey (cleanString vn "Unknown Shift") (cleanTime vs) (cleanTime ve)) = true
    · rw [if_pos hm]
      exact ih m news k h
    · rw [if_neg hm]
      cases hg : dget ex (shiftKey (cleanString vn "Unknown Shift") (cleanTime vs) (cleanTime ve)) with
      | some i => exact ih _ news k (dmem_dset_of _ _ h)
      | none => exact ih _ _ k (dmem_dset_of _ _ h)

/-- The preserved invariants of the shift staging loop, plus key coverage. -/
theorem stageShifts_master (ex : Dict Nat) :
    ∀ (triples : List (Value × Value × Value)) (m : Dict (Option Nat)) (news : List ShiftStage),
      (∀ k v, dget m k = some v → v = dget ex k) →
      (∀ k, dmem m k = true → dmem ex k = true ∨
        k ∈ news.map (fun st => shiftKey st.shift_name st.shift_start st.shift_end)) →
      (∀ x ∈ news, dget ex (shiftKey x.shift_name x.shift_start x.shift_end) = Option.none) →
      (∀ k v, dget (stageShifts ex triples m news).1 k = some v → v = dget ex k) ∧
      (∀ k, dmem (stageShifts ex triples m news).1 k = true → dmem ex k = true ∨
        k ∈ (stageShifts ex triples m news).2.map
          (fun st => shiftKey st.shift_name st.shift_start st.shift_end)) ∧
      (∀ x ∈ (stageShifts ex triples m news).2,
        dget ex (shiftKey x.shift_name x.shift_start x.shift_end) = Option.none) ∧
      (∀ t ∈ triples, dmem (stageShifts ex triples m news).1
          (shiftKey (cleanString t.1 "Unknown Shift") (cleanTime t.2.1) (cleanTime t.2.2)) = true) := by
  intro triples
  induction triples with
  | nil =>
    intro m news h1 h2 h3
    exact ⟨h1, h2, h3, fun t ht => absurd ht (List.not_mem_nil t)⟩
  | cons tr rest ih =>
    intro m news h1 h2 h3
    obtain ⟨vn, vs, ve⟩ := tr
    simp only [stageShifts]
    by_cases hm : dmem m
        (shiftKey (cleanString vn "Unknown Shift") (cleanTime vs) (cleanTime ve)) = true
    · rw [if_pos hm]
      obtain ⟨g1, g2, g3, g4⟩ := ih m news h1 h2 h3
      refine ⟨g1, g2, g3, ?_⟩
      intro t ht
      rcases List.mem_cons.mp ht with rfl | ht'
      · exact stageShifts_dmem_mono ex rest m news _ hm
      · exact g4 t ht'
    · rw [if_neg hm]
      cases hg : dget ex (shiftKey (cleanString vn "Unknown Shift") (cleanTime vs) (cleanTime ve)) with
      | some i =>
        have h1' : ∀ k v,
            dget (dset m (shiftKey (cleanString vn "Unknown Shift") (cleanTime vs) (cleanTime ve))
              (some i)) k = some v → v = dget ex k := by
          intro k v hk
          by_cases hkn : k = shiftKey (cleanString vn "Unknown Shift") (cleanTime vs) (cleanTime ve)
          · subst hkn
            rw [dget_dset_self] at hk
            injection hk with hk
            rw [← hk, hg]
          · rw [dget_dset_ne _ _ hkn] at hk
            exact h1 k v hk
        have h2' : ∀ k,
            dmem (dset m (shiftKey (cleanString vn "Unknown Shift") (cleanTime vs) (cleanTime ve))
              (some i)) k = true → dmem ex k = true ∨
              k ∈ news.map (fun st => shiftKey st.shift_name st.shift_start st.shift_end) := by
          intro k hk
          rw [dmem_dset] at hk
          rcases Bool.or_eq_true_iff.mp hk with hk' | hk'
          · exact h2 k hk'
          · have : shiftKey (cleanString vn "Unknown Shift") (cleanTime vs) (cleanTime ve) = k := by
              simpa using hk'
            subst this
            exact Or.inl (dmem_of_dget_some hg)
        obtain ⟨g1, g2, g3, g4⟩ := ih _ news h1' h2' h3
        refine ⟨g1, g2, g3, ?_⟩
        intro t ht
        rcases List.mem_cons.mp ht with rfl | ht'
        · exact stageShifts_dmem_mono ex rest _ news _ (dmem_dset_self' m _ _)
        · exact g4 t ht'
      | none =>
        have h1' : ∀ k v,
            dget (dset m (shiftKey (cleanString vn "Unknown Shift") (cleanTime vs) (cleanTime ve))
              Option.none) k = some v → v = dget ex k := by
          intro k v hk
          by_cases hkn : k = shiftKey (cleanString vn "Unknown Shift") (cleanTime vs) (cleanTime ve)
          · subst hkn
            rw [dget_dset_self] at hk
            injection hk with hk
            rw [← hk, hg]
          · rw [dget_dset_ne _ _ hkn] at hk
            exact h1 k v hk
        have h2' : ∀ k,
            dmem (dset m (shiftKey (cleanString vn "Unknown Shift") (cleanTime vs) (cleanTime ve))
              Option.none) k = true → dmem ex k = true ∨
              k ∈ (news ++ [(⟨cleanString vn "Unknown Shift", cleanTime vs, cleanTime ve⟩ :
                  ShiftStage)]).map
                (fun st => shiftKey st.shift_name st.shift_start st.shift_end) := by
          intro k hk
          rw [dmem_dset] at hk
          rcases Bool.or_eq_true_iff.mp hk with hk' | hk'
          · rcases h2 k hk' with h' | h'
            · exact Or.inl h'
            · refine Or.inr ?_
              rw [List.map_append]
              exact List.mem_append.mpr (Or.inl h')
          · have : shiftKey (cleanString vn "Unknown Shift") (cleanTime vs) (cleanTime ve) = k := by
              simpa using hk'
            subst this
            refine Or.inr ?_
            rw [List.map_append]
            exact List.mem_append.mpr (Or.inr (by simp))
        have h3' : ∀ x ∈ news ++ [(⟨cleanString vn "Unknown Shift", cleanTime vs, cleanTime ve⟩ :
            ShiftStage)], dget ex (shiftKey x.shift_name x.shift_start x.shift_end) =
              Option.none := by
          intro x hx
          rcases List.mem_append.mp hx with hx' | hx'
          · exact h3 x hx'
          · rw [List.mem_singleton] at hx'
            subst hx'
            exact hg
        obtain ⟨g1, g2, g3, g4⟩ := ih _ _ h1' h2' h3'
        refine ⟨g1, g2, g3, ?_⟩
        intro t ht
        rcases List.mem_cons.mp ht with rfl | ht'
        · exact stageShifts_dmem_mono ex rest _ _ _ (dmem_dset_self' m _ _)
        · exact g4 t ht'

/-- When every incoming cleaned composite key is already in the snapshot,
nothing is staged. -/
theorem stageShifts_noNew (ex : Dict Nat) :
    ∀ (triples : List (Value × Value × Value)) (m : Dict (Option Nat)) (news : List ShiftStage),
      (∀ t ∈ triples, dmem ex
        (shiftKey (cleanString t.1 "Unknown Shift") (cleanTime t.2.1) (cleanTime t.2.2)) = true) →
      (stageShifts ex triples m news).2 = news := by
  intro triples
  induction triples with
  | nil => intro m news _; rfl
  | cons tr rest ih =>
    intro m news h
    obtain ⟨vn, vs, ve⟩ := tr
    simp only [stageShifts]
    by_cases hm : dmem m
        (shiftKey (cleanString vn "Unknown Shift") (cleanTime vs) (cleanTime ve)) = true
    · rw [if_pos hm]
      exact ih m news (fun t ht => h t (List.mem_cons_of_mem _ ht))
    · rw [if_neg hm]
      have hex := h (vn, vs, ve) (List.mem_cons_self _ _)
      rw [dmem_iff_dget] at hex
      cases hg : dget ex (shiftKey (cleanString vn "Unknown Shift") (cleanTime vs) (cleanTime ve)) with
      | some i => exact ih _ news (fun t ht => h t (List.mem_cons_of_mem _ ht))
      | none =>
        rw [hg] at hex
        cases hex

/-- The inserted shift rows carry exactly the staged composite keys. -/
theorem newShiftRows_names :
    ∀ (news : List ShiftStage) (start : Nat),
      (newShiftRows start news).map (fun r => shiftKey r.shift_name r.shift_start r.shift_end) =
        news.map (fun st => shiftKey st.shift_name st.shift_start st.shift_end) := by
  intro news
  induction news with
  | nil => intro start; rfl
  | cons st rest ih =>
    intro start
    simp only [newShiftRows, List.map_cons]
    rw [ih]

/-- Each staged shift has an inserted row with exactly its components. -/
theorem newShiftRows_mem :
    ∀ (news : List ShiftStage) (start : Nat) (st : ShiftStage), st ∈ news →
      ∃ r ∈ newShiftRows start news, r.shift_name = st.shift_name ∧
        r.shift_start = st.shift_start ∧ r.shift_end = st.shift_end := by
  intro news
  induction news with
  | nil => intro start st hst; cases hst
  | cons x rest ih =>
    intro start st hst
    rcases List.mem_cons.mp hst with rfl | hst'
    · exact ⟨⟨start, st.shift_name, st.shift_start, st.shift_end⟩,
        List.mem_cons_self _ _, rfl, rfl, rfl⟩
    · obtain ⟨r, hr, hcomp⟩ := ih (start + 1) st hst'
      exact ⟨r, List.mem_cons_of_mem _ hr, hcomp⟩

/-- The re-query pass leaves keys it does not stage untouched. -/
theorem requeryShifts_preserve (s : Store) :
    ∀ (news : List ShiftStage) (m : Dict (Option Nat)) (k : String),
      k ∉ news.map (fun st => shiftKey st.shift_name st.shift_start st.shift_end) →
      dget (requeryShifts s news m) k = dget m k := by
  intro news
  induction news with
  | nil => intro m k _; rfl
  | cons st rest ih =>
    intro m k hk
    have hk1 : k ≠ shiftKey st.shift_name st.shift_start st.shift_end := by
      intro hc
      exact hk (List.mem_map.mpr ⟨st, List.mem_cons_self _ _, hc.symm⟩)
    have hk2 : k ∉ rest.map (fun st => shiftKey st.shift_name st.shift_start st.shift_end) := by
      intro hc
      rw [List.mem_map] at hc
      obtain ⟨x, hx, hxk⟩ := hc
      exact hk (List.mem_map.mpr ⟨x, List.mem_cons_of_mem _ hx, hxk⟩)
    simp only [requeryShifts]
    cases hf : s.shifts.find? (fun r =>
        r.shift_name == st.shift_name && r.shift_start == st.shift_start &&
        r.shift_end == st.shift_end) with
    | some r =>
      rw [ih _ k hk2, dget_dset_ne _ _ hk1]
    | none =>
      exact ih m k hk2

/-- When each staged shift has a matching row in the store and the staged
keys are distinct, the re-query points each staged key at a store row whose
composite key equals it. -/
theorem requeryShifts_val (s : Store) :
    ∀ (news : List ShiftStage) (m : Dict (Option Nat)),
      ((news.map (fun st => shiftKey st.shift_name st.shift_start st.shift_end)).Nodup) →
      (∀ st ∈ news, ∃ r ∈ s.shifts, r.shift_name = st.shift_name ∧
        r.shift_start = st.shift_start ∧ r.shift_end = st.shift_end) →
      ∀ st ∈ news, ∃ r ∈ s.shifts,
        shiftKey r.shift_name r.shift_start r.shift_end =
          shiftKey st.shift_name st.shift_start st.shift_end ∧
        dget (requeryShifts s news m) (shiftKey st.shift_name st.shift_start st.shift_end) =
          some (some r.shift_id) := by
  intro news
  induction news with
  | nil => intro m _ _ st hst; cases hst
  | cons st0 rest ih =>
    intro m hnd hall st hst
    have hex0 := hall st0 (List.mem_cons_self _ _)
    simp only [requeryShifts]
    cases hf : s.shifts.find? (fun r =>
        r.shift_name == st0.shift_name && r.shift_start == st0.shift_start &&
        r.shift_end == st0.shift_end) with
    | none =>
      exfalso
      obtain ⟨r, hr, h1, h2, h3⟩ := hex0
      rw [List.find?_eq_none] at hf
      have := hf r hr
      simp only [Bool.and_eq_true, beq_iff_eq] at this
      exact this ⟨⟨h1, h2⟩, h3⟩
    | some r =>
      have hrmem := List.mem_of_find?_eq_some hf
      have hrpred := List.find?_some hf
      simp only [Bool.and_eq_true, beq_iff_eq] at hrpred
      obtain ⟨⟨hr1, hr2⟩, hr3⟩ := hrpred
      rcases List.mem_cons.mp hst with rfl | hst'
      · refine ⟨r, hrmem, by rw [hr1, hr2, hr3], ?_⟩
        have hnomem : shiftKey st.shift_name st.shift_start st.shift_end ∉
            rest.map (fun x => shiftKey x.shift_name x.shift_start x.shift_end) := by
          rw [List.map_cons, List.nodup_cons] at hnd
          exact hnd.1
        rw [requeryShifts_preserve s rest _ _ hnomem, dget_dset_self]
      · refine ih _ ?_ (fun x hx => hall x (List.mem_cons_of_mem _ hx)) st hst'
        rw [List.map_cons, List.nodup_cons] at hnd
        exact hnd.2

/-- Full characterisation of a successful shift resolution. -/
theorem bulkCreateShifts_spec {s : Store} {triples : List (Value × Value × Value)}
    {m : Dict (Option Nat)} {s' : Store}
    (hnd : (s.shifts.map (fun r => shiftKey r.shift_name r.shift_start r.shift_end)).Nodup)
    (h : bulkCreateShifts true s triples = .ok (m, s')) :
    (∃ tail, s'.shifts = s.shifts ++ tail) ∧
    s'.employees = s.employees ∧ s'.clients = s.clients ∧ s'.jobs = s.jobs ∧
    s'.dates = s.dates ∧ s'.facts = s.facts ∧
    (s'.shifts.map (fun r => shiftKey r.shift_name r.shift_start r.shift_end)).Nodup ∧
    (∀ t ∈ triples, ∃ r ∈ s'.shifts,
      shiftKey r.shift_name r.shift_start r.shift_end =
        shiftKey (cleanString t.1 "Unknown Shift") (cleanTime t.2.1) (cleanTime t.2.2) ∧
      mget m (shiftKey (cleanString t.1 "Unknown Shift") (cleanTime t.2.1) (cleanTime t.2.2)) =
        some r.shift_id) := by
  obtain ⟨g1, g2, g3, g4⟩ :=
    stageShifts_master (shiftDict s.shifts) triples [] []
      (by intro k v hk; rw [dget_nil] at hk; cases hk)
      (by intro k hk; simp [dmem] at hk)
      (by intro x hx; cases hx)
  have gnodup :=
    stageShifts_nodup (shiftDict s.shifts) triples [] [] (by simp)
      (fun x hx => absurd hx (List.not_mem_nil x))
  simp only [bulkCreateShifts, if_true] at h
  split at h
  · rename_i hempty
    injection h with h
    rw [Prod.mk.injEq] at h
    obtain ⟨rfl, rfl⟩ := h
    have hst2 : (stageShifts (shiftDict s.shifts) triples [] []).2 = [] :=
      List.isEmpty_iff.mp hempty
    refine ⟨⟨[], (List.append_nil _).symm⟩, rfl, rfl, rfl, rfl, rfl, hnd, ?_⟩
    intro t ht
    have hmem := g4 t ht
    rw [dmem_iff_dget] at hmem
    rcases hv : dget (stageShifts (shiftDict s.shifts) triples [] []).1
        (shiftKey (cleanString t.1 "Unknown Shift") (cleanTime t.2.1) (cleanTime t.2.2))
      with _ | v
    · rw [hv] at hmem; cases hmem
    · have hval := g1 _ _ hv
      rcases g2 _ (g4 t ht) with hex | hnew
      · rw [dmem_iff_dget] at hex
        rcases hg : dget (shiftDict s.shifts)
            (shiftKey (cleanString t.1 "Unknown Shift") (cleanTime t.2.1) (cleanTime t.2.2))
          with _ | i
        · rw [hg] at hex; cases hex
        · obtain ⟨r, hr, hfr⟩ := dget_table hg
          rw [Prod.mk.injEq] at hfr
          refine ⟨r, hr, hfr.1, ?_⟩
          rw [mget, hv, hval, hg, hfr.2]
          rfl
      · rw [hst2] at hnew
        cases hnew
  · rename_i hempty
    injection h with h
    rw [Prod.mk.injEq] at h
    obtain ⟨rfl, rfl⟩ := h
    have hnames := newShiftRows_names (stageShifts (shiftDict s.shifts) triples [] []).2
      s.nextShiftId
    have hnodup' :
        ((s.shifts ++
          newShiftRows s.nextShiftId (stageShifts (shiftDict s.shifts) triples [] []).2).map
          (fun r => shiftKey r.shift_name r.shift_start r.shift_end)).Nodup := by
      rw [List.map_append, hnames]
      refine List.Nodup.append hnd gnodup ?_
      intro a ha hb
      rw [List.mem_map] at hb
      obtain ⟨x, hx, hxa⟩ := hb
      have hxnone := g3 x hx
      rw [List.mem_map] at ha
      obtain ⟨r, hr, hra⟩ := ha
      have hmem : dmem (shiftDict s.shifts) a = true :=
        (dmem_table_iff s.shifts _ a).mpr ⟨r, hr, hra⟩
      rw [dmem_iff_dget, ← hxa, hxnone] at hmem
      cases hmem
    refine ⟨⟨_, rfl⟩, rfl, rfl, rfl, rfl, rfl, hnodup', ?_⟩
    intro t ht
    have hmem := g4 t ht
    rw [dmem_iff_dget] at hmem
    rcases hv : dget (stageShifts (shiftDict s.shifts) triples [] []).1
        (shiftKey (cleanString t.1 "Unknown Shift") (cleanTime t.2.1) (cleanTime t.2.2))
      with _ | v
    · rw [hv] at hmem; cases hmem
    · have hval := g1 _ _ hv
      rcases g2 _ (g4 t ht) with hex | hnew
      · -- key already in the snapshot: the base entry survives the re-query
        rw [dmem_iff_dget] at hex
        rcases hg : dget (shiftDict s.shifts)
            (shiftKey (cleanString t.1 "Unknown Shift") (cleanTime t.2.1) (cleanTime t.2.2))
          with _ | i
        · rw [hg] at hex; cases hex
        · obtain ⟨r, hr, hfr⟩ := dget_table hg
          rw [Prod.mk.injEq] at hfr
          refine ⟨r, List.mem_append.mpr (Or.inl hr), hfr.1, ?_⟩
          have hnomem : shiftKey (cleanString t.1 "Unknown Shift") (cleanTime t.2.1)
              (cleanTime t.2.2) ∉
              (stageShifts (shiftDict s.shifts) triples [] []).2.map
                (fun st => shiftKey st.shift_name st.shift_start st.shift_end) := by
            intro hc
            rw [List.mem_map] at hc
            obtain ⟨x, hx, hxa⟩ := hc
            have := g3 x hx
            rw [hxa, hg] at this
            cases this
          rw [mget, requeryShifts_preserve _ _ _ _ hnomem, hv, hval, hg, hfr.2]
          rfl
      · -- key was staged: the re-query points it at the inserted row
        rw [List.mem_map] at hnew
        obtain ⟨x, hx, hxkey⟩ := hnew
        have hallrows : ∀ st ∈ (stageShifts (shiftDict s.shifts) triples [] []).2,
            ∃ r ∈ s.shifts ++
              newShiftRows s.nextShiftId (stageShifts (shiftDict s.shifts) triples [] []).2,
              r.shift_name = st.shift_name ∧ r.shift_start = st.shift_start ∧
              r.shift_end = st.shift_end := by
          intro st hstm
          obtain ⟨r, hr, hcomp⟩ := newShiftRows_mem _ s.nextShiftId st hstm
          exact ⟨r, List.mem_append.mpr (Or.inr hr), hcomp⟩
        obtain ⟨r, hr, hrkey, hrget⟩ := requeryShifts_val
          { s with
            shifts := s.shifts ++
              newShiftRows s.nextShiftId (stageShifts (shiftDict s.shifts) triples [] []).2
            nextShiftId :=
              s.nextShiftId + (stageShifts (shiftDict s.shifts) triples [] []).2.length }
          (stageShifts (shiftDict s.shifts) triples [] []).2
          (stageShifts (shiftDict s.shifts) triples [] []).1 gnodup hallrows x hx
        rw [← hxkey]
        refine ⟨r, hr, hrkey, ?_⟩
        rw [mget, hrget]
        rfl

/-- When every incoming cleaned composite key is already present, the shift
resolver returns the store unchanged. -/
theorem bulkCreateShifts_noNew {s : Store} {triples : List (Value × Value × Value)}
    (h : ∀ t ∈ triples, dmem (shiftDict s.shifts)
      (shiftKey (cleanString t.1 "Unknown Shift") (cleanTime t.2.1) (cleanTime t.2.2)) = true) :
    ∃ m, bulkCreateShifts true s triples = .ok (m, s) := by
  refine ⟨(stageShifts (shiftDict s.shifts) triples [] []).1, ?_⟩
  simp only [bulkCreateShifts]
  rw [stageShifts_noNew _ triples [] [] h]
  rfl

/-! ### Date resolver characterisation -/

theorem stageDates_dmem_mono (ex : Dict Nat) :
    ∀ (triples : List (Value × Value × Value)) (m : Dict Nat) (news : List DateRow)
      (k : String), dmem m k = true → dmem (stageDates ex triples m news).1 k = true := by
  intro triples
  induction triples with
  | nil => intro m news k h; exact h
  | cons tr rest ih =>
    intro m news k h
    obtain ⟨vd, vm, vday⟩ := tr
    simp only [stageDates]
    by_cases hm : dmem m (cleanDateWithId vd).1 = true
    · rw [if_pos hm]
      exact ih m news k h
    · rw [if_neg hm]
      cases hg : dget ex (cleanDateWithId vd).1 with
      | some i => exact ih _ news k (dmem_dset_of _ _ h)
      | none => exact ih _ _ k (dmem_dset_of _ _ h)

/-- The preserved invariants of the date staging loop: map entries are either
snapshot ids or self-computed surrogate ids of their own key, mapped keys are
snapshot keys or staged, staged rows are fresh and internally consistent with
the cleaner, and every incoming cleaned date string is mapped. -/
theorem stageDates_master (ex : Dict Nat) :
    ∀ (triples : List (Value × Value × Value)) (m : Dict Nat) (news : List DateRow),
      (∀ k v, dget m k = some v → dget ex k = some v ∨
        (dget ex k = Option.none ∧ cleanDateWithId (.str k) = (k, v))) →
      (∀ k, dmem m k = true → dmem ex k = true ∨ k ∈ news.map (fun dr => dr.date)) →
      (∀ x ∈ news, dget ex x.date = Option.none ∧
        cleanDateWithId (.str x.date) = (x.date, x.date_id)) →
      (∀ k v, dget (stageDates ex triples m news).1 k = some v → dget ex k = some v ∨
        (dget ex k = Option.none ∧ cleanDateWithId (.str k) = (k, v))) ∧
      (∀ k, dmem (stageDates ex triples m news).1 k = true → dmem ex k = true ∨
        k ∈ (stageDates ex triples m news).2.map (fun dr => dr.date)) ∧
      (∀ x ∈ (stageDates ex triples m news).2, dget ex x.date = Option.none ∧
        cleanDateWithId (.str x.date) = (x.date, x.date_id)) ∧
      (∀ t ∈ triples, dmem (stageDates ex triples m news).1 (cleanDateWithId t.1).1 = true) := by
  intro triples
  induction triples with
  | nil =>
    intro m news h1 h2 h3
    exact ⟨h1, h2, h3, fun t ht => absurd ht (List.not_mem_nil t)⟩
  | cons tr rest ih =>
    intro m news h1 h2 h3
    obtain ⟨vd, vm, vday⟩ := tr
    simp only [stageDates]
    by_cases hm : dmem m (cleanDateWithId vd).1 = true
    · rw [if_pos hm]
      obtain ⟨g1, g2, g3, g4⟩ := ih m news h1 h2 h3
      refine ⟨g1, g2, g3, ?_⟩
      intro t ht
      rcases List.mem_cons.mp ht with rfl | ht'
      · exact stageDates_dmem_mono ex rest m news _ hm
      · exact g4 t ht'
    · rw [if_neg hm]
      cases hg : dget ex (cleanDateWithId vd).1 with
      | some i =>
        have h1' : ∀ k v, dget (dset m (cleanDateWithId vd).1 i) k = some v →
            dget ex k = some v ∨
            (dget ex k = Option.none ∧ cleanDateWithId (.str k) = (k, v)) := by
          intro k v hk
          by_cases hkn : k = (cleanDateWithId vd).1
          · subst hkn
            rw [dget_dset_self] at hk
            injection hk with hk
            rw [← hk]
            exact Or.inl hg
          · rw [dget_dset_ne _ _ hkn] at hk
            exact h1 k v hk
        have h2' : ∀ k, dmem (dset m (cleanDateWithId vd).1 i) k = true →
            dmem ex k = true ∨ k ∈ news.map (fun dr => dr.date) := by
          intro k hk
          rw [dmem_dset] at hk
          rcases Bool.or_eq_true_iff.mp hk with hk' | hk'
          · exact h2 k hk'
          · have : (cleanDateWithId vd).1 = k := by simpa using hk'
            subst this
            exact Or.inl (dmem_of_dget_some hg)
        obtain ⟨g1, g2, g3, g4⟩ := ih _ news h1' h2' h3
        refine ⟨g1, g2, g3, ?_⟩
        intro t ht
        rcases List.mem_cons.mp ht with rfl | ht'
        · exact stageDates_dmem_mono ex rest _ news _ (dmem_dset_self' m _ _)
        · exact g4 t ht'
      | none =>
        have h1' : ∀ k v, dget (dset m (cleanDateWithId vd).1 (cleanDateWithId vd).2) k = some v →
            dget ex k = some v ∨
            (dget ex k = Option.none ∧ cleanDateWithId (.str k) = (k, v)) := by
          intro k v hk
          by_cases hkn : k = (cleanDateWithId vd).1
          · subst hkn
            rw [dget_dset_self] at hk
            injection hk with hk
            rw [← hk]
            exact Or.inr ⟨hg, clean_idem vd⟩
          · rw [dget_dset_ne _ _ hkn] at hk
            exact h1 k v hk
        have h2' : ∀ k, dmem (dset m (cleanDateWithId vd).1 (cleanDateWithId vd).2) k = true →
            dmem ex k = true ∨
            k ∈ (news ++ [(⟨(cleanDateWithId vd).2, (cleanDateWithId vd).1, cleanString vday "",
              cleanString vm "", (cleanDateWithId vd).2 / 10000⟩ : DateRow)]).map
              (fun dr => dr.date) := by
          intro k hk
          rw [dmem_dset] at hk
          rcases Bool.or_eq_true_iff.mp hk with hk' | hk'
          · rcases h2 k hk' with h' | h'
            · exact Or.inl h'
            · refine Or.inr ?_
              rw [List.map_append]
              exact List.mem_append.mpr (Or.inl h')
          · have : (cleanDateWithId vd).1 = k := by simpa using hk'
            subst this
            refine Or.inr ?_
            rw [List.map_append]
            exact List.mem_append.mpr (Or.inr (by simp))
        have h3' : ∀ x ∈ news ++ [(⟨(cleanDateWithId vd).2, (cleanDateWithId vd).1,
            cleanString vday "", cleanString vm "", (cleanDateWithId vd).2 / 10000⟩ : DateRow)],
            dget ex x.date = Option.none ∧
            cleanDateWithId (.str x.date) = (x.date, x.date_id) := by
          intro x hx
          rcases List.mem_append.mp hx with hx' | hx'
          · exact h3 x hx'
          · rw [List.mem_singleton] at hx'
            subst hx'
            exact ⟨hg, clean_idem vd⟩
        obtain ⟨g1, g2, g3, g4⟩ := ih _ _ h1' h2' h3'
        refine ⟨g1, g2, g3, ?_⟩
        intro t ht
        rcases List.mem_cons.mp ht with rfl | ht'
        · exact stageDates_dmem_mono ex rest _ _ _ (dmem_dset_self' m _ _)
        · exact g4 t ht'

/-- When every incoming cleaned date string is already in the snapshot,
nothing is staged. -/
theorem stageDates_noNew (ex : Dict Nat) :
    ∀ (triples : List (Value × Value × Value)) (m : Dict Nat) (news : List DateRow),
      (∀ t ∈ triples, dmem ex (cleanDateWithId t.1).1 = true) →
      (stageDates ex triples m news).2 = news := by
  intro triples
  induction triples with
  | nil => intro m news _; rfl
  | cons tr rest ih =>
    intro m news h
    obtain ⟨vd, vm, vday⟩ := tr
    simp only [stageDates]
    by_cases hm : dmem m (cleanDateWithId vd).1 = true
    · rw [if_pos hm]
      exact ih m news (fun t ht => h t (List.mem_cons_of_mem _ ht))
    · rw [if_neg hm]
      have hex := h (vd, vm, vday) (List.mem_cons_self _ _)
      rw [dmem_iff_dget] at hex
      cases hg : dget ex (cleanDateWithId vd).1 with
      | some i => exact ih _ news (fun t ht => h t (List.mem_cons_of_mem _ ht))
      | none =>
        rw [hg] at hex
        cases hex

/-- The date re-query pass leaves other keys untouched. -/
theorem requeryDates_preserve (s : Store) :
    ∀ (news : List DateRow) (m : Dict Nat) (k : String),
      k ∉ news.map (fun dr => dr.date) →
      dget (requeryDates s news m) k = dget m k := by
  intro news
  induction news with
  | nil => intro m k _; rfl
  | cons dr rest ih =>
    intro m k hk
    have hk1 : k ≠ dr.date := by
      intro hc
      exact hk (List.mem_map.mpr ⟨dr, List.mem_cons_self _ _, hc.symm⟩)
    have hk2 : k ∉ rest.map (fun dr => dr.date) := by
      intro hc
      rw [List.mem_map] at hc
      obtain ⟨x, hx, hxk⟩ := hc
      exact hk (List.mem_map.mpr ⟨x, List.mem_cons_of_mem _ hx, hxk⟩)
    simp only [requeryDates]
    cases hf : s.dates.find? (fun r => r.date == dr.date) with
    | some r =>
      rw [ih _ k hk2, dget_dset_ne _ _ hk1]
    | none =>
      exact ih m k hk2

/-- When the store's date strings are unique and each staged row is itself in
the store, the re-query maps each staged date to that row's id. -/
theorem requeryDates_val (s : Store)
    (hnd : (s.dates.map (fun r => r.date)).Nodup) :
    ∀ (news : List DateRow) (m : Dict Nat),
      ((news.map (fun dr => dr.date)).Nodup) →
      (∀ x ∈ news, x ∈ s.dates) →
      ∀ x ∈ news, dget (requeryDates s news m) x.date = some x.date_id := by
  intro news
  induction news with
  | nil => intro m _ _ x hx; cases hx
  | cons dr rest ih =>
    intro m hndn hall x hx
    have hmem0 : dr ∈ s.dates := hall dr (List.mem_cons_self _ _)
    have hfind : s.dates.find? (fun r => r.date == dr.date) = some dr := by
      refine find?_eq_of_unique hmem0 (by simp) ?_
      intro y hy hpy
      simp only [beq_iff_eq] at hpy
      exact List.inj_on_of_nodup_map hnd hy hmem0 hpy
    simp only [requeryDates, hfind]
    rcases List.mem_cons.mp hx with rfl | hx'
    · have hnomem : x.date ∉ rest.map (fun dr => dr.date) := by
        rw [List.map_cons, List.nodup_cons] at hndn
        exact hndn.1
      rw [requeryDates_preserve s rest _ _ hnomem, dget_dset_self]
    · refine ih _ ?_ (fun y hy => hall y (List.mem_cons_of_mem _ hy)) x hx'
      rw [List.map_cons, List.nodup_cons] at hndn
      exact hndn.2

/-- Full characterisation of a successful date resolution: the date table
only grows, stays key-unique and cleaner-consistent, no other table is
touched, and every incoming date value resolves through the returned map to
its own cleaned (string, id) pair, backed by a row of the final table. -/
theorem bulkCreateDates_spec {s : Store} {triples : List (Value × Value × Value)}
    {m : Dict Nat} {s' : Store}
    (hnd : (s.dates.map (fun r => r.date)).Nodup)
    (hwf : ∀ dr ∈ s.dates, cleanDateWithId (.str dr.date) = (dr.date, dr.date_id))
    (h : bulkCreateDates true s triples = .ok (m, s')) :
    (∃ tail, s'.dates = s.dates ++ tail) ∧
    s'.employees = s.employees ∧ s'.clients = s.clients ∧ s'.jobs = s.jobs ∧
    s'.shifts = s.shifts ∧ s'.facts = s.facts ∧
    (s'.dates.map (fun r => r.date)).Nodup ∧
    (∀ dr ∈ s'.dates, cleanDateWithId (.str dr.date) = (dr.date, dr.date_id)) ∧
    (∀ t ∈ triples, (∃ dr ∈ s'.dates, dr.date = (cleanDateWithId t.1).1 ∧
      dr.date_id = (cleanDateWithId t.1).2) ∧
      dget m (cleanDateWithId t.1).1 = some (cleanDateWithId t.1).2) := by
  obtain ⟨g1, g2, g3, g4⟩ :=
    stageDates_master (dateDict s.dates) triples [] []
      (by intro k v hk; rw [dget_nil] at hk; cases hk)
      (by intro k hk; simp [dmem] at hk)
      (by intro x hx; cases hx)
  have gnodup :=
    stageDates_nodup (dateDict s.dates) triples [] [] (by simp)
      (fun x hx => absurd hx (List.not_mem_nil x))
  simp only [bulkCreateDates, if_true] at h
  split at h
  · rename_i hempty
    injection h with h
    rw [Prod.mk.injEq] at h
    obtain ⟨rfl, rfl⟩ := h
    have hst2 : (stageDates (dateDict s.dates) triples [] []).2 = [] :=
      List.isEmpty_iff.mp hempty
    refine ⟨⟨[], (List.append_nil _).symm⟩, rfl, rfl, rfl, rfl, rfl, hnd, hwf, ?_⟩
    intro t ht
    have hmem := g4 t ht
    rw [dmem_iff_dget] at hmem
    rcases hv : dget (stageDates (dateDict s.dates) triples [] []).1 (cleanDateWithId t.1).1
      with _ | v
    · rw [hv] at hmem; cases hmem
    · rcases g1 _ _ hv with hex | ⟨hexn, hcons⟩
      · obtain ⟨dr, hdr, hfdr⟩ := dget_table hex
        rw [Prod.mk.injEq] at hfdr
        have hkeyclean : cleanDateWithId (.str (cleanDateWithId t.1).1) =
            ((cleanDateWithId t.1).1, v) := by
          have := hwf dr hdr
          rw [hfdr.1, hfdr.2] at this
          exact this
        rw [clean_idem t.1] at hkeyclean
        have hv2 : v = (cleanDateWithId t.1).2 := by
          have := congrArg Prod.snd hkeyclean
          simpa using this.symm
        refine ⟨⟨dr, hdr, hfdr.1, by rw [hfdr.2, hv2]⟩, ?_⟩
        rw [hv2]
      · exfalso
        rcases g2 _ (g4 t ht) with hex2 | hnew
        · rw [dmem_iff_dget, hexn] at hex2
          cases hex2
        · rw [hst2] at hnew
          cases hnew
  · rename_i hempty
    injection h with h
    rw [Prod.mk.injEq] at h
    obtain ⟨rfl, rfl⟩ := h
    have hnodup' :
        ((s.dates ++ (stageDates (dateDict s.dates) triples [] []).2).map
          (fun r => r.date)).Nodup := by
      rw [List.map_append]
      refine List.Nodup.append hnd gnodup ?_
      intro a ha hb
      rw [List.mem_map] at hb
      obtain ⟨x, hx, hxa⟩ := hb
      have hxnone := (g3 x hx).1
      rw [List.mem_map] at ha
      obtain ⟨dr, hdr, hda⟩ := ha
      have hmem : dmem (dateDict s.dates) a = true :=
        (dmem_table_iff s.dates _ a).mpr ⟨dr, hdr, hda⟩
      rw [dmem_iff_dget, ← hxa, hxnone] at hmem
      cases hmem
    have hwf' : ∀ dr ∈ s.dates ++ (stageDates (dateDict s.dates) triples [] []).2,
        cleanDateWithId (.str dr.date) = (dr.date, dr.date_id) := by
      intro dr hdr
      rcases List.mem_append.mp hdr with h' | h'
      · exact hwf dr h'
      · exact (g3 dr h').2
    refine ⟨⟨_, rfl⟩, rfl, rfl, rfl, rfl, rfl, hnodup', hwf', ?_⟩
    intro t ht
    have hmem := g4 t ht
    rw [dmem_iff_dget] at hmem
    rcases hv : dget (stageDates (dateDict s.dates) triples [] []).1 (cleanDateWithId t.1).1
      with _ | v
    · rw [hv] at hmem; cases hmem
    · rcases g1 _ _ hv with hex | ⟨hexn, hcons⟩
      · -- existing key: untouched by the re-query
        obtain ⟨dr, hdr, hfdr⟩ := dget_table hex
        rw [Prod.mk.injEq] at hfdr
        have hkeyclean : cleanDateWithId (.str (cleanDateWithId t.1).1) =
            ((cleanDateWithId t.1).1, v) := by
          have := hwf dr hdr
          rw [hfdr.1, hfdr.2] at this
          exact this
        rw [clean_idem t.1] at hkeyclean
        have hv2 : v = (cleanDateWithId t.1).2 := by
          have := congrArg Prod.snd hkeyclean
          simpa using this.symm
        have hnomem : (cleanDateWithId t.1).1 ∉
            (stageDates (dateDict s.dates) triples [] []).2.map (fun dr => dr.date) := by
          intro hc
          rw [List.mem_map] at hc
          obtain ⟨x, hx, hxa⟩ := hc
          have := (g3 x hx).1
          rw [hxa, hex] at this
          cases this
        refine ⟨⟨dr, List.mem_append.mpr (Or.inl hdr), hfdr.1, by rw [hfdr.2, hv2]⟩, ?_⟩
        rw [requeryDates_preserve _ _ _ _ hnomem, hv, hv2]
      · -- staged key: the re-query finds the inserted row
        have hstagedmem : (cleanDateWithId t.1).1 ∈
            (stageDates (dateDict s.dates) triples [] []).2.map (fun dr => dr.date) := by
          rcases g2 _ (g4 t ht) with hex2 | hnew
          · rw [dmem_iff_dget, hexn] at hex2
            cases hex2
          · exact hnew
        rw [List.mem_map] at hstagedmem
        obtain ⟨x, hx, hxdate⟩ := hstagedmem
        have hxclean := (g3 x hx).2
        rw [hxdate, clean_idem t.1] at hxclean
        have hxid : x.date_id = (cleanDateWithId t.1).2 := by
          have := congrArg Prod.snd hxclean
          simpa using this.symm
        have hget := requeryDates_val
          { s with dates := s.dates ++ (stageDates (dateDict s.dates) triples [] []).2 }
          hnodup' (stageDates (dateDict s.dates) triples [] []).2
          (stageDates (dateDict s.dates) triples [] []).1 gnodup
          (fun y hy => List.mem_append.mpr (Or.inr hy)) x hx
        rw [hxdate, hxid] at hget
        refine ⟨⟨x, List.mem_append.mpr (Or.inr hx), hxdate, hxid⟩, hget⟩

/-- When every incoming cleaned date string is already present, the date
resolver returns the store unchanged. -/
theorem bulkCreateDates_noNew {s : Store} {triples : List (Value × Value × Value)}
    (h : ∀ t ∈ triples, dmem (dateDict s.dates) (cleanDateWithId t.1).1 = true) :
    ∃ m, bulkCreateDates true s triples = .ok (m, s) := by
  refine ⟨(stageDates (dateDict s.dates) triples [] []).1, ?_⟩
  simp only [bulkCreateDates]
  rw [stageDates_noNew _ triples [] [] h]
  rfl

/-! ### Glue for the fact stage -/

theorem rowKeyOf_mk {em sm : Dict (Option Nat)} {dm : Dict Nat} {r : Row} {e d sh : Nat}
    (h1 : mget em (empName r) = some e) (h2 : dget dm (rowDateStr r) = some d)
    (h3 : mget sm (rowShiftKey r) = some sh) :
    rowKeyOf em sm dm r = some (e, d, sh) := by
  unfold rowKeyOf
  rw [h1, h2, h3]

theorem mem_fileDateIds {df : List (Nat × Row)} {p : Nat × Row} (hp : p ∈ df) :
    (cleanDateWithId p.2.date).2 ∈ fileDateIds df := by
  unfold fileDateIds
  exact List.mem_map.mpr
    ⟨p.2.date, (mem_dedupFirst _ _).mpr (List.mem_map.mpr ⟨p, hp, rfl⟩), rfl⟩

theorem fileDateIds_isEmpty_false {df : List (Nat × Row)} (h : df ≠ []) :
    (fileDateIds df).isEmpty = false :=
  Bool.eq_false_iff.mpr (fun hc => fileDateIds_ne_nil h (List.isEmpty_iff.mp hc))

theorem mem_existingFactKeys {s : Store} {df : List (Nat × Row)} {f : FactRow}
    (hne : (fileDateIds df).isEmpty = false)
    (hf : f ∈ s.facts)
    (hlo : minList (fileDateIds df) ≤ f.date_id)
    (hhi : f.date_id ≤ maxList (fileDateIds df)) :
    factKeyOf f ∈ existingFactKeys s df := by
  simp only [existingFactKeys, hne, Bool.false_eq_true, if_false]
  exact List.mem_map.mpr ⟨f, List.mem_filter.mpr ⟨hf, by simp [hlo, hhi]⟩, rfl⟩

theorem existingFactKeys_mem {s : Store} {df : List (Nat × Row)} {k : Key}
    (hk : k ∈ existingFactKeys s df) :
    ∃ f ∈ s.facts, minList (fileDateIds df) ≤ f.date_id ∧
      f.date_id ≤ maxList (fileDateIds df) ∧ factKeyOf f = k := by
  simp only [existingFactKeys] at hk
  split at hk
  · cases hk
  · rw [List.mem_map] at hk
    obtain ⟨f, hf, hfk⟩ := hk
    rw [List.mem_filter] at hf
    have hrange := hf.2
    simp only [Bool.and_eq_true, decide_eq_true_eq] at hrange
    exact ⟨f, hf.1, hrange.1, hrange.2, hfk⟩

/-- The well-formedness invariant the loader maintains on the store: employee
names, shift composite keys, and date strings are unique, and every date
row's surrogate id is the cleaner's id for its date string. -/
def StoreWF (s : Store) : Prop :=
  (s.employees.map (fun e => e.full_name)).Nodup ∧
  (s.shifts.map (fun r => shiftKey r.shift_name r.shift_start r.shift_end)).Nodup ∧
  (s.dates.map (fun r => r.date)).Nodup ∧
  ∀ dr ∈ s.dates, cleanDateWithId (.str dr.date) = (dr.date, dr.date_id)

/-- C3: for every configuration, well-formed initial store, and file whose
first load completed successfully under a failure-free storage layer,
loading the same file a second time completes with zero inserted fact rows,
every (filtered) row skipped with reason Duplicate of type pre_existing, and
the store — all five dimension tables and the fact table — exactly
unchanged. -/
theorem claim_C3_idempotent (cfg : Config) (s0 : Store) (rows : List Row) (o1 : LoadOutput)
    (hwf0 : StoreWF s0)
    (h1 : loadExcelData allOk cfg s0 rows = .complete o1) :
    ∃ o2 : LoadOutput,
      loadExcelData allOk cfg o1.store rows = .complete o2 ∧
      o2.inserted = 0 ∧
      o2.store = o1.store ∧
      o2.skipped = ((filterUnwantedData cfg rows.enum).1).map preRecOf ∧
      (∀ sk ∈ o2.skipped, sk.reason = "Duplicate" ∧ sk.duplicate_type = some "pre_existing") := by
  obtain ⟨hnd0e, hnd0s, hnd0d, hwf0d⟩ := hwf0
  simp only [loadExcelData, allOk] at h1
  set df := (filterUnwantedData cfg rows.enum).1 with hdfdef
  split at h1
  · exact LoadResult.noConfusion h1
  rename_i em1 sg1 hE1
  split at h1
  · exact LoadResult.noConfusion h1
  rename_i cm1 sg2 hC1
  split at h1
  · exact LoadResult.noConfusion h1
  rename_i jm1 sg3 hJ1
  split at h1
  · exact LoadResult.noConfusion h1
  rename_i sm1 sg4 hS1
  split at h1
  · exact LoadResult.noConfusion h1
  rename_i dm1 sg5 hD1
  split at h1
  · exact LoadResult.noConfusion h1
  rename_i n1 skips1 s6 hF1
  injection h1 with h1
  subst h1
  -- characterise the first load's resolver chain
  obtain ⟨⟨te, hA1⟩, hA2, hA3, hA4, hA5, hA6, hA7, hA8⟩ := bulkCreateEmployees_spec hnd0e hE1
  obtain ⟨⟨tc, hB1⟩, hB2, hB3, hB4, hB5, hB6, hB7⟩ := bulkCreateClients_spec hC1
  obtain ⟨⟨tj, hJ1j⟩, hJ2j, hJ3j, hJ4j, hJ5j, hJ6j, hJ7j⟩ := bulkCreateJobs_spec hJ1
  have hndg3s : (sg3.shifts.map (fun r => shiftKey r.shift_name r.shift_start r.shift_end)).Nodup := by
    rw [hJ4j, hB4, hA4]
    exact hnd0s
  obtain ⟨⟨tsh, hS1s⟩, hS2s, hS3s, hS4s, hS5s, hS6s, hS7s, hS8s⟩ := bulkCreateShifts_spec hndg3s hS1
  have hndg4d : (sg4.dates.map (fun r => r.date)).Nodup := by
    rw [hS5s, hJ5j, hB5, hA5]
    exact hnd0d
  have hwfg4d : ∀ dr ∈ sg4.dates, cleanDateWithId (.str dr.date) = (dr.date, dr.date_id) := by
    rw [hS5s, hJ5j, hB5, hA5]
    exact hwf0d
  obtain ⟨⟨tdt, hT1d⟩, hT2d, hT3d, hT4d, hT5d, hT6d, hT7d, hT8d, hT9d⟩ :=
    bulkCreateDates_spec hndg4d hwfg4d hD1
  -- characterise the fact stage
  rw [bulkCreateFacts_allOk] at hF1
  injection hF1 with hF1
  rw [Prod.mk.injEq, Prod.mk.injEq] at hF1
  obtain ⟨hn1, hskips1, hstore⟩ := hF1
  -- table bookkeeping from the chain
  have h1e : sg5.employees = sg1.employees := by rw [hT2d, hS2s, hJ2j, hB2]
  have h1c : sg5.clients = sg2.clients := by rw [hT3d, hS3s, hJ3j]
  have h1j : sg5.jobs = sg3.jobs := by rw [hT4d, hS4s]
  have h1sh : sg5.shifts = sg4.shifts := hT5d
  have hs6e : s6.employees = sg5.employees := by rw [← hstore]
  have hs6c : s6.clients = sg5.clients := by rw [← hstore]
  have hs6j : s6.jobs = sg5.jobs := by rw [← hstore]
  have hs6sh : s6.shifts = sg5.shifts := by rw [← hstore]
  have hs6d : s6.dates = sg5.dates := by rw [← hstore]
  have hs6f : s6.facts = sg5.facts ++
      (processRows em1 cm1 jm1 sm1 dm1 df (existingFactKeys sg5 df) [] [] []).1 := by
    rw [← hstore]
  -- uniqueness carried to the final store
  have hnds6e : (s6.employees.map (fun e => e.full_name)).Nodup := by
    rw [hs6e, h1e]
    exact hA7
  have hnds6s : (s6.shifts.map (fun r => shiftKey r.shift_name r.shift_start r.shift_end)).Nodup := by
    rw [hs6sh, h1sh]
    exact hS7s
  have hnds6d : (s6.dates.map (fun r => r.date)).Nodup := by
    rw [hs6d]
    exact hT7d
  have hwfs6d : ∀ dr ∈ s6.dates, cleanDateWithId (.str dr.date) = (dr.date, dr.date_id) := by
    rw [hs6d]
    exact hT8d
  -- the second load's resolvers stage nothing
  have hPemp : ∀ p ∈ uniqueEmployeePairs df,
      dmem (empDict s6.employees) (cleanString p.1 "Unknown Employee") = true := by
    intro p hp
    obtain ⟨e, he, hen, -⟩ := hA8 p hp
    refine (dmem_table_iff _ _ _).mpr ⟨e, ?_, hen⟩
    rw [hs6e, h1e]
    exact he
  have hPcli : ∀ v ∈ uniqueClientVals df,
      dmem (clientDict s6.clients) (cleanString v "Unknown Client") = true := by
    intro v hv
    obtain ⟨c, hc, hcn⟩ := hB7 v hv
    refine (dmem_table_iff _ _ _).mpr ⟨c, ?_, hcn⟩
    rw [hs6c, h1c]
    exact hc
  have hJstage2 : (stageJobs (jobDict s6.jobs) (uniqueJobTriples df) [] []).2 = [] := by
    refine stageJobs_mirror (jobDict sg2.jobs) (jobDict s6.jobs) (uniqueJobTriples df) [] [] []
      (fun k => rfl) ?_ ?_
    · intro x hx
      obtain ⟨j, hj, hjn⟩ := hJ7j x hx
      refine (dmem_table_iff _ _ _).mpr ⟨j, ?_, hjn⟩
      rw [hs6j, h1j]
      exact hj
    · intro n hn
      have hn' := (dmem_table_iff sg2.jobs (fun j => (j.job_name, j.job_id)) n).mp hn
      obtain ⟨j, hj, hjn⟩ := hn'
      refine (dmem_table_iff _ _ _).mpr ⟨j, ?_, hjn⟩
      rw [hs6j, h1j, hJ1j]
      exact List.mem_append.mpr (Or.inl hj)
  have hPsh : ∀ t ∈ uniqueShiftTriples df,
      dmem (shiftDict s6.shifts)
        (shiftKey (cleanString t.1 "Unknown Shift") (cleanTime t.2.1) (cleanTime t.2.2)) = true := by
    intro t ht
    obtain ⟨r, hr, hrk, -⟩ := hS8s t ht
    refine (dmem_table_iff _ _ _).mpr ⟨r, ?_, hrk⟩
    rw [hs6sh, h1sh]
    exact hr
  have hPdt : ∀ t ∈ uniqueDateTriples df,
      dmem (dateDict s6.dates) (cleanDateWithId t.1).1 = true := by
    intro t ht
    obtain ⟨⟨dr, hdr, hdrd, -⟩, -⟩ := hT9d t ht
    refine (dmem_table_iff _ _ _).mpr ⟨dr, ?_, hdrd⟩
    rw [hs6d]
    exact hdr
  obtain ⟨em2, hE2⟩ := bulkCreateEmployees_noNew hPemp
  obtain ⟨cm2, hC2⟩ := bulkCreateClients_noNew hPcli
  obtain ⟨jm2, hJ2⟩ := bulkCreateJobs_noNew hJstage2
  obtain ⟨sm2, hS2⟩ := bulkCreateShifts_noNew hPsh
  obtain ⟨dm2, hD2⟩ := bulkCreateDates_noNew hPdt
  -- the second load's resolver maps agree with the first load's on file keys
  obtain ⟨-, -, -, -, -, -, -, hA8'⟩ := bulkCreateEmployees_spec hnds6e hE2
  obtain ⟨-, -, -, -, -, -, -, hS8'⟩ := bulkCreateShifts_spec hnds6s hS2
  obtain ⟨-, -, -, -, -, -, -, -, hT9'⟩ := bulkCreateDates_spec hnds6d hwfs6d hD2
  -- each filtered row's dedup key: same in both loads and pre-existing
  have hkeys : ∀ p ∈ df, ∃ k, rowKeyOf em1 sm1 dm1 p.2 = some k ∧
      rowKeyOf em2 sm2 dm2 p.2 = some k ∧ k ∈ existingFactKeys s6 df := by
    intro p hp
    have hpair : (p.2.full_name, p.2.role) ∈ uniqueEmployeePairs df := by
      unfold uniqueEmployeePairs
      exact (mem_dedupFirst _ _).mpr (List.mem_map.mpr ⟨p, hp, rfl⟩)
    have hstrip : (p.2.shift_name, p.2.shift_start, p.2.shift_end) ∈ uniqueShiftTriples df := by
      unfold uniqueShiftTriples
      exact (mem_dedupFirst _ _).mpr (List.mem_map.mpr ⟨p, hp, rfl⟩)
    have hdtrip : (p.2.date, p.2.month, p.2.day) ∈ uniqueDateTriples df := by
      unfold uniqueDateTriples
      exact (mem_dedupFirst _ _).mpr (List.mem_map.mpr ⟨p, hp, rfl⟩)
    obtain ⟨e1, he1, he1n, he1g⟩ := hA8 _ hpair
    obtain ⟨e2, he2, he2n, he2g⟩ := hA8' _ hpair
    obtain ⟨r1, hr1, hr1k, hr1g⟩ := hS8s _ hstrip
    obtain ⟨r2, hr2, hr2k, hr2g⟩ := hS8' _ hstrip
    obtain ⟨-, hd1g⟩ := hT9d _ hdtrip
    obtain ⟨-, hd2g⟩ := hT9' _ hdtrip
    have he1' : e1 ∈ s6.employees := by
      rw [hs6e, h1e]
      exact he1
    have hee : e1 = e2 := by
      refine List.inj_on_of_nodup_map hnds6e he1' he2 ?_
      rw [he1n, he2n]
    have hr1' : r1 ∈ s6.shifts := by
      rw [hs6sh, h1sh]
      exact hr1
    have hrr : r1 = r2 := by
      refine List.inj_on_of_nodup_map hnds6s hr1' hr2 ?_
      rw [hr1k, hr2k]
    have hk1 : rowKeyOf em1 sm1 dm1 p.2 =
        some (e1.employee_id, (cleanDateWithId p.2.date).2, r1.shift_id) :=
      rowKeyOf_mk he1g hd1g hr1g
    have hk2 : rowKeyOf em2 sm2 dm2 p.2 =
        some (e2.employee_id, (cleanDateWithId p.2.date).2, r2.shift_id) :=
      rowKeyOf_mk he2g hd2g hr2g
    rw [← hee, ← hrr] at hk2
    have hne : (fileDateIds df).isEmpty = false :=
      fileDateIds_isEmpty_false (List.ne_nil_of_mem hp)
    refine ⟨(e1.employee_id, (cleanDateWithId p.2.date).2, r1.shift_id), hk1, hk2, ?_⟩
    rcases processRows_coverage em1 cm1 jm1 sm1 dm1 df (existingFactKeys sg5 df) [] [] []
      (fun kp hkp => absurd hkp (List.not_mem_nil kp)) p hp _ hk1 with hin | hinD
    · obtain ⟨f, hf, hflo, hfhi, hfk⟩ := existingFactKeys_mem hin
      rw [← hfk]
      refine mem_existingFactKeys hne ?_ hflo hfhi
      rw [hs6f]
      exact List.mem_append.mpr (Or.inl hf)
    · rw [List.mem_map] at hinD
      obtain ⟨f, hfD, hfk⟩ := hinD
      have hdate := processRows_dates em1 cm1 jm1 sm1 dm1
        (fun d => minList (fileDateIds df) ≤ d ∧ d ≤ maxList (fileDateIds df))
        df (existingFactKeys sg5 df) [] [] []
        ?_ (fun f hf => absurd hf (List.not_mem_nil f)) f hfD
      · rw [← hfk]
        refine mem_existingFactKeys hne ?_ hdate.1 hdate.2
        rw [hs6f]
        exact List.mem_append.mpr (Or.inr hfD)
      · intro q hq d hd
        have hqtrip : (q.2.date, q.2.month, q.2.day) ∈ uniqueDateTriples df := by
          unfold uniqueDateTriples
          exact (mem_dedupFirst _ _).mpr (List.mem_map.mpr ⟨q, hq, rfl⟩)
        obtain ⟨-, hqg⟩ := hT9d _ hqtrip
        have hqg' : dget dm1 (cleanDateWithId q.2.date).1 =
            some (cleanDateWithId q.2.date).2 := hqg
        have hd' : dget dm1 (cleanDateWithId q.2.date).1 = some d := hd
        rw [hd'] at hqg'
        injection hqg' with hqg'
        show minList (fileDateIds df) ≤ d ∧ d ≤ maxList (fileDateIds df)
        rw [hqg']
        exact ⟨minList_le (mem_fileDateIds hq), le_maxList (mem_fileDateIds hq)⟩
  -- the second fact stage: everything skips as pre-existing
  have hPR2 : processRows em2 cm2 jm2 sm2 dm2 df (existingFactKeys s6 df) [] [] [] =
      ([], [] ++ df.map preRecOf) :=
    processRows_allPre em2 cm2 jm2 sm2 dm2 df (existingFactKeys s6 df) [] [] []
      (fun p hp => by
        obtain ⟨k, -, hk2, hkin⟩ := hkeys p hp
        exact ⟨k, hk2, hkin⟩)
  have hF2 : bulkCreateFacts (fun _ => true) s6 df em2 cm2 jm2 sm2 dm2 =
      .ok (0, df.map preRecOf, s6) := by
    rw [bulkCreateFacts_allOk, hPR2]
    simp
  -- assemble the second load
  refine ⟨⟨0, df.map preRecOf, verifyTotals s6 df (df.map preRecOf), s6⟩, ?_, rfl, rfl, rfl, ?_⟩
  · show loadExcelData allOk cfg s6 rows = _
    simp only [loadExcelData, allOk, ← hdfdef]
    split
    · rename_i sx heq
      rw [hE2] at heq
      exact Except.noConfusion heq
    rename_i emx sx heq
    rw [hE2] at heq
    injection heq with heq
    rw [Prod.mk.injEq] at heq
    obtain ⟨rfl, rfl⟩ := heq
    split
    · rename_i sx heq
      rw [hC2] at heq
      exact Except.noConfusion heq
    rename_i cmx sx heq
    rw [hC2] at heq
    injection heq with heq
    rw [Prod.mk.injEq] at heq
    obtain ⟨rfl, rfl⟩ := heq
    split
    · rename_i sx heq
      rw [hJ2] at heq
      exact Except.noConfusion heq
    rename_i jmx sx heq
    rw [hJ2] at heq
    injection heq with heq
    rw [Prod.mk.injEq] at heq
    obtain ⟨rfl, rfl⟩ := heq
    split
    · rename_i sx heq
      rw [hS2] at heq
      exact Except.noConfusion heq
    rename_i smx sx heq
    rw [hS2] at heq
    injection heq with heq
    rw [Prod.mk.injEq] at heq
    obtain ⟨rfl, rfl⟩ := heq
    split
    · rename_i sx heq
      rw [hD2] at heq
      exact Except.noConfusion heq
    rename_i dmx sx heq
    rw [hD2] at heq
    injection heq with heq
    rw [Prod.mk.injEq] at heq
    obtain ⟨rfl, rfl⟩ := heq
    split
    · rename_i sx heq
      rw [hF2] at heq
      exact Except.noConfusion heq
    rename_i nx skipsx sx heq
    rw [hF2] at heq
    injection heq with heq
    rw [Prod.mk.injEq, Prod.mk.injEq] at heq
    obtain ⟨rfl, rfl, rfl⟩ := heq
    rfl
  · intro sk hsk
    rw [List.mem_map] at hsk
    obtain ⟨p, hp, rfl⟩ := hsk
    exact ⟨rfl, rfl⟩

/-- A one-row file for exercising the idempotence theorem concretely. -/
def c3rows : List Row :=
  [⟨.str "J", .str "Morning", .str "Ada Smith", .str "L", .str "S", .str "R", .str "March",
    .str "2024-03-01", .str "Fri", .str "08:00", .str "16:00", .num 8, .num 8, .num 10,
    .num 0, .num 0, .num 80, .num 12, .num 96, .boolV false, .boolV false, .str "C1",
    .str "ok"⟩]

/-- The completed output of loading the one-row file into an empty store. -/
def c3out : LoadOutput :=
  match loadExcelData allOk ⟨[], []⟩ emptyStore c3rows with
  | .complete o => o
  | .error s => ⟨0, [], ⟨0, 0, false, true⟩, s⟩

set_option maxRecDepth 40000 in
/-- C3 witness: the idempotence theorem applied to the concrete one-row file
loaded into the empty store, whose first load completes. -/
theorem claim_C3_witness :
    StoreWF emptyStore ∧
    loadExcelData allOk ⟨[], []⟩ emptyStore c3rows = .complete c3out ∧
    ∃ o2 : LoadOutput,
      loadExcelData allOk ⟨[], []⟩ c3out.store c3rows = .complete o2 ∧
      o2.inserted = 0 ∧
      o2.store = c3out.store ∧
      o2.skipped = ((filterUnwantedData ⟨[], []⟩ c3rows.enum).1).map preRecOf ∧
      (∀ sk ∈ o2.skipped, sk.reason = "Duplicate" ∧ sk.duplicate_type = some "pre_existing") :=
  ⟨⟨List.nodup_nil, List.nodup_nil, List.nodup_nil, fun dr h => absurd h (List.not_mem_nil dr)⟩,
    rfl,
    claim_C3_idempotent ⟨[], []⟩ emptyStore c3rows c3out
      ⟨List.nodup_nil, List.nodup_nil, List.nodup_nil, fun dr h => absurd h (List.not_mem_nil dr)⟩
      rfl⟩

end ChartedLoader
